import Mathlib

/-!
Verification of the partition/combinatorics enumeration core of `pyphi`
(`pyphi/partition.py` and `pyphi/combinatorics.py`).

Each Python function is shallowly embedded as an executable Lean definition,
translated clause-by-clause from the source.  Python `int` parameters that the
source compares against `0` are modelled as `Int`; list indices and elements
are modelled as `Nat`.  Generators are modelled as the list of their yielded
values, in yield order.
-/

namespace PyPhi

/-- Python `seq[i]` for an in-range nonnegative index (the source only reads
indices produced by `range(len(seq))`-style enumerations). -/
def pyGet (seq : List Nat) (i : Nat) : Nat := seq.getD i 0

/-- From `bipartition_indices`: the inner loop appends, in increasing order of
`n < N`, each `n` to `part[bit]` where `bit = (i >> n) & 1`.  `part[1]` is
therefore the increasing list of indices whose bit in `i` is set. -/
def onesBelow (i N : Nat) : List Nat :=
  (List.range N).filter (fun n => i.testBit n)

/-- From `bipartition_indices`: `part[0]`, the increasing list of indices
`n < N` whose bit in `i` is clear. -/
def zerosBelow (i N : Nat) : List Nat :=
  (List.range N).filter (fun n => !(i.testBit n))

/-- `partition.py`, `bipartition_indices(N)`: returns `[]` when `N <= 0`, else
for `i in range(2 ** (N - 1))` the pair `(tuple(part[1]), tuple(part[0]))`. -/
def bipartition_indices (N : Int) : List (List Nat × List Nat) :=
  if N ≤ 0 then []
  else (List.range (2 ^ (N.toNat - 1))).map
    (fun i => (onesBelow i N.toNat, zerosBelow i N.toNat))

/-- `partition.py`, `bipartition(seq, nontrivial)`: the local list
`bipartitions`, mapping each index pair through `seq`. -/
def bipartition_list (seq : List Nat) : List (List Nat × List Nat) :=
  (bipartition_indices (seq.length : Int)).map
    (fun p => (p.1.map (pyGet seq), p.2.map (pyGet seq)))

/-- `partition.py`, `bipartition(seq, nontrivial)`: with `nontrivial` the
first pair is dropped. -/
def bipartition (seq : List Nat) (nontrivial : Bool) : List (List Nat × List Nat) :=
  if nontrivial then (bipartition_list seq).drop 1 else bipartition_list seq

/-- `partition.py`, `directed_bipartition_indices(N)`:
`indices + [idx[::-1] for idx in indices[::-1]]`. -/
def directed_bipartition_indices (N : Int) : List (List Nat × List Nat) :=
  bipartition_indices N ++ ((bipartition_indices N).reverse.map (fun p => (p.2, p.1)))

/-- `partition.py`, `directed_bipartition(seq, nontrivial)`: the local list
`bipartitions`, mapping each directed index pair through `seq`. -/
def directed_bipartition_list (seq : List Nat) : List (List Nat × List Nat) :=
  (directed_bipartition_indices (seq.length : Int)).map
    (fun p => (p.1.map (pyGet seq), p.2.map (pyGet seq)))

/-- `partition.py`, `directed_bipartition(seq, nontrivial)`: with `nontrivial`,
Python's `bipartitions[1:-1]` drops the first and last entries. -/
def directed_bipartition (seq : List Nat) (nontrivial : Bool) :
    List (List Nat × List Nat) :=
  if nontrivial then ((directed_bipartition_list seq).drop 1).dropLast
  else directed_bipartition_list seq

/-- `itertools.product([0, 1, 2], repeat=N)` in yield order: the first
coordinate varies slowest. -/
def prodRepeat (base : List Nat) : Nat → List (List Nat)
  | 0 => [[]]
  | n + 1 => base.flatMap (fun b => (prodRepeat base n).map (fun key => b :: key))

/-- From `directed_tripartition_indices`: `part[c]` after the inner loop is the
increasing list of positions `j` of `key` holding value `c`. -/
def selectIdx (key : List Nat) (c : Nat) : List Nat :=
  (List.range key.length).filter (fun j => key.getD j 3 == c)

/-- `partition.py`, `directed_tripartition_indices(N)`: returns `[]` when
`N <= 0`, else for each `key` in `product([0,1,2], repeat=N)` the triple of
position lists grouped by the value chosen at each position. -/
def directed_tripartition_indices (N : Int) :
    List (List Nat × List Nat × List Nat) :=
  if N ≤ 0 then []
  else (prodRepeat [0, 1, 2] N.toNat).map
    (fun key => (selectIdx key 0, selectIdx key 1, selectIdx key 2))

/-- `partition.py`, `directed_tripartition(seq)`: maps each index triple
through `seq`. -/
def directed_tripartition (seq : List Nat) :
    List (List Nat × List Nat × List Nat) :=
  (directed_tripartition_indices (seq.length : Int)).map
    (fun p => (p.1.map (pyGet seq), p.2.1.map (pyGet seq), p.2.2.map (pyGet seq)))

/-- `partition.py`, `_partitions`: insertion of `first` into block `i` of an
existing partition `smaller`, Python's
`smaller[:n] + [[first] + subset] + smaller[n + 1:]`. -/
def insertAt (first : Nat) (smaller : List (List Nat)) (i : Nat) : List (List Nat) :=
  smaller.take i ++ ((first :: smaller.getD i []) :: smaller.drop (i + 1))

/-- `partition.py`, `_partitions(collection)`: all set partitions, yielded by
inserting the first element into each block of each partition of the rest, or
as a new singleton block. -/
def _partitions : List Nat → List (List (List Nat))
  | [] => []
  | [x] => [[[x]]]
  | first :: y :: rest =>
    (_partitions (y :: rest)).flatMap (fun smaller =>
      ((List.range smaller.length).map (insertAt first smaller)) ++ [[first] :: smaller])

/-- `partition.py`, `partitions(collection, nontrivial)`: with `nontrivial`,
Python's `islice(_partitions(collection), 1, None)` drops the first yield. -/
def partitions (collection : List Nat) (nontrivial : Bool) : List (List (List Nat)) :=
  if nontrivial then (_partitions collection).drop 1 else _partitions collection

/-- `partition.py`, `_visit(n, a, k, collection)`: `ps[c]` collects
`collection[j]` for `j in range(n)` in increasing order with `a[j + 1] == c`
(the source appends each `collection[j]` to `ps[a[j + 1]]`; the algorithm's
invariant keeps `a[j + 1] < k`). -/
def _visit (n : Nat) (a : List Nat) (k : Nat) (collection : List Nat) :
    List (List Nat) :=
  (List.range k).map (fun c =>
    ((List.range n).filter (fun j => a.getD (j + 1) 0 == c)).map
      (fun j => collection.getD j 0))

/-!
`partition.py`, `_f` and `_b` (Knuth's mutually recursive generators for
k-partitions).  The Python generators mutate the shared array `a`; the
embedding passes the array state explicitly and returns the list of yielded
partitions together with the final array.  Each `while` loop becomes its own
recursive function.  A step-count `fuel` argument (decremented at every call
and loop iteration) makes the recursion structural; `none` means the fuel was
exhausted, and the verification below shows the fuel provided by
`k_partitions` always suffices on the reachable states.
-/

mutual

/-- `partition.py`, `_f(mu, nu, sigma, n, a, k, collection)`. -/
def _f : Nat → Nat → Nat → Nat → Nat → List Nat → Nat → List Nat →
    Option (List (List (List Nat)) × List Nat)
  | 0, _, _, _, _, _, _, _ => none
  | fuel + 1, mu, nu, sigma, n, a, k, collection => do
    let (out1, a) ←
      if mu == 2 then
        some ([_visit n a k collection], a)
      else
        _f fuel (mu - 1) (nu - 1) ((mu + sigma) % 2) n a k collection
    if nu == mu + 1 then do
      let a := a.set mu (mu - 1)
      let out2 := [_visit n a k collection]
      let (out3, a) ← _fWhileA fuel nu n a k collection
      some (out1 ++ out2 ++ out3, a)
    else if nu > mu + 1 then do
      let a := if (mu + sigma) % 2 == 1 then a.set (nu - 1) (mu - 1)
        else a.set mu (mu - 1)
      let (out2, a) ←
        if (a.getD nu 0 + sigma) % 2 == 1 then
          _b fuel mu (nu - 1) 0 n a k collection
        else
          _f fuel mu (nu - 1) 0 n a k collection
      let (out3, a) ← _fWhileB fuel mu nu sigma n a k collection
      some (out1 ++ out2 ++ out3, a)
    else
      some (out1, a)
termination_by structural fuel => fuel

/-- The first `while a[nu] > 0` loop of `_f` (the `nu == mu + 1` branch):
decrement `a[nu]` and yield a visit each iteration. -/
def _fWhileA : Nat → Nat → Nat → List Nat → Nat → List Nat →
    Option (List (List (List Nat)) × List Nat)
  | 0, _, _, _, _, _ => none
  | fuel + 1, nu, n, a, k, collection =>
    if a.getD nu 0 > 0 then do
      let a := a.set nu (a.getD nu 0 - 1)
      let (out, a') ← _fWhileA fuel nu n a k collection
      some (_visit n a k collection :: out, a')
    else
      some ([], a)
termination_by structural fuel => fuel

/-- The second `while a[nu] > 0` loop of `_f` (the `nu > mu + 1` branch):
decrement `a[nu]`, then recurse into `_b` or `_f` according to the parity of
`a[nu] + sigma`. -/
def _fWhileB : Nat → Nat → Nat → Nat → Nat → List Nat → Nat → List Nat →
    Option (List (List (List Nat)) × List Nat)
  | 0, _, _, _, _, _, _, _ => none
  | fuel + 1, mu, nu, sigma, n, a, k, collection =>
    if a.getD nu 0 > 0 then do
      let a := a.set nu (a.getD nu 0 - 1)
      let (out1, a) ←
        if (a.getD nu 0 + sigma) % 2 == 1 then
          _b fuel mu (nu - 1) 0 n a k collection
        else
          _f fuel mu (nu - 1) 0 n a k collection
      let (out2, a) ← _fWhileB fuel mu nu sigma n a k collection
      some (out1 ++ out2, a)
    else
      some ([], a)
termination_by structural fuel => fuel

/-- `partition.py`, `_b(mu, nu, sigma, n, a, k, collection)`. -/
def _b : Nat → Nat → Nat → Nat → Nat → List Nat → Nat → List Nat →
    Option (List (List (List Nat)) × List Nat)
  | 0, _, _, _, _, _, _, _ => none
  | fuel + 1, mu, nu, sigma, n, a, k, collection => do
    let (out1, a) ←
      if nu == mu + 1 then do
        let (out1, a) ← _bWhileA fuel mu nu n a k collection
        let out2 := [_visit n a k collection]
        let a := a.set mu 0
        some (out1 ++ out2, a)
      else if nu > mu + 1 then do
        let (out1, a) ←
          if (a.getD nu 0 + sigma) % 2 == 1 then
            _f fuel mu (nu - 1) 0 n a k collection
          else
            _b fuel mu (nu - 1) 0 n a k collection
        let (out2, a) ← _bWhileB fuel mu nu sigma n a k collection
        let a := if (mu + sigma) % 2 == 1 then a.set (nu - 1) 0 else a.set mu 0
        some (out1 ++ out2, a)
      else
        some ([], a)
    if mu == 2 then
      some (out1 ++ [_visit n a k collection], a)
    else do
      let (out3, a) ← _b fuel (mu - 1) (nu - 1) ((mu + sigma) % 2) n a k collection
      some (out1 ++ out3, a)
termination_by structural fuel => fuel

/-- The `while a[nu] < mu - 1` loop of `_b` (the `nu == mu + 1` branch):
yield a visit, then increment `a[nu]`. -/
def _bWhileA : Nat → Nat → Nat → Nat → List Nat → Nat → List Nat →
    Option (List (List (List Nat)) × List Nat)
  | 0, _, _, _, _, _, _ => none
  | fuel + 1, mu, nu, n, a, k, collection =>
    if a.getD nu 0 < mu - 1 then do
      let out0 := _visit n a k collection
      let a := a.set nu (a.getD nu 0 + 1)
      let (out, a') ← _bWhileA fuel mu nu n a k collection
      some (out0 :: out, a')
    else
      some ([], a)
termination_by structural fuel => fuel

/-- The `while a[nu] < mu - 1` loop of `_b` (the `nu > mu + 1` branch):
increment `a[nu]`, then recurse into `_f` or `_b` according to the parity of
`a[nu] + sigma`. -/
def _bWhileB : Nat → Nat → Nat → Nat → Nat → List Nat → Nat → List Nat →
    Option (List (List (List Nat)) × List Nat)
  | 0, _, _, _, _, _, _, _ => none
  | fuel + 1, mu, nu, sigma, n, a, k, collection =>
    if a.getD nu 0 < mu - 1 then do
      let a := a.set nu (a.getD nu 0 + 1)
      let (out1, a) ←
        if (a.getD nu 0 + sigma) % 2 == 1 then
          _f fuel mu (nu - 1) 0 n a k collection
        else
          _b fuel mu (nu - 1) 0 n a k collection
      let (out2, a) ← _bWhileB fuel mu nu sigma n a k collection
      some (out1 ++ out2, a)
    else
      some ([], a)
termination_by structural fuel => fuel

end

/-- Python list assignment `a[i] = v` with Python's negative-index wrapping;
`none` models an `IndexError`. -/
def pySet (a : List Nat) (i : Int) (v : Nat) : Option (List Nat) :=
  let j : Int := if i < 0 then i + (a.length : Int) else i
  if 0 ≤ j ∧ j < (a.length : Int) then some (a.set j.toNat v) else none

/-- `partition.py`, `k_partitions`: the initialization
`a = [0] * (n + 1); for j in range(1, k + 1): a[n - k + j] = j - 1`. -/
def initA (n k : Nat) : Option (List Nat) :=
  (List.range' 1 k).foldlM (fun a (j : Nat) => pySet a ((n : Int) - (k : Int) + (j : Int)) (j - 1))
    (List.replicate (n + 1) 0)

/-- Fuel budget for `_f`; the sufficiency proof below shows the recursion
depth on reachable states is below this bound. -/
def kPartitionFuel (n k : Nat) : Nat := (k + 3) * (n + 3)

/-- `partition.py`, `k_partitions(collection, k)`: the special cases for
`n == 0`, `k < 1`, `k == 1`, `k == n`, else Knuth's algorithm via `_f`.
`none` models a Python exception or (never on reachable states) exhausted
fuel. -/
def k_partitions (collection : List Nat) (k : Int) :
    Option (List (List (List Nat))) :=
  let n := collection.length
  if n = 0 ∨ k < 1 then some []
  else if k = 1 then some [[collection]]
  else if k = (n : Int) then some [collection.map (fun item => [item])]
  else do
    let a ← initA n k.toNat
    let (out, _) ← _f (kPartitionFuel n k.toNat) k.toNat n 0 n a k.toNat collection
    some out

/-- Stirling numbers of the second kind (verification-side). -/
def stirling : Nat → Nat → Nat
  | 0, 0 => 1
  | 0, _ + 1 => 0
  | _ + 1, 0 => 0
  | n + 1, k + 1 => (k + 1) * stirling n (k + 1) + stirling n k

/-- Bell numbers, as the row sums of the Stirling triangle
(verification-side). -/
def Bell (n : Nat) : Nat := ∑ k ∈ Finset.range (n + 1), stirling n k

/-- The set partition denoted by an emitted block list (verification-side). -/
def partFinset (p : List (List Nat)) : Finset (Finset Nat) :=
  (p.map List.toFinset).toFinset

/-- `Q` is a set partition of `S`: non-empty pairwise disjoint blocks covering
exactly `S` (verification-side). -/
def IsSetPartitionOf (Q : Finset (Finset Nat)) (S : Finset Nat) : Prop :=
  (∀ b ∈ Q, b ≠ ∅) ∧
  (∀ b1 ∈ Q, ∀ b2 ∈ Q, b1 ≠ b2 → ∀ x ∈ b1, x ∉ b2) ∧
  (∀ x, x ∈ S ↔ ∃ b ∈ Q, x ∈ b)

/-- Invariant available for the recursive step of `_partitions` on a
duplicate-free collection: the sub-partition has non-empty blocks, a
duplicate-free flattening, and does not contain the new first element
(verification-side). -/
def GoodList (first : Nat) (s : List (List Nat)) : Prop :=
  [] ∉ s ∧ s.flatten.Nodup ∧ first ∉ s.flatten

/-- Remove an element from its block in a set partition, dropping the block if
it becomes empty (verification-side). -/
def removeFirst (first : Nat) (Q : Finset (Finset Nat)) : Finset (Finset Nat) :=
  (Q.filter (fun b => first ∉ b)) ∪
    (((Q.filter (fun b => first ∈ b)).image (fun b => b.erase first)).filter
      (fun b => b ≠ ∅))

/-- Modelled from the spec: `Part` from `models/cuts.py` (not under `src/`) —
§3 Data Model: "an ordered pair (mechanism-subset, purview-subset)", compared
and hashed on both subsets. -/
structure Part where
  mechanism : List Nat
  purview : List Nat
deriving DecidableEq

/-- `itertools.product(xs, ys)` in yield order: first coordinate varies
slowest. -/
def pyProduct {α β : Type} (xs : List α) (ys : List β) : List (α × β) :=
  xs.flatMap (fun x => ys.map (fun y => (x, y)))

/-- `partition.py`, `mip_bipartitions(mechanism, purview)`: each pairing of a
mechanism bipartition with a directed purview bipartition, kept when
`(n[0] or d[0]) and (n[1] or d[1])` (Python truthiness of tuples is
non-emptiness), yielding `Bipartition(Part(n[0], d[0]), Part(n[1], d[1]))`
(a `Bipartition` is its ordered pair of two parts). -/
def mip_bipartitions (mechanism purview : List Nat) : List (Part × Part) :=
  (pyProduct (bipartition mechanism false) (directed_bipartition purview false)).filterMap
    (fun nd =>
      if (nd.1.1 ≠ [] ∨ nd.2.1 ≠ []) ∧ (nd.1.2 ≠ [] ∨ nd.2.2 ≠ []) then
        some (Part.mk nd.1.1 nd.2.1, Part.mk nd.1.2 nd.2.2)
      else none)

/-- `partition.py`, `wedge_partitions`: Python truthiness of a part,
`part.mechanism or part.purview`. -/
def partNonempty (p : Part) : Bool := !p.mechanism.isEmpty || !p.purview.isEmpty

/-- `partition.py`, `wedge_partitions`: the test inside `compressible` for one
pair of parts: both non-empty and the concatenated mechanisms or the
concatenated purviews empty. -/
def mergeablePair (x y : Part) : Bool :=
  partNonempty x && partNonempty y &&
    ((x.mechanism ++ y.mechanism).isEmpty || (x.purview ++ y.purview).isEmpty)

/-- `partition.py`, `wedge_partitions`, `compressible(tripart)`: some of the
three part pairs is mergeable. -/
def compressible (t : Part × Part × Part) : Bool :=
  mergeablePair t.1 t.2.1 || mergeablePair t.1 t.2.2 || mergeablePair t.2.1 t.2.2

/-- `partition.py`, `wedge_partitions`, `valid(factoring)`. -/
def validFactoring (n : List Nat × List Nat) (d : List Nat × List Nat × List Nat) :
    Bool :=
  (!n.1.isEmpty || !d.1.isEmpty) && (!n.2.isEmpty || !d.2.1.isEmpty) &&
    ((!n.1.isEmpty && !n.2.isEmpty) || d.1.isEmpty || d.2.1.isEmpty)

/-- Lexicographic comparison of index tuples (verification-side, for the
spec-modelled canonical ordering). -/
def listLe : List Nat → List Nat → Bool
  | [], _ => true
  | _ :: _, [] => false
  | a :: as, b :: bs => if a < b then true else if b < a then false else listLe as bs

/-- Modelled from the spec: a total order on parts, comparing on both subsets
(§3: parts are compared on both subsets). -/
def partLe (p q : Part) : Bool :=
  if p.mechanism = q.mechanism then listLe p.purview q.purview
  else listLe p.mechanism q.mechanism

/-- Order a pair of parts. -/
def sort2 (x y : Part) : Part × Part := if partLe x y then (x, y) else (y, x)

/-- Modelled from the spec: `Tripartition.normalize` from `models/cuts.py`
(not under `src/`) — §4.6 CanonicalPartition: "a canonical part ordering so
that semantically identical partitions compare equal regardless of
construction order"; realized as sorting the three parts. -/
def normalizeTri (t : Part × Part × Part) : Part × Part × Part :=
  let ab := sort2 t.1 t.2.1
  let bc := sort2 ab.2 t.2.2
  let ac := sort2 ab.1 bc.1
  (ac.1, ac.2, bc.2)

/-- One step of the `wedge_partitions` loop: normalize the candidate and
yield it unless it is compressible or already seen (`yielded` is modelled by
the accumulator of yields so far). -/
def wedgeStep (acc : List (Part × Part × Part))
    (nd : (List Nat × List Nat) × (List Nat × List Nat × List Nat)) :
    List (Part × Part × Part) :=
  let tripart := normalizeTri
    (Part.mk nd.1.1 nd.2.1, Part.mk nd.1.2 nd.2.2.1, Part.mk [] nd.2.2.2)
  if (!compressible tripart) && !(decide (tripart ∈ acc)) then acc ++ [tripart]
  else acc

/-- `partition.py`, `wedge_partitions(mechanism, purview)`: the filtered
product of mechanism bipartitions and directed purview tripartitions, each
normalized, with compressible candidates dropped and duplicates suppressed by
the seen-set. -/
def wedge_partitions (mechanism purview : List Nat) : List (Part × Part × Part) :=
  ((pyProduct (bipartition mechanism false) (directed_tripartition purview)).filter
    (fun nd => validFactoring nd.1 nd.2)).foldl wedgeStep []

/-- `partition.py`, `all_partitions`: the call `k_partitions(purview, k)`
iterated by the generator; `kPartitionFuel` suffices on all reachable
arguments (see the `_f` verification), so the `getD` default is never
taken. -/
def kPartitionsList (collection : List Nat) (k : Nat) : List (List (List Nat)) :=
  (k_partitions collection (k : Int)).getD []

/-- `partition.py`, `all_partitions(mechanism, purview)`.  Python's
`set(permutations(...))` is modelled as the duplicate-free list of
permutations in first-occurrence order (the claim under verification is
order-independent). -/
def all_partitions (mechanism purview : List Nat) : List (List Part) :=
  (partitions mechanism false).flatMap (fun mechanism_partition =>
    (List.range' 1 (min purview.length (mechanism_partition ++ [[]]).length)).flatMap
      (fun n_purview_parts =>
        (kPartitionsList purview n_purview_parts).flatMap (fun purview_partition =>
          ((purview_partition ++ List.replicate
              ((mechanism_partition ++ [[]]).length - n_purview_parts)
              ([] : List Nat)).permutations).dedup.filterMap
            (fun purview_permutation =>
              if ((((mechanism_partition ++ [[]]).zipWith Part.mk
                    purview_permutation).headD (Part.mk [] [])).mechanism = mechanism ∧
                  (((mechanism_partition ++ [[]]).zipWith Part.mk
                    purview_permutation).headD (Part.mk [] [])).purview ≠ []) then
                none
              else
                some ((mechanism_partition ++ [[]]).zipWith Part.mk
                  purview_permutation)))))

/-- The same enumeration as `all_partitions` but without the exclusion test:
every generated mechanism-partition / purview-permutation candidate
(verification-side). -/
def all_partitions_candidates (mechanism purview : List Nat) : List (List Part) :=
  (partitions mechanism false).flatMap (fun mechanism_partition =>
    (List.range' 1 (min purview.length (mechanism_partition ++ [[]]).length)).flatMap
      (fun n_purview_parts =>
        (kPartitionsList purview n_purview_parts).flatMap (fun purview_partition =>
          ((purview_partition ++ List.replicate
              ((mechanism_partition ++ [[]]).length - n_purview_parts)
              ([] : List Nat)).permutations).dedup.map
            (fun purview_permutation =>
              (mechanism_partition ++ [[]]).zipWith Part.mk purview_permutation))))

/-- `combinatorics.py`, `pair_indices(n, m=None, k)` with `m = None`: pairs
`(i, j)` with `i < n` and `i + k ≤ j < n`, in loop order. -/
def pair_indices (n k : Nat) : List (Nat × Nat) :=
  (List.range n).flatMap (fun i =>
    (List.range' (i + k) (n - (i + k))).map (fun j => (i, j)))

/-- `combinatorics.py`, `combinations_with_nonempty_intersection_by_order`:
the list `pairs = list(map(frozenset, pair_indices(n, k=1)))`. -/
def pairsFS (n : Nat) : List (Finset Nat) :=
  (pair_indices n 1).map (fun ij => ({ij.1, ij.2} : Finset Nat))

/-- The initial cache `intersections = {pair: intersection ...}`, modelled as
a function from keys updated left-to-right (unused keys map to `∅`). -/
def initInters (sets : List (Finset Nat)) (n : Nat) : Finset Nat → Finset Nat :=
  (pair_indices n 1).foldl
    (fun f ij => fun C => if C = ({ij.1, ij.2} : Finset Nat)
      then (sets.getD ij.1 ∅) ∩ (sets.getD ij.2 ∅) else f C)
    (fun _ => ∅)

/-- The initial `combinations` dict: `{2: set(pair for pair in pairs if
intersections[pair])}` over the `defaultdict(set)`. -/
def initCombs (sets : List (Finset Nat)) (n : Nat) : Nat → Finset (Finset Nat) :=
  fun s => if s = 2 then
    ((pairsFS n).filter (fun pr => initInters sets n pr ≠ ∅)).toFinset
  else ∅

/-- State of the inner `for i in range(n)` loop. -/
structure InnerState where
  S : Finset (Finset Nat)
  newCombs : Finset (Finset Nat)
  inters : Finset Nat → Finset Nat
  broken : Bool

/-- One iteration of the inner loop: drop the combinations containing `i`
(`covered`), extend each remaining combination whose cached intersection
still meets `sets[i]`, cache the new intersections, and break once the
working set is exhausted. -/
def innerStep (sets : List (Finset Nat)) (st : InnerState) (i : Nat) : InnerState :=
  if st.broken then st
  else
    let extendable := st.S.filter
      (fun C => i ∉ C ∧ (sets.getD i ∅) ∩ st.inters C ≠ ∅)
    let S' := st.S.filter (fun C => i ∉ C)
    { S := S',
      newCombs := st.newCombs ∪ extendable.image (fun C => insert i C),
      inters := fun D =>
        if i ∈ D ∧ D.erase i ∈ extendable then
          (sets.getD i ∅) ∩ st.inters (D.erase i)
        else st.inters D,
      broken := decide (S' = ∅) }

/-- State of the outer `for k in range(2, max_size)` loop. -/
structure OuterState where
  combs : Nat → Finset (Finset Nat)
  inters : Finset Nat → Finset Nat
  broken : Bool

/-- One iteration of the outer loop: when size-`k` combinations remain, run
the inner loop and record the size-`k + 1` combinations; otherwise break. -/
def outerStep (sets : List (Finset Nat)) (n : Nat) (st : OuterState) (k : Nat) :
    OuterState :=
  if st.broken then st
  else if st.combs k ≠ ∅ then
    let inner := (List.range n).foldl (innerStep sets) ⟨st.combs k, ∅, st.inters, false⟩
    { combs := fun s => if s = k + 1 then st.combs s ∪ inner.newCombs else st.combs s,
      inters := inner.inters,
      broken := false }
  else
    { st with broken := true }

/-- `combinatorics.py`, `combinations_with_nonempty_intersection_by_order`:
returns the mapping from combination size to the set of index combinations;
an entry is present at size `s` iff `s ≥ max(2, min_size)` and the stored set
is non-empty (empty entries are invisible at membership level). -/
def combinations_with_nonempty_intersection_by_order (sets : List (Finset Nat))
    (min_size : Int) (max_size : Option Int) : Nat → Finset (Finset Nat) :=
  let n := sets.length
  let msz : Int := max_size.getD (n : Int)
  let stf := (List.range' 2 (msz - 2).toNat).foldl (outerStep sets n)
    ⟨initCombs sets n, initInters sets n, false⟩
  fun s => if max 2 min_size ≤ (s : Int) then stf.combs s else ∅

/-- The inner loop of `combinations_with_nonempty_intersection_by_order`
stopped after `m` iterations (verification-side). -/
def innerFoldAt (sets : List (Finset Nat)) (S0 : Finset (Finset Nat))
    (inters0 : Finset Nat → Finset Nat) (m : Nat) : InnerState :=
  (List.range m).foldl (innerStep sets) ⟨S0, ∅, inters0, false⟩

/-- The intersection of the sets selected by `C` is non-empty
(verification-side). -/
def NEI (sets : List (Finset Nat)) (C : Finset Nat) : Prop :=
  ∃ x, ∀ i ∈ C, x ∈ sets.getD i ∅

/-- `C` is a size-`k` combination of set indices with non-empty intersection
(verification-side). -/
def ValidComb (sets : List (Finset Nat)) (k : Nat) (C : Finset Nat) : Prop :=
  C ⊆ Finset.range sets.length ∧ C.card = k ∧ NEI sets C

/-- Overwrite positions `1 .. s.length` of the array `a` with the string `s`
(verification-side view of the mutable array of `_f`/`_b`: position 0 and the
frozen suffix of `a` are kept). -/
def ovw (a s : List Nat) : List Nat := a.take 1 ++ s ++ a.drop (s.length + 1)

/-- The entry string of `_f μ ν σ` on positions `1 .. ν`:
`ν - μ + 1` zeros followed by `1, …, μ - 1` (verification-side). -/
def minStr (μ ν : Nat) : List Nat :=
  List.replicate (ν - μ + 1) 0 ++ List.range' 1 (μ - 1)

/-- The exit string of `_f μ ν σ` on positions `1 .. ν` (also the entry
string of `_b μ ν σ`): for even `σ` it is `0, 1, …, μ - 1` followed by
zeros, for odd `σ` it is zeros followed by `1, …, μ - 1, 0`
(verification-side). -/
def endF (μ ν σ : Nat) : List Nat :=
  if σ % 2 = 1 then
    List.replicate (ν - μ) 0 ++ List.range' 1 (μ - 1) ++ [0]
  else
    List.range μ ++ List.replicate (ν - μ) 0

/-- The sequence of strings (positions `1 .. ν` of the array) visited by
`_f μ ν σ` when entered at `minStr μ ν`; `_b μ ν σ` visits the same strings
in reverse order (verification-side). -/
def grayF : Nat → Nat → Nat → List (List Nat)
  | _, 0, _ => []
  | μ, ν + 1, σ =>
    (if μ = 2 then [minStr 2 (ν + 1)]
     else (grayF (μ - 1) ν ((μ + σ) % 2)).map (fun s => s ++ [μ - 1])) ++
    (if ν + 1 = μ + 1 then
      (List.range μ).reverse.map (fun j => List.range μ ++ [j])
     else if μ + 1 < ν + 1 then
      (List.range μ).reverse.flatMap (fun j =>
        (if (j + σ) % 2 = 1 then (grayF μ ν 0).reverse else grayF μ ν 0).map
          (fun s => s ++ [j]))
     else [])
termination_by structural μ ν σ => ν

/-- Prefix (positions `1 .. ν - 1`) of the array at the head of the `while`
loop of `_f μ ν σ` (for `ν = m + 4 + e`, `μ = m + 2`) when `a[ν] = j`: the
exit string of the inner call made at value `j` (verification-side). -/
def wfStr (m e σ j : Nat) : List Nat :=
  if (j + σ) % 2 = 1 then minStr (m + 2) (m + 3 + e)
  else endF (m + 2) (m + 3 + e) 0

/-- Prefix of the array at the head of the `while` loop of `_b μ ν σ` when
`a[ν] = j`: the exit string of the inner call made at value `j`
(verification-side). -/
def pbStr (m e σ j : Nat) : List Nat :=
  if (j + σ) % 2 = 1 then endF (m + 2) (m + 3 + e) 0
  else minStr (m + 2) (m + 3 + e)

/-- Index of the first occurrence of `c` in `s` (`s.length` when absent)
(verification-side). -/
def firstIdx : List Nat → Nat → Nat
  | [], _ => 0
  | v :: s, c => if v = c then 0 else firstIdx s c + 1

/-- `s` is canonically labelled: among the labels below `μ`, first
occurrences appear in increasing label order (verification-side). -/
def IsCanon (μ : Nat) (s : List Nat) : Prop :=
  ∀ c, c + 1 < μ → firstIdx s c < firstIdx s (c + 1)

/-- The set of positions of `s` holding label `c` (verification-side). -/
def blkIdx (s : List Nat) (c : Nat) : Finset Nat :=
  (Finset.range s.length).filter (fun j => s.getD j 0 = c)

/-- The outer loop of `combinations_with_nonempty_intersection_by_order`
stopped after `j` iterations (verification-side). -/
def outerFoldAt (sets : List (Finset Nat)) (j : Nat) : OuterState :=
  (List.range' 2 j).foldl (outerStep sets sets.length)
    ⟨initCombs sets sets.length, initInters sets sets.length, false⟩

/-! ### Basic lemmas about the index enumerators -/

theorem mem_onesBelow {i N b : Nat} : b ∈ onesBelow i N ↔ b < N ∧ i.testBit b := by
  simp [onesBelow]

theorem mem_zerosBelow {i N b : Nat} :
    b ∈ zerosBelow i N ↔ b < N ∧ i.testBit b = false := by
  simp [zerosBelow]

theorem onesBelow_injOn {N i j : Nat} (hi : i < 2 ^ N) (hj : j < 2 ^ N)
    (h : onesBelow i N = onesBelow j N) : i = j := by
  apply Nat.eq_of_testBit_eq
  intro b
  rcases lt_or_ge b N with hb | hb
  · have hm : b ∈ onesBelow i N ↔ b ∈ onesBelow j N := by rw [h]
    rw [mem_onesBelow, mem_onesBelow] at hm
    rw [Bool.eq_iff_iff]
    constructor
    · intro hib
      exact (hm.mp ⟨hb, hib⟩).2
    · intro hjb
      exact (hm.mpr ⟨hb, hjb⟩).2
  · rw [Nat.testBit_lt_two_pow
        (lt_of_lt_of_le hi (Nat.pow_le_pow_right (by norm_num) hb)),
      Nat.testBit_lt_two_pow
        (lt_of_lt_of_le hj (Nat.pow_le_pow_right (by norm_num) hb))]

theorem bipartition_indices_length {N : Int} (h : 1 ≤ N) :
    (bipartition_indices N).length = 2 ^ (N.toNat - 1) := by
  rw [bipartition_indices, if_neg (by omega)]
  simp

theorem bipartition_indices_nodup (N : Int) : (bipartition_indices N).Nodup := by
  rw [bipartition_indices]
  split
  · exact List.nodup_nil
  · apply List.Nodup.map_on _ (List.nodup_range _)
    intro i hi j hj hEq
    have hi' : i < 2 ^ (N.toNat - 1) := List.mem_range.mp hi
    have hj' : j < 2 ^ (N.toNat - 1) := List.mem_range.mp hj
    have hmono : 2 ^ (N.toNat - 1) ≤ 2 ^ N.toNat :=
      Nat.pow_le_pow_right (by norm_num) (Nat.sub_le _ _)
    exact onesBelow_injOn (lt_of_lt_of_le hi' hmono) (lt_of_lt_of_le hj' hmono)
      (congrArg Prod.fst hEq)

theorem mem_bipartition_indices {N : Int} {p : List Nat × List Nat} :
    p ∈ bipartition_indices N ↔
      1 ≤ N ∧ ∃ i < 2 ^ (N.toNat - 1),
        p = (onesBelow i N.toNat, zerosBelow i N.toNat) := by
  rw [bipartition_indices]
  split
  · rename_i h
    simp only [List.not_mem_nil, false_iff]
    rintro ⟨h1, -⟩
    omega
  · rename_i hN
    simp only [List.mem_map, List.mem_range]
    constructor
    · rintro ⟨i, hi, rfl⟩
      exact ⟨by omega, i, hi, rfl⟩
    · rintro ⟨-, i, hi, rfl⟩
      exact ⟨i, hi, rfl⟩

theorem snd_nonempty_of_mem_bipartition_indices {N : Int} {p : List Nat × List Nat}
    (hp : p ∈ bipartition_indices N) : N.toNat - 1 ∈ p.2 := by
  rw [mem_bipartition_indices] at hp
  obtain ⟨hN, i, hi, rfl⟩ := hp
  rw [mem_zerosBelow]
  exact ⟨by omega, Nat.testBit_lt_two_pow hi⟩

theorem directed_bipartition_indices_length {N : Int} (h : 1 ≤ N) :
    (directed_bipartition_indices N).length = 2 ^ N.toNat := by
  rw [directed_bipartition_indices]
  simp only [List.length_append, List.length_map, List.length_reverse,
    bipartition_indices_length h]
  have ht : N.toNat = N.toNat - 1 + 1 := by omega
  conv_rhs => rw [ht]
  rw [pow_succ]
  omega

theorem directed_bipartition_indices_nodup (N : Int) :
    (directed_bipartition_indices N).Nodup := by
  rw [directed_bipartition_indices]
  rw [List.nodup_append]
  refine ⟨bipartition_indices_nodup N, ?_, ?_⟩
  · exact ((List.nodup_reverse.mpr (bipartition_indices_nodup N))).map
      (fun p q h => by
        have h1 := congrArg Prod.fst h
        have h2 := congrArg Prod.snd h
        simp only at h1 h2
        exact Prod.ext h2 h1)
  · intro p hp hp'
    simp only [List.mem_map, List.mem_reverse] at hp'
    obtain ⟨q, hq, rfl⟩ := hp'
    have h1 := snd_nonempty_of_mem_bipartition_indices hp
    have h2 : N.toNat - 1 ∈ q.2 := snd_nonempty_of_mem_bipartition_indices hq
    rw [mem_bipartition_indices] at hq
    obtain ⟨hN, i, hi, rfl⟩ := hq
    simp only at h1
    rw [mem_onesBelow] at h1
    rw [mem_zerosBelow] at h2
    rw [h1.2] at h2
    exact absurd h2.2 (by simp)

theorem prodRepeat_length (base : List Nat) (n : Nat) :
    (prodRepeat base n).length = base.length ^ n := by
  induction n with
  | zero => simp [prodRepeat]
  | succ n ih =>
    rw [prodRepeat, List.length_flatMap]
    have hconst : (List.map (List.length ∘ fun b => (prodRepeat base n).map
        (fun key => b :: key)) base) = List.map (fun _ => base.length ^ n) base := by
      apply List.map_congr_left
      intro b _
      simp [ih]
    rw [hconst, List.map_const', List.sum_replicate, smul_eq_mul, pow_succ, mul_comm]

theorem mem_prodRepeat {base : List Nat} {n : Nat} {key : List Nat} :
    key ∈ prodRepeat base n ↔ key.length = n ∧ ∀ x ∈ key, x ∈ base := by
  induction n generalizing key with
  | zero =>
    simp only [prodRepeat, List.mem_singleton]
    constructor
    · rintro rfl
      simp
    · rintro ⟨h, -⟩
      exact List.eq_nil_of_length_eq_zero h
  | succ n ih =>
    constructor
    · intro h
      simp only [prodRepeat, List.mem_flatMap, List.mem_map] at h
      obtain ⟨b, hb, k, hk, rfl⟩ := h
      obtain ⟨hlen, hmem⟩ := ih.mp hk
      refine ⟨by simp [hlen], ?_⟩
      intro x hx
      rcases List.mem_cons.mp hx with rfl | hx
      · exact hb
      · exact hmem x hx
    · rintro ⟨hlen, hmem⟩
      match key with
      | [] => simp at hlen
      | x :: k =>
        simp only [prodRepeat, List.mem_flatMap, List.mem_map]
        refine ⟨x, hmem x (by simp), k, ih.mpr ⟨by simpa using hlen, ?_⟩, rfl⟩
        intro y hy
        exact hmem y (by simp [hy])

theorem prodRepeat_nodup {base : List Nat} (hb : base.Nodup) (n : Nat) :
    (prodRepeat base n).Nodup := by
  induction n with
  | zero => simp [prodRepeat]
  | succ n ih =>
    rw [prodRepeat, List.nodup_flatMap]
    constructor
    · intro x _
      exact ih.map (fun k k' h => by injection h)
    · refine hb.imp ?_
      intro a b hne
      intro l hla hlb
      simp only [List.mem_map] at hla hlb
      obtain ⟨k, -, rfl⟩ := hla
      obtain ⟨k', -, h⟩ := hlb
      injection h with h1 h2
      exact hne h1.symm

theorem mem_selectIdx {key : List Nat} {c j : Nat} :
    j ∈ selectIdx key c ↔ j < key.length ∧ key.getD j 3 = c := by
  simp [selectIdx]

theorem selectIdx_injOn {k1 k2 : List Nat} {n : Nat}
    (h1 : k1 ∈ prodRepeat [0, 1, 2] n) (h2 : k2 ∈ prodRepeat [0, 1, 2] n)
    (h0 : selectIdx k1 0 = selectIdx k2 0) (hone : selectIdx k1 1 = selectIdx k2 1)
    (h2' : selectIdx k1 2 = selectIdx k2 2) : k1 = k2 := by
  rw [mem_prodRepeat] at h1 h2
  obtain ⟨hl1, hm1⟩ := h1
  obtain ⟨hl2, hm2⟩ := h2
  have hlen : k1.length = k2.length := by rw [hl1, hl2]
  apply List.ext_getElem hlen
  intro j hj1 hj2
  have hg1 : k1.getD j 3 = k1[j] := List.getD_eq_getElem k1 3 hj1
  have hg2 : k2.getD j 3 = k2[j] := List.getD_eq_getElem k2 3 hj2
  have hv1 : k1[j] ∈ [0, 1, 2] := hm1 _ (List.getElem_mem hj1)
  by_contra hne
  have key : ∀ c, (j < k1.length ∧ k1.getD j 3 = c) ↔ (j < k2.length ∧ k2.getD j 3 = c) := by
    intro c
    rw [← mem_selectIdx, ← mem_selectIdx]
    rcases show c = 0 ∨ c = 1 ∨ c = 2 ∨ (c ≠ 0 ∧ c ≠ 1 ∧ c ≠ 2) by omega with rfl | rfl | rfl | ⟨a, b, d⟩
    · rw [h0]
    · rw [hone]
    · rw [h2']
    · constructor
      · intro hmem
        rw [mem_selectIdx] at hmem
        rw [hg1] at hmem
        rcases List.mem_cons.mp hv1 with h | h
        · omega
        · rcases List.mem_cons.mp h with h | h
          · omega
          · simp only [List.mem_singleton] at h
            omega
      · intro hmem
        rw [mem_selectIdx] at hmem
        have hv2 : k2[j] ∈ [0, 1, 2] := hm2 _ (List.getElem_mem hj2)
        rw [hg2] at hmem
        rcases List.mem_cons.mp hv2 with h | h
        · omega
        · rcases List.mem_cons.mp h with h | h
          · omega
          · simp only [List.mem_singleton] at h
            omega
  have := (key (k1.getD j 3)).mp ⟨hj1, rfl⟩
  rw [hg1, hg2] at this
  exact hne this.2.symm

theorem directed_tripartition_indices_length {N : Int} (h : 1 ≤ N) :
    (directed_tripartition_indices N).length = 3 ^ N.toNat := by
  rw [directed_tripartition_indices, if_neg (by omega)]
  rw [List.length_map, prodRepeat_length]
  norm_num

theorem directed_tripartition_indices_nodup (N : Int) :
    (directed_tripartition_indices N).Nodup := by
  rw [directed_tripartition_indices]
  split
  · exact List.nodup_nil
  · apply List.Nodup.map_on _ (prodRepeat_nodup (by decide) _)
    intro k1 h1 k2 h2 hEq
    have e0 := congrArg Prod.fst hEq
    have e1 := congrArg (fun p => p.2.1) hEq
    have e2 := congrArg (fun p => p.2.2) hEq
    simp only at e0 e1 e2
    exact selectIdx_injOn h1 h2 e0 e1 e2

/-! ### C2: index-enumerator counts and duplicate-freeness -/

/-- C2, counterexample: at `N = 0` the claimed counts `2^max(N-1,0) = 1`,
`2^N = 1`, `3^N = 1` all fail, since each enumerator returns the empty list. -/
theorem c2_counterexample :
    ¬ ((bipartition_indices 0).length = 2 ^ (max (0 - 1 : Int) 0).toNat ∧
       (directed_bipartition_indices 0).length = 2 ^ (0 : Nat) ∧
       (directed_tripartition_indices 0).length = 3 ^ (0 : Nat)) := by
  intro h
  exact absurd h.1 (by decide)

/-- C2, amended: for every `N ≥ 1`, `bipartition_indices N` has exactly
`2 ^ (N-1)` entries, `directed_bipartition_indices N` exactly `2 ^ N`, and
`directed_tripartition_indices N` exactly `3 ^ N`, each duplicate-free; for
`N ≤ 0` (in particular `N = 0`) each returns the empty list. -/
theorem c2_amended (N : Int) :
    (1 ≤ N →
      (bipartition_indices N).length = 2 ^ (N.toNat - 1) ∧
      (directed_bipartition_indices N).length = 2 ^ N.toNat ∧
      (directed_tripartition_indices N).length = 3 ^ N.toNat ∧
      (bipartition_indices N).Nodup ∧
      (directed_bipartition_indices N).Nodup ∧
      (directed_tripartition_indices N).Nodup) ∧
    (N ≤ 0 →
      bipartition_indices N = [] ∧
      directed_bipartition_indices N = [] ∧
      directed_tripartition_indices N = []) := by
  constructor
  · intro h
    exact ⟨bipartition_indices_length h, directed_bipartition_indices_length h,
      directed_tripartition_indices_length h, bipartition_indices_nodup N,
      directed_bipartition_indices_nodup N, directed_tripartition_indices_nodup N⟩
  · intro h
    have h1 : bipartition_indices N = [] := by
      rw [bipartition_indices, if_pos h]
    refine ⟨h1, ?_, ?_⟩
    · rw [directed_bipartition_indices]
      simp [h1]
    · rw [directed_tripartition_indices, if_pos h]

/-- C2, witness: the amended statement instantiated at `N = 2` and `N = -1`. -/
theorem c2_amended_witness :
    ((bipartition_indices 2).length = 2 ^ (1 : Nat) ∧
      (directed_bipartition_indices 2).length = 2 ^ (2 : Nat) ∧
      (directed_tripartition_indices 2).length = 3 ^ (2 : Nat) ∧
      (bipartition_indices 2).Nodup ∧
      (directed_bipartition_indices 2).Nodup ∧
      (directed_tripartition_indices 2).Nodup) ∧
    (bipartition_indices (-1) = [] ∧
      directed_bipartition_indices (-1) = [] ∧
      directed_tripartition_indices (-1) = []) :=
  ⟨(c2_amended 2).1 (by norm_num), (c2_amended (-1)).2 (by norm_num)⟩

/-! ### C10: trivial entries of the directed bipartition enumeration -/

theorem onesBelow_eq_nil_iff {i t : Nat} (hi : i < 2 ^ t) :
    onesBelow i t = [] ↔ i = 0 := by
  constructor
  · intro h
    apply Nat.eq_of_testBit_eq
    intro b
    rw [Nat.zero_testBit]
    by_cases hb : b < t
    · by_contra hbit
      rw [Bool.not_eq_false] at hbit
      have : b ∈ onesBelow i t := mem_onesBelow.mpr ⟨hb, hbit⟩
      rw [h] at this
      exact absurd this (List.not_mem_nil _)
    · exact Nat.testBit_lt_two_pow
        (lt_of_lt_of_le hi (Nat.pow_le_pow_right (by norm_num) (le_of_not_lt hb)))
  · rintro rfl
    rw [onesBelow, List.filter_eq_nil_iff]
    intro a _
    simp [Nat.zero_testBit]

theorem zerosBelow_ne_nil {i t : Nat} (ht : 1 ≤ t) (hi : i < 2 ^ (t - 1)) :
    zerosBelow i t ≠ [] := by
  apply List.ne_nil_of_mem (a := t - 1)
  rw [mem_zerosBelow]
  exact ⟨by omega, Nat.testBit_lt_two_pow hi⟩

theorem bipartition_indices_getElemQ {N : Int} (hN : 1 ≤ N) {i : Nat}
    (hi : i < 2 ^ (N.toNat - 1)) :
    (bipartition_indices N)[i]? = some (onesBelow i N.toNat, zerosBelow i N.toNat) := by
  rw [bipartition_indices, if_neg (by omega : ¬ N ≤ 0)]
  rw [List.getElem?_map, List.getElem?_range hi]
  rfl

theorem dbi_getElemQ_low {N : Int} (hN : 1 ≤ N) {i : Nat}
    (hi : i < 2 ^ (N.toNat - 1)) :
    (directed_bipartition_indices N)[i]? =
      some (onesBelow i N.toNat, zerosBelow i N.toNat) := by
  rw [directed_bipartition_indices,
    List.getElem?_append_left (by rw [bipartition_indices_length hN]; exact hi)]
  exact bipartition_indices_getElemQ hN hi

theorem dbi_getElemQ_high {N : Int} (hN : 1 ≤ N) {i : Nat}
    (h1 : 2 ^ (N.toNat - 1) ≤ i) (h2 : i < 2 ^ (N.toNat - 1) + 2 ^ (N.toNat - 1)) :
    (directed_bipartition_indices N)[i]? =
      some (zerosBelow (2 ^ (N.toNat - 1) + 2 ^ (N.toNat - 1) - 1 - i) N.toNat,
            onesBelow (2 ^ (N.toNat - 1) + 2 ^ (N.toNat - 1) - 1 - i) N.toNat) := by
  have hAlen := bipartition_indices_length hN
  rw [directed_bipartition_indices, List.getElem?_append_right (by omega)]
  rw [List.getElem?_map, List.getElem?_reverse (by omega)]
  have hidx : (bipartition_indices N).length - 1 - (i - (bipartition_indices N).length) =
      2 ^ (N.toNat - 1) + 2 ^ (N.toNat - 1) - 1 - i := by
    omega
  rw [hidx, bipartition_indices_getElemQ hN (by omega)]
  rfl

theorem dbi_entry_empty_iff {N : Int} (hN : 1 ≤ N) (i : Nat)
    (hi : i < (directed_bipartition_indices N).length) :
    ((directed_bipartition_indices N)[i].1 = [] ∨
     (directed_bipartition_indices N)[i].2 = []) ↔
    (i = 0 ∨ i = (directed_bipartition_indices N).length - 1) := by
  have ht : 1 ≤ N.toNat := by omega
  have hM : 1 ≤ 2 ^ (N.toNat - 1) := Nat.one_le_two_pow
  have hbound : 2 ^ (N.toNat - 1) ≤ 2 ^ N.toNat :=
    Nat.pow_le_pow_right (by norm_num) (Nat.sub_le _ _)
  have hLlen : (directed_bipartition_indices N).length =
      2 ^ (N.toNat - 1) + 2 ^ (N.toNat - 1) := by
    rw [directed_bipartition_indices]
    simp [bipartition_indices_length hN]
  rw [hLlen] at hi
  have hiL : i < (directed_bipartition_indices N).length := by
    rw [hLlen]; omega
  rcases lt_or_ge i (2 ^ (N.toNat - 1)) with hcase | hcase
  · have hv : (directed_bipartition_indices N)[i] =
        (onesBelow i N.toNat, zerosBelow i N.toNat) := by
      have h := dbi_getElemQ_low hN hcase
      rw [List.getElem?_eq_getElem (by rw [hLlen]; omega)] at h
      exact Option.some.inj h
    rw [hv, hLlen]
    simp only
    constructor
    · rintro (h1 | h2)
      · left
        exact (onesBelow_eq_nil_iff (lt_of_lt_of_le hcase hbound)).mp h1
      · exact absurd h2 (zerosBelow_ne_nil ht hcase)
    · rintro (rfl | hlast)
      · left
        exact (onesBelow_eq_nil_iff (lt_of_lt_of_le hcase hbound)).mpr rfl
      · exfalso
        omega
  · have hv : (directed_bipartition_indices N)[i] =
        (zerosBelow (2 ^ (N.toNat - 1) + 2 ^ (N.toNat - 1) - 1 - i) N.toNat,
         onesBelow (2 ^ (N.toNat - 1) + 2 ^ (N.toNat - 1) - 1 - i) N.toNat) := by
      have h := dbi_getElemQ_high hN hcase hi
      rw [List.getElem?_eq_getElem (by rw [hLlen]; omega)] at h
      exact Option.some.inj h
    rw [hv, hLlen]
    simp only
    have hlt : 2 ^ (N.toNat - 1) + 2 ^ (N.toNat - 1) - 1 - i < 2 ^ (N.toNat - 1) := by
      omega
    constructor
    · rintro (h1 | h2)
      · exact absurd h1 (zerosBelow_ne_nil ht hlt)
      · right
        have := (onesBelow_eq_nil_iff (lt_of_lt_of_le hlt hbound)).mp h2
        omega
    · rintro (rfl | hlast)
      · exfalso
        omega
      · rw [hlast]
        right
        rw [onesBelow_eq_nil_iff (by omega)]
        omega

/-- C10: for a sequence of length at least 1, every pair yielded by
`directed_bipartition(seq, nontrivial=True)` has both parts non-empty, and in
`directed_bipartition_indices(len(seq))` the entries with an empty side are
exactly the first and the last. -/
theorem c10_nontrivial_directed_bipartitions (seq : List Nat) (h : 1 ≤ seq.length) :
    (∀ p ∈ directed_bipartition seq true, p.1 ≠ [] ∧ p.2 ≠ []) ∧
    (∀ i, i < (directed_bipartition_indices (seq.length : Int)).length →
      ((((directed_bipartition_indices (seq.length : Int)).getD i ([], [])).1 = [] ∨
        ((directed_bipartition_indices (seq.length : Int)).getD i ([], [])).2 = []) ↔
       (i = 0 ∨ i = (directed_bipartition_indices (seq.length : Int)).length - 1))) := by
  have hN : 1 ≤ (seq.length : Int) := by exact_mod_cast h
  constructor
  · intro p hp
    have hdb : directed_bipartition seq true =
        ((directed_bipartition_indices (seq.length : Int)).drop 1).dropLast.map
          (fun p => (p.1.map (pyGet seq), p.2.map (pyGet seq))) := by
      show ((directed_bipartition_list seq).drop 1).dropLast = _
      rw [directed_bipartition_list, ← List.map_drop, List.map_dropLast]
    rw [hdb, List.mem_map] at hp
    obtain ⟨q, hq, rfl⟩ := hp
    rw [List.mem_iff_getElem] at hq
    obtain ⟨j, hj, hjq⟩ := hq
    have hlen : ((directed_bipartition_indices (seq.length : Int)).drop 1).dropLast.length =
        (directed_bipartition_indices (seq.length : Int)).length - 1 - 1 := by
      simp
    rw [hlen] at hj
    have hjL : j <
        ((directed_bipartition_indices (seq.length : Int)).drop 1).dropLast.length := by
      rw [hlen]; omega
    have hjL2 : 1 + j < (directed_bipartition_indices (seq.length : Int)).length := by
      omega
    have hq1 : ((directed_bipartition_indices (seq.length : Int)).drop 1).dropLast[j] =
        (directed_bipartition_indices (seq.length : Int))[1 + j] := by
      rw [List.getElem_dropLast, List.getElem_drop]
    have hmid : ¬ (1 + j = 0 ∨
        1 + j = (directed_bipartition_indices (seq.length : Int)).length - 1) := by
      rintro (habs | habs) <;> omega
    have hnone := (dbi_entry_empty_iff hN (1 + j) (by omega)).not.mpr hmid
    push_neg at hnone
    rw [hq1] at hjq
    rw [← hjq]
    simp only [ne_eq, List.map_eq_nil_iff]
    exact hnone
  · intro i hi
    rw [List.getD_eq_getElem _ _ hi]
    exact dbi_entry_empty_iff hN i hi

/-! ### C4: degradation of invalid enumeration parameters -/

/-- C4, counterexample: `k_partitions([0], 2)` has `k` exceeding the collection
size `1`, yet the result is the non-empty `[[[], [0]]]` (a garbage partition
with an empty block), not the empty list the claim requires. -/
theorem c4_counterexample :
    k_partitions [0] 2 ≠ some [] ∧ k_partitions [0] 2 = some [[[], [0]]] := by
  constructor
  · decide
  · decide

/-- C4, amended: the index enumerators return `[]` for every `N ≤ 0`, and
`k_partitions(collection, k)` returns an empty result whenever `k < 1` or the
collection is empty; but when `k` exceeds the collection's size the result
need not be empty (see the counterexample; for `k > 2n + 2` the
initialization of the work array even raises `IndexError`). -/
theorem c4_amended (N : Int) (collection : List Nat) (k : Int) :
    (N ≤ 0 → bipartition_indices N = [] ∧ directed_bipartition_indices N = [] ∧
      directed_tripartition_indices N = []) ∧
    (k < 1 → k_partitions collection k = some []) ∧
    (collection = [] → k_partitions collection k = some []) := by
  refine ⟨fun h => ?_, fun h => ?_, fun h => ?_⟩
  · have h1 : bipartition_indices N = [] := by rw [bipartition_indices, if_pos h]
    refine ⟨h1, ?_, ?_⟩
    · rw [directed_bipartition_indices, h1]
      rfl
    · rw [directed_tripartition_indices, if_pos h]
  · rw [k_partitions]
    simp only [if_pos (Or.inr h)]
  · subst h
    rw [k_partitions]
    simp

/-- C4, witness: the amended statement applied at `N = -2`, at
`collection = [5], k = -1`, and at `collection = [], k = 3`. -/
theorem c4_amended_witness :
    (bipartition_indices (-2) = [] ∧ directed_bipartition_indices (-2) = [] ∧
      directed_tripartition_indices (-2) = []) ∧
    k_partitions [5] (-1) = some [] ∧
    k_partitions [] 3 = some [] :=
  ⟨(c4_amended (-2) [5] (-1)).1 (by norm_num),
   (c4_amended (-2) [5] (-1)).2.1 (by norm_num),
   (c4_amended (-2) [] 3).2.2 rfl⟩

/-! ### C8: the set-partition generator -/

theorem length_insertAt {first : Nat} {smaller : List (List Nat)} {i : Nat}
    (hi : i < smaller.length) :
    (insertAt first smaller i).length = smaller.length := by
  rw [insertAt]
  simp only [List.length_append, List.length_take, List.length_cons, List.length_drop]
  omega

theorem flatten_insertAt {first : Nat} {smaller : List (List Nat)} {i : Nat}
    (hi : i < smaller.length) :
    (insertAt first smaller i).flatten.Perm (first :: smaller.flatten) := by
  have hgetD : smaller.getD i [] = smaller[i] := List.getD_eq_getElem _ _ hi
  have hdec : smaller = smaller.take i ++ smaller[i] :: smaller.drop (i + 1) := by
    rw [List.getElem_cons_drop, List.take_append_drop]
  have hL : (insertAt first smaller i).flatten =
      (smaller.take i).flatten ++
        first :: (smaller[i] ++ (smaller.drop (i + 1)).flatten) := by
    rw [insertAt, hgetD]
    simp
  have hR : smaller.flatten =
      (smaller.take i).flatten ++ (smaller[i] ++ (smaller.drop (i + 1)).flatten) := by
    conv_lhs => rw [hdec]
    rw [List.flatten_append, List.flatten_cons]
  rw [hL, hR]
  exact List.perm_middle

theorem mem_partitions_cases {first y : Nat} {rest : List Nat} {p : List (List Nat)}
    (hp : p ∈ _partitions (first :: y :: rest)) :
    ∃ smaller ∈ _partitions (y :: rest),
      (∃ i < smaller.length, p = insertAt first smaller i) ∨ p = [first] :: smaller := by
  rw [_partitions] at hp
  rw [List.mem_flatMap] at hp
  obtain ⟨smaller, hs, hps⟩ := hp
  rw [List.mem_append] at hps
  rcases hps with hins | hgrow
  · rw [List.mem_map] at hins
    obtain ⟨i, hi, rfl⟩ := hins
    exact ⟨smaller, hs, Or.inl ⟨i, List.mem_range.mp hi, rfl⟩⟩
  · rw [List.mem_singleton] at hgrow
    exact ⟨smaller, hs, Or.inr hgrow⟩

theorem partitions_sound {coll : List Nat} :
    ∀ p ∈ _partitions coll, [] ∉ p ∧ p.flatten.Perm coll := by
  induction coll using _partitions.induct with
  | case1 =>
    intro p hp
    simp [_partitions] at hp
  | case2 x =>
    intro p hp
    rw [_partitions, List.mem_singleton] at hp
    subst hp
    constructor
    · simp
    · simp
  | case3 first y rest ih =>
    intro p hp
    obtain ⟨smaller, hs, hcase⟩ := mem_partitions_cases hp
    obtain ⟨hnil, hperm⟩ := ih smaller hs
    rcases hcase with ⟨i, hi, rfl⟩ | rfl
    · constructor
      · intro habs
        rw [insertAt, List.mem_append] at habs
        rcases habs with h | h
        · exact hnil (List.mem_of_mem_take h)
        · rcases List.mem_cons.mp h with h | h
          · exact absurd h.symm (List.cons_ne_nil _ _)
          · exact hnil (List.mem_of_mem_drop h)
      · exact (flatten_insertAt hi).trans (hperm.cons first)
    · constructor
      · intro habs
        rcases List.mem_cons.mp habs with h | h
        · exact absurd h.symm (List.cons_ne_nil _ _)
        · exact hnil h
      · simpa using hperm.cons first

theorem partitions_head {coll : List Nat} (h : coll ≠ []) :
    (_partitions coll).head? = some [coll] := by
  induction coll using _partitions.induct with
  | case1 => exact absurd rfl h
  | case2 x => rfl
  | case3 first y rest ih =>
    have ih' := ih (by simp)
    obtain ⟨tl, htl⟩ : ∃ tl, _partitions (y :: rest) = [y :: rest] :: tl := by
      match hm : _partitions (y :: rest) with
      | [] => rw [hm] at ih'; simp at ih'
      | s :: tl =>
        rw [hm] at ih'
        simp only [List.head?_cons, Option.some.injEq] at ih'
        exact ⟨tl, by rw [ih']⟩
    rw [_partitions, htl]
    rfl

theorem length_le_flatten_length {p : List (List Nat)} (h : [] ∉ p) :
    p.length ≤ p.flatten.length := by
  induction p with
  | nil => simp
  | cons b p ih =>
    simp only [List.flatten_cons, List.length_cons, List.length_append]
    have hb : b ≠ [] := by
      intro habs
      exact h (by simp [habs])
    have h1 : 1 ≤ b.length := by
      cases b
      · exact absurd rfl hb
      · simp
    have := ih (by intro habs; exact h (by simp [habs]))
    omega

theorem countP_branch_sum (first k : Nat) (L : List (List (List Nat))) :
    (L.flatMap (fun s => ((List.range s.length).map (insertAt first s)) ++
        [[first] :: s])).countP (fun p => p.length == k) =
      k * L.countP (fun s => s.length == k) +
        L.countP (fun s => s.length + 1 == k) := by
  induction L with
  | nil => rfl
  | cons s L ih =>
    rw [List.flatMap_cons, List.countP_append, List.countP_append, ih]
    have hins : ((List.range s.length).map (insertAt first s)).countP
        (fun p => p.length == k) = if s.length = k then s.length else 0 := by
      rw [List.countP_map]
      have hcongr : ∀ x ∈ List.range s.length,
          (((fun (p : List (List Nat)) => p.length == k) ∘ insertAt first s) x = true ↔
            ((fun (_ : Nat) => s.length == k) x) = true) := by
        intro i hi
        simp only [Function.comp_apply]
        rw [length_insertAt (List.mem_range.mp hi)]
      rw [List.countP_congr hcongr]
      by_cases hk : s.length = k
      · rw [if_pos hk]
        subst hk
        rw [List.countP_eq_length.mpr (fun _ _ => by simp)]
        exact List.length_range _
      · rw [if_neg hk]
        exact List.countP_eq_zero.mpr (fun _ _ => by simpa using hk)
    rw [hins]
    simp only [List.countP_cons, List.countP_nil, List.length_cons, Nat.zero_add]
    have hifF : (if false = true then (1 : Nat) else 0) = 0 := rfl
    have hifT : (if true = true then (1 : Nat) else 0) = 1 := rfl
    by_cases h1 : s.length = k <;> by_cases h2 : s.length + 1 = k
    · omega
    · have h1t : (s.length == k) = true := by simpa using h1
      have h2f : (s.length + 1 == k) = false := by simpa using h2
      simp only [h1t, h2f, if_pos h1]
      norm_num
      try generalize List.countP (fun p => p.length == k) L = c1
      try generalize List.countP (fun p => p.length + 1 == k) L = c2
      subst h1
      try ring
    · have h1f : (s.length == k) = false := by simpa using h1
      have h2t : (s.length + 1 == k) = true := by simpa using h2
      simp only [h1f, h2t, if_neg h1]
      norm_num
      try generalize List.countP (fun p => p.length == k) L = c1
      try generalize List.countP (fun p => p.length + 1 == k) L = c2
      try ring
    · have h1f : (s.length == k) = false := by simpa using h1
      have h2f : (s.length + 1 == k) = false := by simpa using h2
      simp only [h1f, h2f, if_neg h1]
      norm_num
      try generalize List.countP (fun p => p.length == k) L = c1
      try generalize List.countP (fun p => p.length + 1 == k) L = c2
      try ring

theorem partitions_countP {coll : List Nat} (h : coll ≠ []) :
    ∀ k, (_partitions coll).countP (fun p => p.length == k) =
      stirling coll.length k := by
  induction coll using _partitions.induct with
  | case1 => exact absurd rfl h
  | case2 x =>
    intro k
    match k with
    | 0 => rfl
    | 1 => rfl
    | k + 2 =>
      show 0 = stirling 1 (k + 2)
      rw [stirling, stirling, stirling]
      ring
  | case3 first y rest ih =>
    intro k
    rw [_partitions, countP_branch_sum]
    have hlen : (first :: y :: rest).length = (y :: rest).length + 1 := rfl
    rw [hlen]
    match k with
    | 0 =>
      rw [ih (by simp) 0]
      have hz : ((_partitions (y :: rest)).countP (fun s => s.length + 1 == 0)) = 0 :=
        List.countP_eq_zero.mpr (fun s _ => by simp)
      rw [hz, stirling]
      ring
    | k + 1 =>
      have hsh : ((_partitions (y :: rest)).countP (fun s => s.length + 1 == k + 1)) =
          ((_partitions (y :: rest)).countP (fun s => s.length == k)) :=
        List.countP_congr (fun s _ => by simp)
      rw [hsh, ih (by simp) (k + 1), ih (by simp) k, stirling]

theorem length_eq_sum_countP {α : Type} (L : List α) (g : α → Nat) (m : Nat)
    (h : ∀ p ∈ L, g p < m) :
    L.length = ∑ k ∈ Finset.range m, L.countP (fun p => g p == k) := by
  induction L with
  | nil => simp
  | cons p L ih =>
    simp only [List.countP_cons, List.length_cons]
    rw [Finset.sum_add_distrib]
    rw [← ih (fun q hq => h q (by simp [hq]))]
    have hcg : ∀ k ∈ Finset.range m,
        (if (g p == k) = true then (1 : Nat) else 0) = if g p = k then 1 else 0 := by
      intro k _
      by_cases hk : g p = k <;> simp [hk]
    rw [Finset.sum_congr rfl hcg, Finset.sum_ite_eq (Finset.range m) (g p) (fun _ => (1 : Nat)),
      if_pos (Finset.mem_range.mpr (h p (by simp)))]

theorem partitions_length_eq_bell {coll : List Nat} (h : coll ≠ []) :
    (_partitions coll).length = Bell coll.length := by
  have hbd : ∀ p ∈ _partitions coll, p.length < coll.length + 1 := by
    intro p hp
    obtain ⟨hnil, hperm⟩ := partitions_sound p hp
    have h1 := length_le_flatten_length hnil
    have h2 := hperm.length_eq
    omega
  rw [length_eq_sum_countP (_partitions coll) List.length (coll.length + 1) hbd]
  rw [Bell]
  exact Finset.sum_congr rfl (fun k _ => partitions_countP h k)

theorem mem_partFinset {p : List (List Nat)} {b : Finset Nat} :
    b ∈ partFinset p ↔ ∃ blk ∈ p, blk.toFinset = b := by
  simp [partFinset]

theorem partFinset_cons {blk : List Nat} {s : List (List Nat)} :
    partFinset (blk :: s) = insert blk.toFinset (partFinset s) := by
  simp [partFinset]

theorem goodList_unpack {first : Nat} {s : List (List Nat)} (h : GoodList first s) :
    (∀ b ∈ s, b ≠ []) ∧ (∀ b ∈ s, first ∉ b) ∧
      s.Pairwise List.Disjoint ∧ (∀ b ∈ s, b.Nodup) := by
  obtain ⟨h1, h2, h3⟩ := h
  rw [List.nodup_flatten] at h2
  exact ⟨fun b hb habs => h1 (habs ▸ hb),
    fun b hb habs => h3 (List.mem_flatten.mpr ⟨b, hb, habs⟩), h2.2, h2.1⟩

theorem smaller_decomp {s : List (List Nat)} {i : Nat} (hi : i < s.length) :
    s = s.take i ++ s[i] :: s.drop (i + 1) := by
  rw [List.getElem_cons_drop, List.take_append_drop]

theorem mem_insertAt_iff {first : Nat} {s : List (List Nat)} {i : Nat}
    {blk : List Nat} (hi : i < s.length) :
    blk ∈ insertAt first s i ↔
      blk = first :: s[i] ∨ blk ∈ s.take i ∨ blk ∈ s.drop (i + 1) := by
  rw [insertAt, List.getD_eq_getElem _ _ hi]
  constructor
  · intro h
    rcases List.mem_append.mp h with h | h
    · exact Or.inr (Or.inl h)
    · rcases List.mem_cons.mp h with h | h
      · exact Or.inl h
      · exact Or.inr (Or.inr h)
  · rintro (rfl | h | h)
    · exact List.mem_append.mpr (Or.inr (by simp))
    · exact List.mem_append.mpr (Or.inl h)
    · exact List.mem_append.mpr (Or.inr (by simp [h]))

theorem mem_decomp_iff {s : List (List Nat)} {i : Nat} {blk : List Nat}
    (hi : i < s.length) :
    blk ∈ s ↔ blk = s[i] ∨ blk ∈ s.take i ∨ blk ∈ s.drop (i + 1) := by
  constructor
  · intro h
    conv at h => rw [smaller_decomp hi]
    rcases List.mem_append.mp h with h | h
    · exact Or.inr (Or.inl h)
    · rcases List.mem_cons.mp h with h | h
      · exact Or.inl h
      · exact Or.inr (Or.inr h)
  · rintro (rfl | h | h)
    · exact List.getElem_mem hi
    · exact List.mem_of_mem_take h
    · exact List.mem_of_mem_drop h

theorem first_block_insertAt {first : Nat} {s : List (List Nat)} {i : Nat}
    (hG : GoodList first s) (hi : i < s.length) {b : Finset Nat}
    (hb : b ∈ partFinset (insertAt first s i)) (hf : first ∈ b) :
    b = insert first s[i].toFinset := by
  obtain ⟨-, h2, -, -⟩ := goodList_unpack hG
  rw [mem_partFinset] at hb
  obtain ⟨blk, hblk, rfl⟩ := hb
  rcases (mem_insertAt_iff hi).mp hblk with rfl | h | h
  · simp
  · exact absurd (List.mem_toFinset.mp hf) (h2 blk (List.mem_of_mem_take h))
  · exact absurd (List.mem_toFinset.mp hf) (h2 blk (List.mem_of_mem_drop h))

theorem first_block_grow {first : Nat} {s : List (List Nat)} (hG : GoodList first s)
    {b : Finset Nat} (hb : b ∈ partFinset ([first] :: s)) (hf : first ∈ b) :
    b = {first} := by
  obtain ⟨-, h2, -, -⟩ := goodList_unpack hG
  rw [mem_partFinset] at hb
  obtain ⟨blk, hblk, rfl⟩ := hb
  rcases List.mem_cons.mp hblk with rfl | h
  · rfl
  · exact absurd (List.mem_toFinset.mp hf) (h2 blk h)

theorem mem_removeFirst {first : Nat} {Q : Finset (Finset Nat)} {b : Finset Nat} :
    b ∈ removeFirst first Q ↔
      (b ∈ Q ∧ first ∉ b) ∨
      ((∃ B ∈ Q, first ∈ B ∧ B.erase first = b) ∧ b ≠ ∅) := by
  rw [removeFirst]
  simp only [Finset.mem_union, Finset.mem_filter, Finset.mem_image]
  constructor
  · rintro (⟨h1, h2⟩ | ⟨⟨B, ⟨hB, hfB⟩, hEq⟩, hne⟩)
    · exact Or.inl ⟨h1, h2⟩
    · exact Or.inr ⟨⟨B, hB, hfB, hEq⟩, hne⟩
  · rintro (⟨h1, h2⟩ | ⟨⟨B, hB, hfB, hEq⟩, hne⟩)
    · exact Or.inl ⟨h1, h2⟩
    · exact Or.inr ⟨⟨B, ⟨hB, hfB⟩, hEq⟩, hne⟩

theorem removeFirst_grow {first : Nat} {s : List (List Nat)} (hG : GoodList first s) :
    removeFirst first (partFinset ([first] :: s)) = partFinset s := by
  obtain ⟨hne, hnf, hdisj, -⟩ := goodList_unpack hG
  have hnotin : ∀ b ∈ partFinset s, first ∉ b := by
    intro b hb
    rw [mem_partFinset] at hb
    obtain ⟨blk, hblk, rfl⟩ := hb
    intro habs
    exact hnf blk hblk (List.mem_toFinset.mp habs)
  ext b
  rw [mem_removeFirst, partFinset_cons]
  constructor
  · rintro (⟨h1, h2⟩ | ⟨⟨B, hB, hfB, hEq⟩, hbne⟩)
    · rcases Finset.mem_insert.mp h1 with rfl | h
      · exact absurd (by simp) h2
      · exact h
    · have := first_block_grow hG (by rw [partFinset_cons]; exact hB) hfB
      subst this
      simp at hEq
      exact absurd hEq.symm hbne
  · intro hb
    exact Or.inl ⟨Finset.mem_insert_of_mem hb, hnotin b hb⟩

theorem removeFirst_insertAt {first : Nat} {s : List (List Nat)} {i : Nat}
    (hG : GoodList first s) (hi : i < s.length) :
    removeFirst first (partFinset (insertAt first s i)) = partFinset s := by
  obtain ⟨hne, hnf, hdisj, -⟩ := goodList_unpack hG
  have hfi : first ∉ s[i] := hnf _ (List.getElem_mem hi)
  ext b
  rw [mem_removeFirst]
  constructor
  · rintro (⟨h1, h2⟩ | ⟨⟨B, hB, hfB, hEq⟩, hbne⟩)
    · rw [mem_partFinset] at h1
      obtain ⟨blk, hblk, rfl⟩ := h1
      rcases (mem_insertAt_iff hi).mp hblk with rfl | h | h
      · exact absurd (by simp) h2
      · exact mem_partFinset.mpr ⟨blk, List.mem_of_mem_take h, rfl⟩
      · exact mem_partFinset.mpr ⟨blk, List.mem_of_mem_drop h, rfl⟩
    · have := first_block_insertAt hG hi hB hfB
      subst this
      rw [Finset.erase_insert (by simpa using hfi)] at hEq
      subst hEq
      exact mem_partFinset.mpr ⟨s[i], List.getElem_mem hi, rfl⟩
  · intro hb
    rw [mem_partFinset] at hb
    obtain ⟨blk, hblk, rfl⟩ := hb
    rcases (mem_decomp_iff hi).mp hblk with rfl | h | h
    · refine Or.inr ⟨⟨(first :: s[i]).toFinset, ?_, by simp, ?_⟩, ?_⟩
      · exact mem_partFinset.mpr ⟨first :: s[i], (mem_insertAt_iff hi).mpr (Or.inl rfl), rfl⟩
      · rw [List.toFinset_cons, Finset.erase_insert (by simpa using hfi)]
      · simp only [ne_eq, List.toFinset_eq_empty_iff]
        exact hne _ (List.getElem_mem hi)
    · refine Or.inl ⟨?_, ?_⟩
      · exact mem_partFinset.mpr ⟨blk, (mem_insertAt_iff hi).mpr (Or.inr (Or.inl h)), rfl⟩
      · intro habs
        exact hnf blk (List.mem_of_mem_take h) (List.mem_toFinset.mp habs)
    · refine Or.inl ⟨?_, ?_⟩
      · exact mem_partFinset.mpr ⟨blk, (mem_insertAt_iff hi).mpr (Or.inr (Or.inr h)), rfl⟩
      · intro habs
        exact hnf blk (List.mem_of_mem_drop h) (List.mem_toFinset.mp habs)

theorem goodList_of_mem {first y : Nat} {rest : List Nat} {s : List (List Nat)}
    (hnd : (first :: y :: rest).Nodup) (hs : s ∈ _partitions (y :: rest)) :
    GoodList first s := by
  obtain ⟨hnil, hperm⟩ := partitions_sound s hs
  have hnd' : (y :: rest).Nodup := hnd.of_cons
  refine ⟨hnil, hperm.nodup_iff.mpr hnd', ?_⟩
  intro habs
  exact (List.nodup_cons.mp hnd).1 (hperm.mem_iff.mp habs)

theorem partFinset_isSetPartition {coll : List Nat} {p : List (List Nat)}
    (hnd : coll.Nodup) (hp : p ∈ _partitions coll) :
    IsSetPartitionOf (partFinset p) coll.toFinset := by
  obtain ⟨hnil, hperm⟩ := partitions_sound p hp
  have hfl : p.flatten.Nodup := hperm.nodup_iff.mpr hnd
  rw [List.nodup_flatten] at hfl
  refine ⟨?_, ?_, ?_⟩
  · intro b hb
    rw [mem_partFinset] at hb
    obtain ⟨blk, hblk, rfl⟩ := hb
    simp only [ne_eq, List.toFinset_eq_empty_iff]
    intro habs
    exact hnil (habs ▸ hblk)
  · intro b1 hb1 b2 hb2 hbne x hx1 hx2
    rw [mem_partFinset] at hb1 hb2
    obtain ⟨blk1, hbk1, rfl⟩ := hb1
    obtain ⟨blk2, hbk2, rfl⟩ := hb2
    have hsymm : Symmetric (List.Disjoint (α := Nat)) :=
      fun l1 l2 h a ha1 ha2 => h ha2 ha1
    have hbkne : blk1 ≠ blk2 := fun h => hbne (by rw [h])
    exact hfl.2.forall hsymm hbk1 hbk2 hbkne (List.mem_toFinset.mp hx1)
      (List.mem_toFinset.mp hx2)
  · intro x
    rw [List.mem_toFinset, ← hperm.mem_iff, List.mem_flatten]
    constructor
    · rintro ⟨blk, hblk, hx⟩
      exact ⟨blk.toFinset, mem_partFinset.mpr ⟨blk, hblk, rfl⟩, List.mem_toFinset.mpr hx⟩
    · rintro ⟨b, hb, hx⟩
      rw [mem_partFinset] at hb
      obtain ⟨blk, hblk, rfl⟩ := hb
      exact ⟨blk, hblk, List.mem_toFinset.mp hx⟩

theorem toFinset_ne_of_disjoint {b1 b2 : List Nat} (hd : List.Disjoint b1 b2)
    (hne : b1 ≠ []) : b1.toFinset ≠ b2.toFinset := by
  obtain ⟨x, hx⟩ := List.exists_mem_of_ne_nil b1 hne
  intro habs
  have hx2 : x ∈ b2 := by
    have h1 := List.mem_toFinset.mpr hx
    rw [habs] at h1
    exact List.mem_toFinset.mp h1
  exact hd hx hx2

theorem disjoint_getElem_take_drop {s : List (List Nat)}
    (hdisj : s.Pairwise List.Disjoint) {i : Nat} (hi : i < s.length) :
    (∀ blk ∈ s.take i, List.Disjoint blk s[i]) ∧
    (∀ blk ∈ s.drop (i + 1), List.Disjoint s[i] blk) := by
  have h := hdisj
  rw [smaller_decomp hi, List.pairwise_append] at h
  obtain ⟨h1, h2, h3⟩ := h
  constructor
  · intro blk hblk
    exact h3 blk hblk s[i] (List.mem_cons_self _ _)
  · intro blk hblk
    exact (List.pairwise_cons.mp h2).1 blk hblk

theorem partFinset_insertAt {first : Nat} {s : List (List Nat)} {i : Nat}
    (hG : GoodList first s) (hi : i < s.length) :
    partFinset (insertAt first s i) =
      insert (insert first s[i].toFinset) ((partFinset s).erase s[i].toFinset) := by
  obtain ⟨hne, hnf, hdisj, -⟩ := goodList_unpack hG
  obtain ⟨htake, hdrop⟩ := disjoint_getElem_take_drop hdisj hi
  ext b
  rw [mem_partFinset, Finset.mem_insert, Finset.mem_erase]
  constructor
  · rintro ⟨blk, hblk, rfl⟩
    rcases (mem_insertAt_iff hi).mp hblk with rfl | h | h
    · left
      simp
    · right
      exact ⟨toFinset_ne_of_disjoint (htake blk h) (hne blk (List.mem_of_mem_take h)),
        mem_partFinset.mpr ⟨blk, List.mem_of_mem_take h, rfl⟩⟩
    · right
      refine ⟨?_, mem_partFinset.mpr ⟨blk, List.mem_of_mem_drop h, rfl⟩⟩
      intro habs
      exact toFinset_ne_of_disjoint (hdrop blk h) (hne _ (List.getElem_mem hi)) habs.symm
  · rintro (rfl | ⟨hbne, hb⟩)
    · exact ⟨first :: s[i], (mem_insertAt_iff hi).mpr (Or.inl rfl), by simp⟩
    · rw [mem_partFinset] at hb
      obtain ⟨blk, hblk, rfl⟩ := hb
      rcases (mem_decomp_iff hi).mp hblk with rfl | h | h
      · exact absurd rfl hbne
      · exact ⟨blk, (mem_insertAt_iff hi).mpr (Or.inr (Or.inl h)), rfl⟩
      · exact ⟨blk, (mem_insertAt_iff hi).mpr (Or.inr (Or.inr h)), rfl⟩

theorem mem_removeFirst_cases {first : Nat} {Q : Finset (Finset Nat)} {b : Finset Nat}
    (hb : b ∈ removeFirst first Q) :
    ∃ B ∈ Q, b ⊆ B ∧ first ∉ b ∧ (b = B ∨ b = B.erase first) := by
  rcases mem_removeFirst.mp hb with ⟨h1, h2⟩ | ⟨⟨B, hB, hfB, hEq⟩, -⟩
  · exact ⟨b, h1, Finset.Subset.refl b, h2, Or.inl rfl⟩
  · exact ⟨B, hB, hEq ▸ Finset.erase_subset _ _, hEq ▸ Finset.not_mem_erase _ _,
      Or.inr hEq.symm⟩

theorem removeFirst_isSetPartition {first : Nat} {T : Finset Nat}
    {Q : Finset (Finset Nat)} (hQ : IsSetPartitionOf Q (insert first T))
    (hfT : first ∉ T) : IsSetPartitionOf (removeFirst first Q) T := by
  obtain ⟨hne, hdisj, hcov⟩ := hQ
  refine ⟨?_, ?_, ?_⟩
  · intro b hb
    rcases mem_removeFirst.mp hb with ⟨h1, -⟩ | ⟨-, h2⟩
    · exact hne b h1
    · exact h2
  · intro b1 hb1 b2 hb2 hbne x hx1 hx2
    obtain ⟨B1, hB1, hsub1, hf1, hor1⟩ := mem_removeFirst_cases hb1
    obtain ⟨B2, hB2, hsub2, hf2, hor2⟩ := mem_removeFirst_cases hb2
    by_cases hBB : B1 = B2
    · subst hBB
      have he1 : b1 = B1.erase first := by
        rcases hor1 with rfl | rfl
        · rw [Finset.erase_eq_of_not_mem hf1]
        · rfl
      have he2 : b2 = B1.erase first := by
        rcases hor2 with rfl | rfl
        · rw [Finset.erase_eq_of_not_mem hf2]
        · rfl
      rw [he1, he2] at hbne
      exact absurd rfl hbne
    · exact hdisj B1 hB1 B2 hB2 hBB x (hsub1 hx1) (hsub2 hx2)
  · intro x
    constructor
    · intro hx
      have hx' : x ∈ insert first T := Finset.mem_insert_of_mem hx
      obtain ⟨B, hB, hxB⟩ := (hcov x).mp hx'
      have hxf : x ≠ first := fun h => hfT (h ▸ hx)
      by_cases hfB : first ∈ B
      · refine ⟨B.erase first, ?_, Finset.mem_erase.mpr ⟨hxf, hxB⟩⟩
        refine mem_removeFirst.mpr (Or.inr ⟨⟨B, hB, hfB, rfl⟩, ?_⟩)
        exact Finset.ne_empty_of_mem (Finset.mem_erase.mpr ⟨hxf, hxB⟩)
      · exact ⟨B, mem_removeFirst.mpr (Or.inl ⟨hB, hfB⟩), hxB⟩
    · rintro ⟨b, hb, hxb⟩
      obtain ⟨B, hB, hsub, hf, -⟩ := mem_removeFirst_cases hb
      have h1 : x ∈ insert first T := (hcov x).mpr ⟨B, hB, hsub hxb⟩
      rcases Finset.mem_insert.mp h1 with rfl | h
      · exact absurd hxb hf
      · exact h

theorem reconstruct_grow {first : Nat} {Q : Finset (Finset Nat)} {B : Finset Nat}
    (hQdisj : ∀ b1 ∈ Q, ∀ b2 ∈ Q, b1 ≠ b2 → ∀ x ∈ b1, x ∉ b2)
    (hB : B ∈ Q) (hfB : first ∈ B) (hBs : B = {first}) :
    insert B (removeFirst first Q) = Q := by
  subst hBs
  ext c
  simp only [Finset.mem_insert]
  constructor
  · rintro (rfl | hc)
    · exact hB
    · rcases mem_removeFirst.mp hc with ⟨h1, -⟩ | ⟨⟨B2, hB2, hfB2, hEq⟩, hcne⟩
      · exact h1
      · have hB2s : B2 = {first} := by
          by_contra hne2
          exact hQdisj B2 hB2 {first} hB hne2 first hfB2 (by simp)
        rw [hB2s] at hEq
        simp only [Finset.erase_singleton] at hEq
        exact absurd hEq.symm hcne
  · intro hc
    by_cases hcB : c = {first}
    · exact Or.inl hcB
    · right
      have hfc : first ∉ c := fun habs => hQdisj c hc {first} hB hcB first habs (by simp)
      exact mem_removeFirst.mpr (Or.inl ⟨hc, hfc⟩)

theorem reconstruct_insert {first : Nat} {Q : Finset (Finset Nat)} {B : Finset Nat}
    (hQdisj : ∀ b1 ∈ Q, ∀ b2 ∈ Q, b1 ≠ b2 → ∀ x ∈ b1, x ∉ b2)
    (hQne : ∀ b ∈ Q, b ≠ ∅)
    (hB : B ∈ Q) (hfB : first ∈ B) :
    insert B ((removeFirst first Q).erase (B.erase first)) = Q := by
  ext c
  simp only [Finset.mem_insert, Finset.mem_erase]
  constructor
  · rintro (rfl | ⟨hcne, hc⟩)
    · exact hB
    · rcases mem_removeFirst.mp hc with ⟨h1, -⟩ | ⟨⟨B2, hB2, hfB2, hEq⟩, -⟩
      · exact h1
      · have hB2B : B2 = B := by
          by_contra hne2
          exact hQdisj B2 hB2 B hB hne2 first hfB2 hfB
        rw [hB2B] at hEq
        exact absurd hEq.symm hcne
  · intro hc
    by_cases hcB : c = B
    · exact Or.inl hcB
    · right
      have hfc : first ∉ c := fun habs => hQdisj c hc B hB hcB first habs hfB
      refine ⟨?_, mem_removeFirst.mpr (Or.inl ⟨hc, hfc⟩)⟩
      intro habs
      obtain ⟨x, hx⟩ := Finset.nonempty_iff_ne_empty.mpr (hQne c hc)
      have hx' : x ∈ B.erase first := habs ▸ hx
      exact hQdisj c hc B hB hcB x hx (Finset.mem_of_mem_erase hx')

theorem goodBlocks_getElem_not_mem {s : List (List Nat)}
    (hdisj : s.Pairwise List.Disjoint) {i j : Nat} (hi : i < s.length)
    (hj : j < s.length) (hne : i ≠ j) : ∀ x ∈ s[i], x ∉ s[j] := by
  rcases Nat.lt_or_ge i j with h | h
  · exact List.pairwise_iff_getElem.mp hdisj i j hi hj h
  · have hlt : j < i := by omega
    intro x hx1 hx2
    exact List.pairwise_iff_getElem.mp hdisj j i hj hi hlt hx2 hx1

theorem removeFirst_of_mem_branch {first : Nat} {s : List (List Nat)}
    {Q : Finset (Finset Nat)} (hG : GoodList first s)
    (hQ : Q ∈ (((List.range s.length).map (insertAt first s)) ++
      [[first] :: s]).map partFinset) :
    removeFirst first Q = partFinset s := by
  simp only [List.map_append, List.mem_append, List.map_map, List.mem_map,
    List.mem_range, Function.comp_apply, List.map_cons, List.map_nil,
    List.mem_singleton] at hQ
  rcases hQ with ⟨i, hi, rfl⟩ | rfl
  · exact removeFirst_insertAt hG hi
  · exact removeFirst_grow hG

theorem partitions_map_nodup {coll : List Nat} (hnd : coll.Nodup) :
    ((_partitions coll).map partFinset).Nodup := by
  induction coll using _partitions.induct with
  | case1 => simp [_partitions]
  | case2 x => simp [_partitions]
  | case3 first y rest ih =>
    have hnd' : (y :: rest).Nodup := hnd.of_cons
    rw [_partitions, List.map_flatMap, List.nodup_flatMap]
    constructor
    · intro s hs
      have hG := goodList_of_mem hnd hs
      obtain ⟨hne, hnf, hdisj, -⟩ := goodList_unpack hG
      rw [List.map_append, List.nodup_append]
      refine ⟨?_, by simp, ?_⟩
      · rw [List.map_map]
        apply List.Nodup.map_on _ (List.nodup_range _)
        intro i hi j hj hEq
        simp only [Function.comp_apply] at hEq
        by_contra hne_ij
        have hi' := List.mem_range.mp hi
        have hj' := List.mem_range.mp hj
        have hmem : insert first s[i].toFinset ∈ partFinset (insertAt first s i) :=
          mem_partFinset.mpr ⟨first :: s[i],
            (mem_insertAt_iff hi').mpr (Or.inl rfl), by simp⟩
        rw [hEq] at hmem
        have hfirst := first_block_insertAt hG hj' hmem (Finset.mem_insert_self _ _)
        have hfi : first ∉ s[i] := hnf _ (List.getElem_mem hi')
        have hfj : first ∉ s[j] := hnf _ (List.getElem_mem hj')
        have hEq2 : s[i].toFinset = s[j].toFinset := by
          have h1 := congrArg (fun t => Finset.erase t first) hfirst
          simp only at h1
          rwa [Finset.erase_insert (by simpa using hfi),
            Finset.erase_insert (by simpa using hfj)] at h1
        obtain ⟨x, hx⟩ := List.exists_mem_of_ne_nil s[i] (hne _ (List.getElem_mem hi'))
        have hx2 : x ∈ s[j] := by
          have h2 := List.mem_toFinset.mpr hx
          rw [hEq2] at h2
          exact List.mem_toFinset.mp h2
        exact goodBlocks_getElem_not_mem hdisj hi' hj' hne_ij x hx hx2
      · intro Q hQ1 hQ2
        rw [List.map_map] at hQ1
        simp only [List.mem_map, List.mem_range, Function.comp_apply] at hQ1
        simp only [List.map_cons, List.map_nil, List.mem_singleton] at hQ2
        obtain ⟨i, hi, rfl⟩ := hQ1
        have hone : ({first} : Finset Nat) ∈ partFinset ([first] :: s) :=
          mem_partFinset.mpr ⟨[first], List.mem_cons_self _ _, rfl⟩
        rw [← hQ2] at hone
        have hfirst := first_block_insertAt hG hi hone (by simp)
        obtain ⟨x, hx⟩ := List.exists_mem_of_ne_nil s[i] (hne _ (List.getElem_mem hi))
        have hxf : x ∈ ({first} : Finset Nat) := by
          rw [hfirst]
          exact Finset.mem_insert_of_mem (List.mem_toFinset.mpr hx)
        rw [Finset.mem_singleton] at hxf
        exact hnf _ (List.getElem_mem hi) (hxf ▸ hx)
    · apply List.Pairwise.imp_of_mem ?_ (List.pairwise_map.mp (ih hnd'))
      intro s1 s2 hs1 hs2 hne12
      intro Q hQ1 hQ2
      have hG1 := goodList_of_mem hnd hs1
      have hG2 := goodList_of_mem hnd hs2
      have h1 := removeFirst_of_mem_branch hG1 hQ1
      have h2 := removeFirst_of_mem_branch hG2 hQ2
      exact hne12 (h1 ▸ h2)

theorem partitions_complete {coll : List Nat} (hnd : coll.Nodup) (hne : coll ≠ [])
    {Q : Finset (Finset Nat)} (hQ : IsSetPartitionOf Q coll.toFinset) :
    Q ∈ (_partitions coll).map partFinset := by
  induction coll using _partitions.induct generalizing Q with
  | case1 => exact absurd rfl hne
  | case2 x =>
    obtain ⟨hQne, hQdisj, hQcov⟩ := hQ
    obtain ⟨B, hB, hxB⟩ := (hQcov x).mp (by simp)
    have hBsub : ∀ z ∈ B, z = x := by
      intro z hz
      have h1 : z ∈ ([x] : List Nat).toFinset := (hQcov z).mpr ⟨B, hB, hz⟩
      simpa using h1
    have hBx : B = {x} := by
      ext z
      simp only [Finset.mem_singleton]
      exact ⟨fun hz => hBsub z hz, fun hz => hz ▸ hxB⟩
    have hQs : Q = {({x} : Finset Nat)} := by
      ext c
      simp only [Finset.mem_singleton]
      constructor
      · intro hc
        by_contra hcB
        obtain ⟨z, hz⟩ := Finset.nonempty_iff_ne_empty.mpr (hQne c hc)
        have hzx : z = x := by
          have h1 : z ∈ ([x] : List Nat).toFinset := (hQcov z).mpr ⟨c, hc, hz⟩
          simpa using h1
        subst hzx
        have hcneB : c ≠ B := fun h => hcB (h.trans hBx)
        exact hQdisj c hc B hB hcneB z hz hxB
      · rintro rfl
        exact hBx ▸ hB
    rw [_partitions]
    simp only [List.map_cons, List.map_nil, List.mem_singleton]
    rw [hQs]
    rfl
  | case3 first y rest ih =>
    obtain ⟨hQne, hQdisj, hQcov⟩ := hQ
    have hnd' : (y :: rest).Nodup := hnd.of_cons
    have hfirst_notin : first ∉ (y :: rest) := (List.nodup_cons.mp hnd).1
    have hcollT : (first :: y :: rest).toFinset =
        insert first ((y :: rest).toFinset) := by simp
    obtain ⟨B, hB, hfB⟩ := (hQcov first).mp (by simp)
    have hQ' : IsSetPartitionOf (removeFirst first Q) ((y :: rest).toFinset) := by
      apply removeFirst_isSetPartition (T := (y :: rest).toFinset)
      · rw [← hcollT]
        exact ⟨hQne, hQdisj, hQcov⟩
      · simpa using hfirst_notin
    have hmem' := ih hnd' (by simp) hQ'
    rw [List.mem_map] at hmem'
    obtain ⟨smaller, hs, hQ's⟩ := hmem'
    have hG := goodList_of_mem hnd hs
    obtain ⟨hsne, hsnf, hsdisj, -⟩ := goodList_unpack hG
    by_cases hBs : B = {first}
    · have hQeq : Q = partFinset ([first] :: smaller) := by
        rw [partFinset_cons, hQ's]
        have : ([first] : List Nat).toFinset = B := by
          rw [hBs]
          rfl
        rw [this]
        exact (reconstruct_grow hQdisj hB hfB hBs).symm
      rw [List.mem_map]
      refine ⟨[first] :: smaller, ?_, hQeq.symm⟩
      rw [_partitions, List.mem_flatMap]
      exact ⟨smaller, hs, List.mem_append.mpr (Or.inr (by simp))⟩
    · have hB'ne : B.erase first ≠ ∅ := by
        intro habs
        rcases (Finset.erase_eq_empty_iff _ _).mp habs with h | h
        · exact (hQne B hB) h
        · exact hBs h
      have hB'mem : B.erase first ∈ removeFirst first Q :=
        mem_removeFirst.mpr (Or.inr ⟨⟨B, hB, hfB, rfl⟩, hB'ne⟩)
      rw [← hQ's] at hB'mem
      rw [mem_partFinset] at hB'mem
      obtain ⟨blk, hblk, hblkEq⟩ := hB'mem
      obtain ⟨i, hi, hIdx⟩ := List.mem_iff_getElem.mp hblk
      have hQeq : Q = partFinset (insertAt first smaller i) := by
        rw [partFinset_insertAt hG hi, hIdx, hblkEq, hQ's]
        rw [Finset.insert_erase hfB]  -- insert first (B.erase first) = B
        exact (reconstruct_insert hQdisj hQne hB hfB).symm
      rw [List.mem_map]
      refine ⟨insertAt first smaller i, ?_, hQeq.symm⟩
      rw [_partitions, List.mem_flatMap]
      refine ⟨smaller, hs, List.mem_append.mpr (Or.inl ?_)⟩
      exact List.mem_map.mpr ⟨i, List.mem_range.mpr hi, rfl⟩

/-- C8: `partitions` yields nothing for an empty collection and exactly the
one-block partition for a singleton; for every non-empty duplicate-free
collection, the emitted partitions are pairwise distinct as set partitions, a
family of blocks is emitted iff it is a set partition of the collection
(non-empty pairwise-disjoint blocks covering it), and the number of emissions
is the Bell number of the collection's size; with `nontrivial=True` the first
result — the single all-in-one-block partition, which is the head of the
enumeration — is skipped and exactly the remaining partitions are produced. -/
theorem c8_partitions_generator (coll : List Nat) (x : Nat) (hnd : coll.Nodup) :
    partitions [] false = [] ∧
    partitions [x] false = [[[x]]] ∧
    (coll ≠ [] →
      ((_partitions coll).map partFinset).Nodup ∧
      (∀ Q : Finset (Finset Nat),
        Q ∈ (_partitions coll).map partFinset ↔ IsSetPartitionOf Q coll.toFinset) ∧
      (_partitions coll).length = Bell coll.length ∧
      (_partitions coll).head? = some [coll] ∧
      partitions coll true = (_partitions coll).drop 1) := by
  refine ⟨rfl, rfl, fun hne => ⟨partitions_map_nodup hnd, fun Q => ⟨?_, ?_⟩,
    partitions_length_eq_bell hne, partitions_head hne, rfl⟩⟩
  · intro hQ
    rw [List.mem_map] at hQ
    obtain ⟨p, hp, rfl⟩ := hQ
    exact partFinset_isSetPartition hnd hp
  · exact partitions_complete hnd hne

/-- C8, witness: the statement applied at the collection `[0, 1, 2]`. -/
theorem c8_witness :
    partitions [] false = [] ∧
    partitions [7] false = [[[7]]] ∧
    (([0, 1, 2] : List Nat) ≠ [] →
      ((_partitions [0, 1, 2]).map partFinset).Nodup ∧
      (∀ Q : Finset (Finset Nat),
        Q ∈ (_partitions [0, 1, 2]).map partFinset ↔
          IsSetPartitionOf Q ([0, 1, 2] : List Nat).toFinset) ∧
      (_partitions [0, 1, 2]).length = Bell ([0, 1, 2] : List Nat).length ∧
      (_partitions [0, 1, 2]).head? = some [[0, 1, 2]] ∧
      partitions [0, 1, 2] true = (_partitions [0, 1, 2]).drop 1) :=
  c8_partitions_generator [0, 1, 2] 7 (by decide)

/-- C10, witness: the statement applied at the sequence `[5, 7]`. -/
theorem c10_witness :
    (∀ p ∈ directed_bipartition [5, 7] true, p.1 ≠ [] ∧ p.2 ≠ []) ∧
    (∀ i, i < (directed_bipartition_indices (([5, 7] : List Nat).length : Int)).length →
      ((((directed_bipartition_indices (([5, 7] : List Nat).length : Int)).getD i
          ([], [])).1 = [] ∨
        ((directed_bipartition_indices (([5, 7] : List Nat).length : Int)).getD i
          ([], [])).2 = []) ↔
       (i = 0 ∨ i = (directed_bipartition_indices
          (([5, 7] : List Nat).length : Int)).length - 1))) :=
  c10_nontrivial_directed_bipartitions [5, 7] (by norm_num)

/-! ### C7: the BI scheme -/

/-- C7: `mip_bipartitions` yields exactly the pairs from the product of
mechanism bipartitions and directed purview bipartitions in which each of the
two parts is non-empty on at least one axis; for mechanism `(0,)` and purview
`(2, 3)` it yields exactly the three bipartitions of the doctest. -/
theorem c7_mip_bipartitions (mechanism purview : List Nat) :
    (∀ b : Part × Part,
      b ∈ mip_bipartitions mechanism purview ↔
        ∃ n ∈ bipartition mechanism false,
          ∃ d ∈ directed_bipartition purview false,
            (n.1 ≠ [] ∨ d.1 ≠ []) ∧ (n.2 ≠ [] ∨ d.2 ≠ []) ∧
            b = (Part.mk n.1 d.1, Part.mk n.2 d.2)) ∧
    mip_bipartitions [0] [2, 3] =
      [(Part.mk [] [2], Part.mk [0] [3]),
       (Part.mk [] [3], Part.mk [0] [2]),
       (Part.mk [] [2, 3], Part.mk [0] [])] := by
  constructor
  · intro b
    rw [mip_bipartitions, List.mem_filterMap]
    constructor
    · rintro ⟨nd, hnd, hf⟩
      rw [pyProduct, List.mem_flatMap] at hnd
      obtain ⟨n, hn, hd⟩ := hnd
      rw [List.mem_map] at hd
      obtain ⟨d, hd, rfl⟩ := hd
      by_cases hcond : (n.1 ≠ [] ∨ d.1 ≠ []) ∧ (n.2 ≠ [] ∨ d.2 ≠ [])
      · rw [if_pos hcond] at hf
        exact ⟨n, hn, d, hd, hcond.1, hcond.2, (Option.some.inj hf).symm⟩
      · rw [if_neg hcond] at hf
        exact absurd hf (by simp)
    · rintro ⟨n, hn, d, hd, h1, h2, rfl⟩
      refine ⟨(n, d), ?_, ?_⟩
      · rw [pyProduct, List.mem_flatMap]
        exact ⟨n, hn, List.mem_map.mpr ⟨d, hd, rfl⟩⟩
      · rw [if_pos ⟨h1, h2⟩]
  · rfl

/-! ### C5: the TRI scheme -/

theorem wedgeFold_spec
    (l : List ((List Nat × List Nat) × (List Nat × List Nat × List Nat))) :
    ∀ acc : List (Part × Part × Part), acc.Nodup →
      (∀ t ∈ acc, compressible t = false) →
      (l.foldl wedgeStep acc).Nodup ∧
        ∀ t ∈ l.foldl wedgeStep acc, compressible t = false := by
  induction l with
  | nil =>
    intro acc h1 h2
    exact ⟨h1, h2⟩
  | cons nd l ih =>
    intro acc h1 h2
    rw [List.foldl_cons]
    apply ih
    · simp only [wedgeStep]
      split
      · rename_i hcond
        rw [Bool.and_eq_true, Bool.not_eq_true', Bool.not_eq_true'] at hcond
        rw [List.nodup_append]
        refine ⟨h1, List.nodup_singleton _, ?_⟩
        intro x hx hx2
        rw [List.mem_singleton] at hx2
        subst hx2
        exact (of_decide_eq_false hcond.2) hx
      · exact h1
    · intro t ht
      simp only [wedgeStep] at ht
      split at ht
      · rename_i hcond
        rw [Bool.and_eq_true, Bool.not_eq_true', Bool.not_eq_true'] at hcond
        rcases List.mem_append.mp ht with h | h
        · exact h2 t h
        · rw [List.mem_singleton] at h
          subst h
          exact hcond.1
      · exact h2 t ht

/-- C5: every tripartition yielded by `wedge_partitions` is yielded at most
once (the output list of canonical forms is duplicate-free), and no yielded
tripartition contains two mergeable parts — for each of the three part pairs,
it is not the case that both parts are non-empty with both mechanisms empty
or both purviews empty. -/
theorem c5_wedge_partitions (mechanism purview : List Nat) :
    (wedge_partitions mechanism purview).Nodup ∧
    ∀ t ∈ wedge_partitions mechanism purview,
      mergeablePair t.1 t.2.1 = false ∧ mergeablePair t.1 t.2.2 = false ∧
        mergeablePair t.2.1 t.2.2 = false := by
  have h := wedgeFold_spec
    ((pyProduct (bipartition mechanism false) (directed_tripartition purview)).filter
      (fun nd => validFactoring nd.1 nd.2)) [] List.nodup_nil (by simp)
  rw [wedge_partitions]
  refine ⟨h.1, fun t ht => ?_⟩
  have hc := h.2 t ht
  rw [compressible, Bool.or_eq_false_iff, Bool.or_eq_false_iff] at hc
  exact ⟨hc.1.1, hc.1.2, hc.2⟩

/-! ### C6: the ALL scheme's exclusion rule -/

/-- C6: a block list is yielded by `all_partitions` iff it is one of the
generated mechanism-partition / purview-permutation candidates and it does
not trigger the exclusion rule — its first part's mechanism equalling the
entire mechanism with a non-empty purview; every other generated candidate is
yielded. -/
theorem c6_all_partitions_exclusion (mechanism purview : List Nat)
    (parts : List Part) :
    parts ∈ all_partitions mechanism purview ↔
      (parts ∈ all_partitions_candidates mechanism purview ∧
        ¬ ((parts.headD (Part.mk [] [])).mechanism = mechanism ∧
           (parts.headD (Part.mk [] [])).purview ≠ [])) := by
  rw [all_partitions, all_partitions_candidates]
  simp only [List.mem_flatMap, List.mem_filterMap, List.mem_map]
  constructor
  · rintro ⟨mp, hmp, np, hnp, pp, hpp, perm, hperm, hf⟩
    split at hf
    · exact absurd hf (by simp)
    · rename_i hP
      have hb := Option.some.inj hf
      subst hb
      exact ⟨⟨mp, hmp, np, hnp, pp, hpp, perm, hperm, rfl⟩, hP⟩
  · rintro ⟨⟨mp, hmp, np, hnp, pp, hpp, perm, hperm, rfl⟩, hP⟩
    refine ⟨mp, hmp, np, hnp, pp, hpp, perm, hperm, ?_⟩
    rw [if_neg hP]

/-! ### C3: intersection combinatorics -/

theorem mem_pair_indices {n k i j : Nat} :
    (i, j) ∈ pair_indices n k ↔ i < n ∧ i + k ≤ j ∧ j < n := by
  constructor
  · intro hp
    rw [pair_indices, List.mem_flatMap] at hp
    obtain ⟨a, ha, hmem⟩ := hp
    rw [List.mem_map] at hmem
    obtain ⟨b, hb, hEq⟩ := hmem
    rw [List.mem_range] at ha
    rw [List.mem_range'_1] at hb
    have h1 : a = i := congrArg Prod.fst hEq
    have h2 : b = j := congrArg Prod.snd hEq
    subst h1
    subst h2
    omega
  · rintro ⟨h1, h2, h3⟩
    rw [pair_indices, List.mem_flatMap]
    refine ⟨i, List.mem_range.mpr h1, ?_⟩
    rw [List.mem_map]
    refine ⟨j, ?_, rfl⟩
    rw [List.mem_range'_1]
    omega

theorem pair_indices_lt {n k : Nat} (hk : 1 ≤ k) :
    ∀ p ∈ pair_indices n k, p.1 < p.2 := by
  rintro ⟨i, j⟩ hp
  have := mem_pair_indices.mp hp
  simp only
  omega

theorem pair_key_inj {i j a b : Nat} (h1 : i < j) (h2 : a < b)
    (h : ({i, j} : Finset Nat) = {a, b}) : i = a ∧ j = b := by
  have hmi : i ∈ ({a, b} : Finset Nat) := by rw [← h]; simp
  have hmj : j ∈ ({a, b} : Finset Nat) := by rw [← h]; simp
  have hma : a ∈ ({i, j} : Finset Nat) := by rw [h]; simp
  have hmb : b ∈ ({i, j} : Finset Nat) := by rw [h]; simp
  simp only [Finset.mem_insert, Finset.mem_singleton] at hmi hmj hma hmb
  rcases hmi with rfl | rfl <;> rcases hmj with h3 | h3 <;> omega

theorem fold_update_preserve (sets : List (Finset Nat)) (l : List (Nat × Nat))
    (f0 : Finset Nat → Finset Nat) (C : Finset Nat)
    (h : ∀ p ∈ l, ({p.1, p.2} : Finset Nat) ≠ C) :
    (l.foldl (fun f ij => fun D => if D = ({ij.1, ij.2} : Finset Nat)
      then (sets.getD ij.1 ∅) ∩ (sets.getD ij.2 ∅) else f D) f0) C = f0 C := by
  induction l generalizing f0 with
  | nil => rfl
  | cons q l ih =>
    rw [List.foldl_cons, ih _ (fun p hp => h p (by simp [hp]))]
    exact if_neg (fun hh => h q (by simp) hh.symm)

theorem fold_update_eval (sets : List (Finset Nat)) (l : List (Nat × Nat))
    (hlt : ∀ p ∈ l, p.1 < p.2) (f0 : Finset Nat → Finset Nat) {i j : Nat}
    (hij : (i, j) ∈ l) (hij2 : i < j) :
    (l.foldl (fun f ij => fun D => if D = ({ij.1, ij.2} : Finset Nat)
      then (sets.getD ij.1 ∅) ∩ (sets.getD ij.2 ∅) else f D) f0) {i, j} =
      (sets.getD i ∅) ∩ (sets.getD j ∅) := by
  induction l generalizing f0 with
  | nil => cases hij
  | cons q l ih =>
    rw [List.foldl_cons]
    by_cases hmem : (i, j) ∈ l
    · exact ih (fun p hp => hlt p (by simp [hp])) _ hmem
    · have hq : q = (i, j) := by
        rcases List.mem_cons.mp hij with h | h
        · exact h.symm
        · exact absurd h hmem
      subst hq
      rw [fold_update_preserve]
      · simp
      · intro p hp hkey
        have h1 := hlt p (by simp [hp])
        obtain ⟨e1, e2⟩ := pair_key_inj h1 hij2 hkey
        apply hmem
        have hpe : p = (i, j) := by
          cases p
          simp only at e1 e2
          rw [e1, e2]
        rwa [hpe] at hp

theorem initInters_eval {sets : List (Finset Nat)} {n i j : Nat}
    (hij : (i, j) ∈ pair_indices n 1) (hlt : i < j) :
    initInters sets n {i, j} = (sets.getD i ∅) ∩ (sets.getD j ∅) :=
  fold_update_eval sets _ (pair_indices_lt (by omega)) _ hij hlt

theorem mem_initCombs {sets : List (Finset Nat)} {C : Finset Nat} :
    C ∈ initCombs sets sets.length 2 ↔ ValidComb sets 2 C := by
  rw [initCombs, if_pos rfl, List.mem_toFinset, List.mem_filter]
  constructor
  · rintro ⟨hmem, hpred⟩
    rw [pairsFS, List.mem_map] at hmem
    obtain ⟨⟨i, j⟩, hij, rfl⟩ := hmem
    have hb := mem_pair_indices.mp hij
    have hlt : i < j := by omega
    rw [initInters_eval hij hlt] at hpred
    have hpred' : (sets.getD i ∅) ∩ (sets.getD j ∅) ≠ ∅ := by simpa using hpred
    obtain ⟨x, hx⟩ := Finset.nonempty_iff_ne_empty.mpr hpred'
    rw [Finset.mem_inter] at hx
    refine ⟨?_, Finset.card_pair (by omega), x, ?_⟩
    · intro a ha
      simp only [Finset.mem_insert, Finset.mem_singleton] at ha
      rw [Finset.mem_range]
      rcases ha with rfl | rfl <;> omega
    · intro a ha
      simp only [Finset.mem_insert, Finset.mem_singleton] at ha
      rcases ha with rfl | rfl
      · exact hx.1
      · exact hx.2
  · rintro ⟨hsub, hcard, x, hx⟩
    obtain ⟨a, b, hab, rfl⟩ := Finset.card_eq_two.mp hcard
    have han : a < sets.length := by
      have := hsub (Finset.mem_insert_self a {b})
      rwa [Finset.mem_range] at this
    have hbn : b < sets.length := by
      have := hsub (Finset.mem_insert_of_mem (Finset.mem_singleton_self b))
      rwa [Finset.mem_range] at this
    have hxa : x ∈ sets.getD a ∅ := hx a (by simp)
    have hxb : x ∈ sets.getD b ∅ := hx b (by simp)
    rcases Nat.lt_or_ge a b with hlt | hge
    · have hij : (a, b) ∈ pair_indices sets.length 1 := mem_pair_indices.mpr (by omega)
      refine ⟨List.mem_map.mpr ⟨(a, b), hij, rfl⟩, ?_⟩
      rw [initInters_eval hij hlt]
      have hne2 : (sets.getD a ∅) ∩ (sets.getD b ∅) ≠ ∅ :=
        Finset.ne_empty_of_mem (Finset.mem_inter.mpr ⟨hxa, hxb⟩)
      simpa using hne2
    · have hlt : b < a := by omega
      have hij : (b, a) ∈ pair_indices sets.length 1 := mem_pair_indices.mpr (by omega)
      have hcomm : ({a, b} : Finset Nat) = {b, a} := Finset.pair_comm a b
      rw [hcomm]
      refine ⟨List.mem_map.mpr ⟨(b, a), hij, rfl⟩, ?_⟩
      rw [initInters_eval hij hlt]
      have hne2 : (sets.getD b ∅) ∩ (sets.getD a ∅) ≠ ∅ :=
        Finset.ne_empty_of_mem (Finset.mem_inter.mpr ⟨hxb, hxa⟩)
      simpa using hne2

theorem initInters_correct {sets : List (Finset Nat)} {C : Finset Nat}
    (hC : C ∈ initCombs sets sets.length 2) :
    ∀ x, x ∈ initInters sets sets.length C ↔ ∀ i ∈ C, x ∈ sets.getD i ∅ := by
  rw [initCombs, if_pos rfl, List.mem_toFinset, List.mem_filter] at hC
  obtain ⟨hmem, -⟩ := hC
  rw [pairsFS, List.mem_map] at hmem
  obtain ⟨⟨i, j⟩, hij, rfl⟩ := hmem
  have hb := mem_pair_indices.mp hij
  have hlt : i < j := by omega
  intro x
  rw [initInters_eval hij hlt, Finset.mem_inter]
  constructor
  · rintro ⟨h1, h2⟩ a ha
    simp only [Finset.mem_insert, Finset.mem_singleton] at ha
    rcases ha with rfl | rfl
    · exact h1
    · exact h2
  · intro h
    exact ⟨h i (by simp), h j (by simp)⟩

theorem validComb_erase_min {sets : List (Finset Nat)} {j : Nat} {D : Finset Nat}
    (h : ValidComb sets (j + 1) D) :
    ∃ i ∈ D, (∀ a ∈ D, i ≤ a) ∧ ValidComb sets j (D.erase i) := by
  obtain ⟨hsub, hcard, x, hx⟩ := h
  have hne : D.Nonempty := Finset.card_pos.mp (by omega)
  refine ⟨D.min' hne, Finset.min'_mem D hne, fun a ha => Finset.min'_le D a ha,
    ?_, ?_, x, ?_⟩
  · exact fun a ha => hsub (Finset.mem_of_mem_erase ha)
  · rw [Finset.card_erase_of_mem (Finset.min'_mem D hne), hcard]
    omega
  · exact fun i hi => hx i (Finset.mem_of_mem_erase hi)

theorem inner_fold_inv (sets : List (Finset Nat)) (k : Nat)
    (S0 : Finset (Finset Nat)) (inters0 : Finset Nat → Finset Nat)
    (hS0 : ∀ C, C ∈ S0 ↔ ValidComb sets k C)
    (hcache : ∀ C ∈ S0, ∀ x, x ∈ inters0 C ↔ ∀ i ∈ C, x ∈ sets.getD i ∅) :
    ∀ m, m ≤ sets.length →
      (∀ C, C ∈ (innerFoldAt sets S0 inters0 m).S ↔
        C ∈ S0 ∧ ∀ a < m, a ∉ C) ∧
      (∀ D, D ∈ (innerFoldAt sets S0 inters0 m).newCombs ↔
        (ValidComb sets (k + 1) D ∧ ∃ a < m, a ∈ D ∧ ∀ b ∈ D, a ≤ b)) ∧
      (∀ D ∈ (innerFoldAt sets S0 inters0 m).newCombs,
        ∀ x, x ∈ (innerFoldAt sets S0 inters0 m).inters D ↔
          ∀ i ∈ D, x ∈ sets.getD i ∅) ∧
      (∀ C, C.card ≤ k → (innerFoldAt sets S0 inters0 m).inters C = inters0 C) ∧
      ((innerFoldAt sets S0 inters0 m).broken = true →
        (innerFoldAt sets S0 inters0 m).S = ∅) := by
  intro m
  induction m with
  | zero =>
    intro _
    refine ⟨?_, ?_, ?_, ?_, ?_⟩
    · intro C
      simp [innerFoldAt]
    · intro D
      simp [innerFoldAt]
    · intro D hD
      simp [innerFoldAt] at hD
    · intro C _
      rfl
    · intro h
      simp [innerFoldAt] at h
  | succ m ih =>
    intro hm
    obtain ⟨ih1, ih2, ih3, ih4, ih5⟩ := ih (by omega)
    have hstep : innerFoldAt sets S0 inters0 (m + 1) =
        innerStep sets (innerFoldAt sets S0 inters0 m) m := by
      rw [innerFoldAt, innerFoldAt, List.range_succ, List.foldl_append,
        List.foldl_cons, List.foldl_nil]
    have hScard : ∀ C ∈ (innerFoldAt sets S0 inters0 m).S, C.card = k := by
      intro C hC
      exact ((hS0 C).mp ((ih1 C).mp hC).1).2.1
    by_cases hbr : (innerFoldAt sets S0 inters0 m).broken
    · have hid : innerFoldAt sets S0 inters0 (m + 1) =
          innerFoldAt sets S0 inters0 m := by
        rw [hstep, innerStep, if_pos hbr]
      have hSempty := ih5 hbr
      rw [hid]
      refine ⟨?_, ?_, ih3, ih4, fun _ => hSempty⟩
      · intro C
        rw [hSempty]
        constructor
        · intro hC
          exact absurd hC (Finset.not_mem_empty C)
        · rintro ⟨hC0, hlt⟩
          have hCin : C ∈ (innerFoldAt sets S0 inters0 m).S :=
            (ih1 C).mpr ⟨hC0, fun a ha => hlt a (by omega)⟩
          rw [hSempty] at hCin
          exact absurd hCin (Finset.not_mem_empty C)
      · intro D
        rw [ih2 D]
        constructor
        · rintro ⟨hv, a, ha, hmem, hmin⟩
          exact ⟨hv, a, by omega, hmem, hmin⟩
        · rintro ⟨hv, a, ha, hmem, hmin⟩
          refine ⟨hv, a, ?_, hmem, hmin⟩
          by_contra hge
          have ham : a = m := by omega
          subst ham
          obtain ⟨hsub, hcard, x, hx⟩ := hv
          have hCvalid : ValidComb sets k (D.erase a) := by
            refine ⟨fun b hb => hsub (Finset.mem_of_mem_erase hb), ?_, x,
              fun i hi => hx i (Finset.mem_of_mem_erase hi)⟩
            rw [Finset.card_erase_of_mem hmem, hcard]
            omega
          have hCin : D.erase a ∈ (innerFoldAt sets S0 inters0 a).S := by
            refine (ih1 _).mpr ⟨(hS0 _).mpr hCvalid, ?_⟩
            intro b hb hbin
            have hbD : b ∈ D := Finset.mem_of_mem_erase hbin
            have := hmin b hbD
            omega
          rw [hSempty] at hCin
          exact absurd hCin (Finset.not_mem_empty _)
    · have hmlt : m < sets.length := by omega
      have hnew : innerFoldAt sets S0 inters0 (m + 1) =
          { S := (innerFoldAt sets S0 inters0 m).S.filter (fun C => m ∉ C),
            newCombs := (innerFoldAt sets S0 inters0 m).newCombs ∪
              ((innerFoldAt sets S0 inters0 m).S.filter
                (fun C => m ∉ C ∧ (sets.getD m ∅) ∩
                  (innerFoldAt sets S0 inters0 m).inters C ≠ ∅)).image
                (fun C => insert m C),
            inters := fun D =>
              if m ∈ D ∧ D.erase m ∈ (innerFoldAt sets S0 inters0 m).S.filter
                  (fun C => m ∉ C ∧ (sets.getD m ∅) ∩
                    (innerFoldAt sets S0 inters0 m).inters C ≠ ∅) then
                (sets.getD m ∅) ∩
                  (innerFoldAt sets S0 inters0 m).inters (D.erase m)
              else (innerFoldAt sets S0 inters0 m).inters D,
            broken := decide ((innerFoldAt sets S0 inters0 m).S.filter
              (fun C => m ∉ C) = ∅) } := by
        rw [hstep]
        simp only [innerStep, if_neg hbr]
      have hIeq : ∀ C ∈ (innerFoldAt sets S0 inters0 m).S,
          (innerFoldAt sets S0 inters0 m).inters C = inters0 C := by
        intro C hC
        exact ih4 C (le_of_eq (hScard C hC))
      have hEiff : ∀ C, (C ∈ (innerFoldAt sets S0 inters0 m).S.filter
          (fun C => m ∉ C ∧ (sets.getD m ∅) ∩
            (innerFoldAt sets S0 inters0 m).inters C ≠ ∅)) ↔
          (C ∈ S0 ∧ (∀ a < m, a ∉ C) ∧ m ∉ C ∧
            ∃ x, x ∈ sets.getD m ∅ ∧ ∀ i ∈ C, x ∈ sets.getD i ∅) := by
        intro C
        rw [Finset.mem_filter]
        constructor
        · rintro ⟨hCS, hmC, hne⟩
          obtain ⟨hC0, hsurv⟩ := (ih1 C).mp hCS
          rw [hIeq C hCS] at hne
          obtain ⟨x, hx⟩ := Finset.nonempty_iff_ne_empty.mpr hne
          rw [Finset.mem_inter] at hx
          exact ⟨hC0, hsurv, hmC, x, hx.1, fun i hi => (hcache C hC0 x).mp hx.2 i hi⟩
        · rintro ⟨hC0, hsurv, hmC, x, hxm, hxC⟩
          have hCS : C ∈ (innerFoldAt sets S0 inters0 m).S :=
            (ih1 C).mpr ⟨hC0, hsurv⟩
          refine ⟨hCS, hmC, ?_⟩
          rw [hIeq C hCS]
          exact Finset.ne_empty_of_mem
            (Finset.mem_inter.mpr ⟨hxm, (hcache C hC0 x).mpr hxC⟩)
      rw [hnew]
      refine ⟨?_, ?_, ?_, ?_, ?_⟩
      · intro C
        simp only [Finset.mem_filter]
        rw [ih1 C]
        constructor
        · rintro ⟨⟨hC0, hsurv⟩, hmC⟩
          refine ⟨hC0, ?_⟩
          intro a ha
          rcases Nat.lt_or_ge a m with h | h
          · exact hsurv a h
          · have : a = m := by omega
            subst this
            exact hmC
        · rintro ⟨hC0, hsurv⟩
          exact ⟨⟨hC0, fun a ha => hsurv a (by omega)⟩, hsurv m (by omega)⟩
      · intro D
        simp only [Finset.mem_union, Finset.mem_image]
        rw [ih2 D]
        constructor
        · rintro (⟨hv, a, ha, hmem, hmin⟩ | ⟨C, hCE, rfl⟩)
          · exact ⟨hv, a, by omega, hmem, hmin⟩
          · obtain ⟨hC0, hsurv, hmC, x, hxm, hxC⟩ := (hEiff C).mp hCE
            obtain ⟨hsub, hcard, -⟩ := (hS0 C).mp hC0
            refine ⟨⟨?_, ?_, x, ?_⟩, m, by omega, Finset.mem_insert_self m C, ?_⟩
            · intro b hb
              rcases Finset.mem_insert.mp hb with rfl | hb
              · exact Finset.mem_range.mpr hmlt
              · exact hsub hb
            · rw [Finset.card_insert_of_not_mem hmC, hcard]
            · intro i hi
              rcases Finset.mem_insert.mp hi with rfl | hi
              · exact hxm
              · exact hxC i hi
            · intro b hb
              rcases Finset.mem_insert.mp hb with rfl | hb
              · omega
              · by_contra hlt
                exact hsurv b (by omega) hb
        · rintro ⟨hv, a, ha, hmem, hmin⟩
          rcases Nat.lt_or_ge a m with h | h
          · exact Or.inl ⟨hv, a, h, hmem, hmin⟩
          · have ham : a = m := by omega
            subst ham
            right
            refine ⟨D.erase a, ?_, Finset.insert_erase hmem⟩
            obtain ⟨hsub, hcard, x, hx⟩ := hv
            rw [hEiff]
            refine ⟨?_, ?_, Finset.not_mem_erase a D, x, hx a hmem,
              fun i hi => hx i (Finset.mem_of_mem_erase hi)⟩
            · apply (hS0 _).mpr
              refine ⟨fun b hb => hsub (Finset.mem_of_mem_erase hb), ?_, x,
                fun i hi => hx i (Finset.mem_of_mem_erase hi)⟩
              rw [Finset.card_erase_of_mem hmem, hcard]
              omega
            · intro b hb hbin
              have := hmin b (Finset.mem_of_mem_erase hbin)
              have hba : b ≠ a := Finset.ne_of_mem_erase hbin
              omega
      · intro D hD
        simp only [Finset.mem_union, Finset.mem_image] at hD
        rcases hD with hold | ⟨C, hCE, rfl⟩
        · have hcond : ¬ (m ∈ D ∧ D.erase m ∈ (innerFoldAt sets S0 inters0 m).S.filter
              (fun C => m ∉ C ∧ (sets.getD m ∅) ∩
                (innerFoldAt sets S0 inters0 m).inters C ≠ ∅)) := by
            rintro ⟨hmD, hDE⟩
            obtain ⟨hC0, hsurv, -, -⟩ := (hEiff _).mp hDE
            obtain ⟨-, a, ha, hmem, hmin⟩ := (ih2 D).mp hold
            have haD : a ∈ D.erase m := Finset.mem_erase.mpr ⟨by omega, hmem⟩
            exact hsurv a ha haD
          intro x
          dsimp only
          rw [if_neg hcond]
          exact ih3 D hold x
        · obtain ⟨hC0, hsurv, hmC, -⟩ := (hEiff C).mp hCE
          have hcond : m ∈ insert m C ∧ (insert m C).erase m ∈
              (innerFoldAt sets S0 inters0 m).S.filter
                (fun C => m ∉ C ∧ (sets.getD m ∅) ∩
                  (innerFoldAt sets S0 inters0 m).inters C ≠ ∅) := by
            constructor
            · exact Finset.mem_insert_self m C
            · rw [Finset.erase_insert hmC]
              exact hCE
          intro x
          dsimp only
          rw [if_pos hcond, Finset.erase_insert hmC]
          have hCS : C ∈ (innerFoldAt sets S0 inters0 m).S := (ih1 C).mpr ⟨hC0, hsurv⟩
          rw [Finset.mem_inter, hIeq C hCS]
          constructor
          · rintro ⟨hxm, hxC⟩ i hi
            rcases Finset.mem_insert.mp hi with rfl | hi
            · exact hxm
            · exact (hcache C hC0 x).mp hxC i hi
          · intro h
            exact ⟨h m (Finset.mem_insert_self m C),
              (hcache C hC0 x).mpr (fun i hi => h i (Finset.mem_insert_of_mem hi))⟩
      · intro C hCk
        have hcond : ¬ (m ∈ C ∧ C.erase m ∈ (innerFoldAt sets S0 inters0 m).S.filter
            (fun C => m ∉ C ∧ (sets.getD m ∅) ∩
              (innerFoldAt sets S0 inters0 m).inters C ≠ ∅)) := by
          rintro ⟨hmC, hCE⟩
          have hcard := hScard _ (Finset.mem_filter.mp hCE).1
          have : C.card = k + 1 := by
            rw [Finset.card_erase_of_mem hmC] at hcard
            have hpos : 0 < C.card := Finset.card_pos.mpr ⟨m, hmC⟩
            omega
          omega
        dsimp only
        rw [if_neg hcond]
        exact ih4 C hCk
      · intro hb
        exact of_decide_eq_true hb

theorem validComb_none_succ {sets : List (Finset Nat)} {j : Nat}
    (h : ∀ C, ¬ ValidComb sets j C) : ∀ C, ¬ ValidComb sets (j + 1) C := by
  intro C hC
  obtain ⟨i, -, -, hv⟩ := validComb_erase_min hC
  exact h _ hv

theorem outer_fold_inv (sets : List (Finset Nat)) :
    ∀ j,
      (∀ s C, C ∈ (outerFoldAt sets j).combs s ↔
        (2 ≤ s ∧ s ≤ j + 2 ∧ ValidComb sets s C)) ∧
      (∀ s, ∀ C ∈ (outerFoldAt sets j).combs s, ∀ x,
        x ∈ (outerFoldAt sets j).inters C ↔ ∀ i ∈ C, x ∈ sets.getD i ∅) ∧
      ((outerFoldAt sets j).broken = true → ∀ C, ¬ ValidComb sets (j + 2) C) := by
  intro j
  induction j with
  | zero =>
    have h0 : outerFoldAt sets 0 =
        ⟨initCombs sets sets.length, initInters sets sets.length, false⟩ := rfl
    refine ⟨?_, ?_, ?_⟩
    · intro s C
      rw [h0]
      constructor
      · intro hC
        by_cases hs : s = 2
        · subst hs
          exact ⟨le_refl 2, by omega, mem_initCombs.mp hC⟩
        · rw [show (⟨initCombs sets sets.length, initInters sets sets.length,
              false⟩ : OuterState).combs = initCombs sets sets.length from rfl,
            initCombs, if_neg hs] at hC
          exact absurd hC (Finset.not_mem_empty C)
      · rintro ⟨h2, hle, hv⟩
        have hs : s = 2 := by omega
        subst hs
        exact mem_initCombs.mpr hv
    · intro s C hC x
      rw [h0] at hC ⊢
      by_cases hs : s = 2
      · subst hs
        exact initInters_correct hC x
      · rw [show (⟨initCombs sets sets.length, initInters sets sets.length,
            false⟩ : OuterState).combs = initCombs sets sets.length from rfl,
          initCombs, if_neg hs] at hC
        exact absurd hC (Finset.not_mem_empty C)
    · rw [h0]
      intro hb
      simp at hb
  | succ j ih =>
    obtain ⟨ih1, ih2, ih3⟩ := ih
    have hstep : outerFoldAt sets (j + 1) =
        outerStep sets sets.length (outerFoldAt sets j) (2 + j) := by
      rw [outerFoldAt, outerFoldAt, List.range'_1_concat, List.foldl_append,
        List.foldl_cons, List.foldl_nil]
    by_cases hbr : (outerFoldAt sets j).broken
    · have hnov : ∀ C, ¬ ValidComb sets (j + 2) C := ih3 hbr
      have hid : outerFoldAt sets (j + 1) = outerFoldAt sets j := by
        rw [hstep, outerStep, if_pos hbr]
      refine ⟨?_, ?_, ?_⟩
      · intro s C
        rw [hid, ih1 s C]
        constructor
        · rintro ⟨h2, hle, hv⟩
          exact ⟨h2, by omega, hv⟩
        · rintro ⟨h2, hle, hv⟩
          refine ⟨h2, ?_, hv⟩
          by_contra hgt
          have hs : s = j + 3 := by omega
          subst hs
          exact absurd hv (validComb_none_succ hnov C)
      · intro s C hC x
        rw [hid] at hC ⊢
        exact ih2 s C hC x
      · intro _
        exact validComb_none_succ hnov
    · by_cases hne : (outerFoldAt sets j).combs (2 + j) ≠ ∅
      · have hS0 : ∀ C, C ∈ (outerFoldAt sets j).combs (2 + j) ↔
            ValidComb sets (j + 2) C := by
          intro C
          rw [Nat.add_comm 2 j, ih1]
          constructor
          · rintro ⟨-, -, hv⟩
            exact hv
          · intro hv
            exact ⟨by omega, le_refl _, hv⟩
        have hcache0 : ∀ C ∈ (outerFoldAt sets j).combs (2 + j), ∀ x,
            x ∈ (outerFoldAt sets j).inters C ↔ ∀ i ∈ C, x ∈ sets.getD i ∅ :=
          fun C hC => ih2 (2 + j) C hC
        obtain ⟨hin1, hin2, hin3, hin4, hin5⟩ :=
          inner_fold_inv sets (j + 2) _ _ hS0 hcache0 sets.length (le_refl _)
        have hnewC : ∀ D, D ∈ (innerFoldAt sets
            ((outerFoldAt sets j).combs (2 + j))
            (outerFoldAt sets j).inters sets.length).newCombs ↔
            ValidComb sets (j + 2 + 1) D := by
          intro D
          rw [hin2 D]
          constructor
          · rintro ⟨hv, -⟩
            exact hv
          · intro hv
            refine ⟨hv, ?_⟩
            obtain ⟨hsub, hcard, -⟩ := hv
            have hne2 : D.Nonempty := Finset.card_pos.mp (by omega)
            refine ⟨D.min' hne2, ?_, Finset.min'_mem D hne2,
              fun b hb => Finset.min'_le D b hb⟩
            have := hsub (Finset.min'_mem D hne2)
            exact Finset.mem_range.mp this
        have hnew : outerFoldAt sets (j + 1) =
            { combs := fun s => if s = 2 + j + 1 then
                (outerFoldAt sets j).combs s ∪
                  (innerFoldAt sets ((outerFoldAt sets j).combs (2 + j))
                    (outerFoldAt sets j).inters sets.length).newCombs
                else (outerFoldAt sets j).combs s,
              inters := (innerFoldAt sets ((outerFoldAt sets j).combs (2 + j))
                (outerFoldAt sets j).inters sets.length).inters,
              broken := false } := by
          rw [hstep, outerStep, if_neg hbr, if_pos hne]
          rfl
        refine ⟨?_, ?_, ?_⟩
        · intro s C
          rw [hnew]
          dsimp only
          by_cases hs : s = 2 + j + 1
          · have hs3 : s = j + 3 := by omega
            rw [if_pos hs, Finset.mem_union]
            constructor
            · rintro (hold | hnw)
              · exact absurd ((ih1 s C).mp hold).2.1 (by omega)
              · refine ⟨by omega, by omega, ?_⟩
                rw [hs3]
                exact (hnewC C).mp hnw
            · rintro ⟨-, -, hv⟩
              refine Or.inr ((hnewC C).mpr ?_)
              rw [hs3] at hv
              exact hv
          · rw [if_neg hs, ih1]
            constructor
            · rintro ⟨h2, hle, hv⟩
              exact ⟨h2, by omega, hv⟩
            · rintro ⟨h2, hle, hv⟩
              refine ⟨h2, ?_, hv⟩
              omega
        · intro s C hC x
          rw [hnew] at hC ⊢
          dsimp only at hC ⊢
          by_cases hs : s = 2 + j + 1
          · rw [if_pos hs, Finset.mem_union] at hC
            rcases hC with hold | hnw
            · exact absurd ((ih1 s C).mp hold).2.1 (by omega)
            · exact hin3 C hnw x
          · rw [if_neg hs] at hC
            obtain ⟨h2, hle, -, hcard, -⟩ := (ih1 s C).mp hC
            rw [hin4 C (by omega)]
            exact ih2 s C hC x
        · rw [hnew]
          intro hb
          simp at hb
      · rw [not_not] at hne
        have hnov : ∀ C, ¬ ValidComb sets (j + 2) C := by
          intro C hC
          have hmem := (ih1 (j + 2) C).mpr ⟨by omega, le_refl _, hC⟩
          rw [show j + 2 = 2 + j from by omega, hne] at hmem
          exact Finset.not_mem_empty _ hmem
        have hid : outerFoldAt sets (j + 1) =
            { outerFoldAt sets j with broken := true } := by
          rw [hstep, outerStep, if_neg hbr, if_neg (not_not_intro hne)]
        refine ⟨?_, ?_, ?_⟩
        · intro s C
          rw [hid]
          dsimp only
          rw [ih1]
          constructor
          · rintro ⟨h2, hle, hv⟩
            exact ⟨h2, by omega, hv⟩
          · rintro ⟨h2, hle, hv⟩
            refine ⟨h2, ?_, hv⟩
            by_contra hgt
            have hs : s = j + 3 := by omega
            subst hs
            exact absurd hv (validComb_none_succ hnov C)
        · intro s C hC x
          rw [hid] at hC ⊢
          dsimp only at hC ⊢
          exact ih2 s C hC x
        · intro _
          exact validComb_none_succ hnov

theorem mem_cwni {sets : List (Finset Nat)} {min_size : Int}
    {max_size : Option Int} {s : Nat} {C : Finset Nat} :
    C ∈ combinations_with_nonempty_intersection_by_order sets min_size max_size s ↔
      max 2 min_size ≤ (s : Int) ∧
      (s : Int) ≤ max 2 (max_size.getD (sets.length : Int)) ∧
      ValidComb sets s C := by
  have hdef : combinations_with_nonempty_intersection_by_order sets min_size
      max_size = fun (s : Nat) => if max 2 min_size ≤ (s : Int) then
        (outerFoldAt sets
          ((max_size.getD (sets.length : Int) - 2).toNat)).combs s
      else ∅ := rfl
  obtain ⟨h1, -, -⟩ :=
    outer_fold_inv sets ((max_size.getD (sets.length : Int) - 2).toNat)
  rw [hdef]
  dsimp only
  by_cases hmin : max 2 min_size ≤ (s : Int)
  · rw [if_pos hmin, h1 s C]
    constructor
    · rintro ⟨h2, hle, hv⟩
      refine ⟨hmin, ?_, hv⟩
      omega
    · rintro ⟨-, hle, hv⟩
      refine ⟨?_, ?_, hv⟩ <;> omega
  · rw [if_neg hmin]
    constructor
    · intro h
      exact absurd h (Finset.not_mem_empty C)
    · rintro ⟨hm, -, -⟩
      exact absurd hm hmin

/-- C3, counterexample: for `sets = [{0}, {0}]`, `min_size = 0` and
`max_size = 1`, the size-2 combination `{0, 1}` is returned by
`combinations_with_nonempty_intersection_by_order` even though the claimed
upper bound `s ≤ max_size` fails at `s = 2 > 1 = max_size`: the initial
pair stage is built and kept regardless of `max_size`. -/
theorem c3_counterexample :
    ({0, 1} : Finset Nat) ∈
      combinations_with_nonempty_intersection_by_order
        [({0} : Finset Nat), ({0} : Finset Nat)] 0 (some 1) 2 ∧
    ¬ ((2 : Int) ≤ (1 : Int)) := by
  constructor
  · decide
  · decide

/-- C3 (amended): a combination `C` is returned at size `s` iff the
intersection of its member sets is non-empty, `C` consists of `s` valid set
indices, and `max(2, min_size) ≤ s ≤ max(2, max_size)` (with `max_size`
defaulting to the number of sets) — the upper bound is floored at 2 as well,
since the pair stage is always produced; moreover if a combination's
intersection is empty, no superset of it appears in the output at any
size. -/
theorem c3_amended (sets : List (Finset Nat)) (min_size : Int)
    (max_size : Option Int) (s : Nat) (C : Finset Nat) :
    (C ∈ combinations_with_nonempty_intersection_by_order sets min_size
        max_size s ↔
      (NEI sets C ∧ C ⊆ Finset.range sets.length ∧ C.card = s ∧
       max 2 min_size ≤ (s : Int) ∧
       (s : Int) ≤ max 2 (max_size.getD (sets.length : Int)))) ∧
    (¬ NEI sets C → ∀ D t, C ⊆ D →
      D ∉ combinations_with_nonempty_intersection_by_order sets min_size
        max_size t) := by
  constructor
  · rw [mem_cwni]
    constructor
    · rintro ⟨h1, h2, hsub, hcard, hnei⟩
      exact ⟨hnei, hsub, hcard, h1, h2⟩
    · rintro ⟨hnei, hsub, hcard, h1, h2⟩
      exact ⟨h1, h2, hsub, hcard, hnei⟩
  · intro hnot D t hsub hD
    obtain ⟨-, -, -, -, x, hx⟩ := mem_cwni.mp hD
    exact hnot ⟨x, fun i hi => hx i (hsub hi)⟩

/-- C3, witness: the amended characterization applied at a concrete input:
for `sets = [{0}, {0}, {1}]` with default sizes, `{0, 1}` is returned at
size 2. -/
theorem c3_witness :
    ({0, 1} : Finset Nat) ∈
      combinations_with_nonempty_intersection_by_order
        [({0} : Finset Nat), ({0} : Finset Nat), ({1} : Finset Nat)]
        0 none 2 :=
  ((c3_amended [{0}, {0}, {1}] 0 none 2 {0, 1}).1).mpr
    ⟨⟨0, by decide⟩, by decide, by decide, by decide, by decide⟩

/-! ### Lemmas about the array view `ovw` -/

theorem ovw_length {a s : List Nat} (h : s.length + 1 ≤ a.length) :
    (ovw a s).length = a.length := by
  simp only [ovw, List.length_append, List.length_take, List.length_drop]
  omega

theorem ovw_nil {a : List Nat} : ovw a [] = a := by
  simp only [ovw, List.length_nil, Nat.zero_add, List.append_nil]
  exact List.take_append_drop 1 a

theorem ovw_getD_mid {a s : List Nat} (h1 : 1 ≤ a.length) {i : Nat}
    (h2 : i < s.length) : (ovw a s).getD (i + 1) 0 = s.getD i 0 := by
  have ht : (a.take 1).length = 1 := by
    simp only [List.length_take]
    omega
  rw [ovw, List.append_assoc,
    List.getD_append_right _ _ _ _ (by rw [ht]; omega), ht,
    Nat.add_sub_cancel, List.getD_append _ _ _ _ h2]

theorem ovw_getD_high {a s : List Nat} (h1 : 1 ≤ a.length) {i : Nat}
    (h2 : s.length ≤ i) : (ovw a s).getD (i + 1) 0 = a.getD (i + 1) 0 := by
  have ht : (a.take 1).length = 1 := by
    simp only [List.length_take]
    omega
  rw [ovw, List.append_assoc,
    List.getD_append_right _ _ _ _ (by rw [ht]; omega), ht,
    Nat.add_sub_cancel, List.getD_append_right _ _ _ _ h2]
  simp only [List.getD_eq_getElem?_getD, List.getElem?_drop]
  have hidx : s.length + 1 + (i - s.length) = i + 1 := by omega
  rw [hidx]

theorem ovw_set {a s : List Nat} (h1 : 1 ≤ a.length) {i : Nat}
    (h2 : i < s.length) (v : Nat) :
    (ovw a s).set (i + 1) v = ovw a (s.set i v) := by
  have ht : (a.take 1).length = 1 := by
    simp only [List.length_take]
    omega
  rw [ovw, ovw, List.length_set,
    List.set_append_left _ _ (by
      simp only [List.length_append, ht]
      omega),
    List.set_append_right _ _ (by omega), ht, Nat.add_sub_cancel]

theorem ovw_snoc {a s : List Nat} {v : Nat} (h1 : s.length + 1 < a.length)
    (h2 : a.getD (s.length + 1) 0 = v) : ovw a (s ++ [v]) = ovw a s := by
  have hd : a.drop (s.length + 1) = v :: a.drop (s.length + 1 + 1) := by
    rw [List.getD_eq_getElem _ _ h1] at h2
    rw [← List.getElem_cons_drop a (s.length + 1) h1, h2]
  rw [ovw, ovw, hd, List.length_append, List.length_singleton]
  simp only [List.append_assoc, List.singleton_append]

theorem ovw_ovw {a u s : List Nat} (h1 : s.length ≤ u.length)
    (h2 : u.length + 1 ≤ a.length) :
    ovw (ovw a u) s = ovw a (s ++ u.drop s.length) := by
  have ht : (a.take 1).length = 1 := by
    simp only [List.length_take]
    omega
  have hassoc : ovw a u = a.take 1 ++ (u ++ a.drop (u.length + 1)) := by
    rw [ovw, List.append_assoc]
  have htake : (ovw a u).take 1 = a.take 1 := by
    rw [hassoc, List.take_left' ht]
  have hdrop : (ovw a u).drop (s.length + 1) =
      u.drop s.length ++ a.drop (u.length + 1) := by
    rw [hassoc, show s.length + 1 = 1 + s.length from by omega,
      ← List.drop_drop, List.drop_left' ht, List.drop_append_eq_append_drop,
      Nat.sub_eq_zero_of_le h1, List.drop_zero]
  rw [ovw, htake, hdrop, ovw, List.length_append, List.length_drop,
    show s.length + (u.length - s.length) = u.length from by omega]
  simp only [List.append_assoc]

/-! ### Structure of the entry and exit strings -/

theorem snoc_getD_last {t : List Nat} {v : Nat} :
    (t ++ [v]).getD t.length 0 = v := by
  rw [List.getD_append_right _ _ _ _ (le_refl _), Nat.sub_self]
  rfl

theorem snoc_set_last {t : List Nat} {v w : Nat} :
    (t ++ [v]).set t.length w = t ++ [w] := by
  rw [List.set_append_right _ _ (le_refl _), Nat.sub_self]
  rfl

theorem minStr_eq (m d : Nat) :
    minStr (m + 1) (m + 1 + d) = List.replicate (d + 1) 0 ++ List.range' 1 m := by
  rw [minStr, show m + 1 + d - (m + 1) + 1 = d + 1 from by omega,
    show m + 1 - 1 = m from by omega]

theorem endF_odd {σ : Nat} (h : σ % 2 = 1) (m d : Nat) :
    endF (m + 1) (m + 1 + d) σ =
      List.replicate d 0 ++ List.range' 1 m ++ [0] := by
  rw [endF, if_pos h, show m + 1 + d - (m + 1) = d from by omega,
    show m + 1 - 1 = m from by omega]

theorem endF_even {σ : Nat} (h : σ % 2 = 0) (m d : Nat) :
    endF (m + 1) (m + 1 + d) σ =
      List.range (m + 1) ++ List.replicate d 0 := by
  rw [endF, if_neg (by omega), show m + 1 + d - (m + 1) = d from by omega]

theorem range_eq_cons (m : Nat) : List.range (m + 1) = 0 :: List.range' 1 m := by
  rw [List.range_eq_range', List.range'_succ]

theorem endF_succ (m σ : Nat) : endF (m + 1) (m + 2) σ = List.range (m + 1) ++ [0] := by
  rcases Nat.mod_two_eq_zero_or_one σ with h | h
  · rw [show m + 2 = m + 1 + 1 from rfl, endF_even h m 1, List.replicate_one]
  · rw [show m + 2 = m + 1 + 1 from rfl, endF_odd h m 1, List.replicate_one,
      range_eq_cons]
    simp [List.append_assoc]

theorem endF_one (mm σ : Nat) : endF 1 (mm + 1) σ = List.replicate (mm + 1) 0 := by
  rcases Nat.mod_two_eq_zero_or_one σ with h | h
  · rw [endF, if_neg (by omega), show mm + 1 - 1 = mm from by omega,
      show List.range 1 = [0] from rfl, List.replicate_succ]
    rfl
  · rw [endF, if_pos h, show mm + 1 - 1 = mm from by omega,
      show (1 : Nat) - 1 = 0 from rfl, List.range'_zero, List.append_nil,
      ← List.replicate_succ']

theorem minStr_snoc (m d : Nat) :
    minStr (m + 2) (m + 3 + d) = minStr (m + 1) (m + 2 + d) ++ [m + 1] := by
  rw [show m + 3 + d = m + 2 + (1 + d) from by omega, minStr_eq (m + 1) (1 + d),
    show m + 2 + d = m + 1 + (1 + d) from by omega, minStr_eq m (1 + d),
    List.range'_1_concat, show 1 + m = m + 1 from by omega]
  simp [List.append_assoc]

theorem minStr_two_decomp (d σ : Nat) :
    minStr 2 (3 + d) = endF 1 (2 + d) σ ++ [1] := by
  rw [show (3 : Nat) + d = 1 + 1 + (1 + d) from by omega, minStr_eq 1 (1 + d),
    show (2 : Nat) + d = 1 + d + 1 from by omega, endF_one (1 + d) σ,
    show (1 : Nat) + d + 1 = 1 + (1 + d) from by omega]
  rfl

theorem endF_odd_decomp {σ : Nat} (h : σ % 2 = 1) (m e : Nat) :
    endF (m + 1) (m + 2 + e) σ = minStr (m + 1) (m + 1 + e) ++ [0] := by
  rw [show m + 2 + e = m + 1 + (1 + e) from by omega, endF_odd h m (1 + e),
    minStr_eq m e, show (1 : Nat) + e = e + 1 from by omega]

theorem endF_even_decomp {σ : Nat} (h : σ % 2 = 0) (m e : Nat) :
    endF (m + 1) (m + 2 + e) σ = endF (m + 1) (m + 1 + e) 0 ++ [0] := by
  rw [show m + 2 + e = m + 1 + (1 + e) from by omega, endF_even h m (1 + e),
    endF_even rfl m e, show (1 : Nat) + e = e + 1 from by omega,
    List.replicate_succ']
  simp [List.append_assoc]

theorem minStr_length (m d : Nat) : (minStr (m + 1) (m + 1 + d)).length = m + 1 + d := by
  rw [minStr_eq]
  simp only [List.length_append, List.length_replicate, List.length_range']
  omega

theorem endF_length (m d σ : Nat) : (endF (m + 1) (m + 1 + d) σ).length = m + 1 + d := by
  rcases Nat.mod_two_eq_zero_or_one σ with h | h
  · rw [endF_even h]
    simp only [List.length_append, List.length_replicate, List.length_range]
  · rw [endF_odd h]
    simp only [List.length_append, List.length_replicate, List.length_range',
      List.length_singleton]
    omega

theorem range_set_last (m v : Nat) :
    (List.range (m + 1)).set m v = List.range m ++ [v] := by
  have h := @snoc_set_last (List.range m) m v
  rw [List.length_range] at h
  rw [List.range_succ, h]

theorem stepT1 (m σ : Nat) :
    (endF (m + 1) (m + 2) σ ++ [m + 1]).set (m + 1) (m + 1) =
      (List.range (m + 2)) ++ [m + 1] := by
  rw [endF_succ, List.append_assoc,
    List.set_append_right _ _ (by simp), List.length_range, Nat.sub_self,
    show ([0] ++ [m + 1] : List Nat).set 0 (m + 1) = [m + 1] ++ [m + 1] from rfl]
  conv_rhs => rw [show m + 2 = m + 1 + 1 from rfl, List.range_succ]
  simp [List.append_assoc]

theorem stepT2 {σ : Nat} (h : σ % 2 = 1) (m e : Nat) :
    (endF (m + 1) (m + 3 + e) σ ++ [m + 1]).set (m + 2 + e) (m + 1) =
      minStr (m + 2) (m + 3 + e) ++ [m + 1] := by
  rw [show m + 3 + e = m + 1 + (2 + e) from by omega, endF_odd h m (2 + e),
    show m + 1 + (2 + e) = m + 2 + (1 + e) from by omega, minStr_eq (m + 1) (1 + e)]
  have hlen : (List.replicate (2 + e) 0 ++ List.range' 1 m).length = m + 2 + e := by
    simp only [List.length_append, List.length_replicate, List.length_range']
    omega
  rw [List.set_append_left _ _ (by
      simp only [List.length_append, List.length_replicate, List.length_range',
        List.length_singleton]
      omega),
    List.set_append_right _ _ (by rw [hlen]), hlen, Nat.sub_self,
    show ([0] : List Nat).set 0 (m + 1) = [m + 1] from rfl,
    List.range'_1_concat, show 1 + m = m + 1 from by omega,
    show (1 : Nat) + e + 1 = 2 + e from by omega]
  simp [List.append_assoc]

theorem stepT3 {σ : Nat} (h : σ % 2 = 0) (m e : Nat) :
    (endF (m + 1) (m + 3 + e) σ ++ [m + 1]).set (m + 1) (m + 1) =
      endF (m + 2) (m + 3 + e) 0 ++ [m + 1] := by
  rw [show m + 3 + e = m + 1 + (2 + e) from by omega, endF_even h m (2 + e),
    show m + 1 + (2 + e) = m + 2 + (1 + e) from by omega, endF_even rfl (m + 1) (1 + e)]
  rw [List.set_append_left _ _ (by
      simp only [List.length_append, List.length_replicate, List.length_range]
      omega),
    List.set_append_right _ _ (by rw [List.length_range]), List.length_range,
    Nat.sub_self, show (2 : Nat) + e = (1 + e) + 1 from by omega,
    List.replicate_succ, List.set_cons_zero]
  conv_rhs => rw [List.range_succ]
  simp [List.append_assoc]

theorem stepT4 (m σ : Nat) :
    (List.range (m + 2) ++ [m + 1]).set (m + 1) 0 =
      endF (m + 1) (m + 2) σ ++ [m + 1] := by
  rw [endF_succ,
    List.set_append_left _ _ (by rw [List.length_range]; omega),
    show m + 2 = m + 1 + 1 from rfl, range_set_last]

theorem stepT5 {σ : Nat} (h : σ % 2 = 1) (m e : Nat) :
    (minStr (m + 2) (m + 3 + e) ++ [m + 1]).set (m + 2 + e) 0 =
      endF (m + 1) (m + 3 + e) σ ++ [m + 1] := by
  rw [show m + 3 + e = m + 2 + (1 + e) from by omega, minStr_eq (m + 1) (1 + e),
    show m + 2 + (1 + e) = m + 1 + (2 + e) from by omega, endF_odd h m (2 + e),
    List.range'_1_concat, show 1 + m = m + 1 from by omega,
    show (1 : Nat) + e + 1 = 2 + e from by omega]
  have hrep : (List.replicate (2 + e) (0 : Nat)).length = 2 + e := by
    simp only [List.length_replicate]
  rw [List.set_append_left _ _ (by
      simp only [List.length_append, List.length_replicate, List.length_range',
        List.length_singleton]
      omega),
    List.set_append_right _ _ (by rw [hrep]; omega), hrep,
    show m + 2 + e - (2 + e) = m from by omega,
    List.set_append_right _ _ (by rw [List.length_range']),
    List.length_range', Nat.sub_self,
    show ([m + 1] : List Nat).set 0 0 = [0] from rfl]
  simp [List.append_assoc]

theorem firstIdx_append_left {s : List Nat} (t : List Nat) {c : Nat} (h : c ∈ s) :
    firstIdx (s ++ t) c = firstIdx s c := by
  induction s with
  | nil => cases h
  | cons v s ih =>
    rw [List.cons_append, firstIdx, firstIdx]
    by_cases hv : v = c
    · rw [if_pos hv, if_pos hv]
    · rw [if_neg hv, if_neg hv, ih (by
        rcases List.mem_cons.mp h with h' | h'
        · exact absurd h'.symm hv
        · exact h')]

theorem firstIdx_append_right {s : List Nat} (t : List Nat) {c : Nat} (h : c ∉ s) :
    firstIdx (s ++ t) c = s.length + firstIdx t c := by
  induction s with
  | nil => simp
  | cons v s ih =>
    have hv : ¬ v = c := by
      intro hv
      refine h ?_
      rw [hv]
      exact List.mem_cons_self c s
    have hc : c ∉ s := fun hc => h (List.mem_cons_of_mem _ hc)
    rw [List.cons_append, firstIdx, if_neg hv, ih hc, List.length_cons]
    omega

theorem firstIdx_lt_length {s : List Nat} {c : Nat} (h : c ∈ s) :
    firstIdx s c < s.length := by
  induction s with
  | nil => cases h
  | cons v s ih =>
    rw [firstIdx, List.length_cons]
    by_cases hv : v = c
    · rw [if_pos hv]
      omega
    · rw [if_neg hv]
      have : c ∈ s := by
        rcases List.mem_cons.mp h with h' | h'
        · exact absurd h'.symm hv
        · exact h'
      have := ih this
      omega

theorem getD_firstIdx {s : List Nat} {c : Nat} (h : c ∈ s) :
    s.getD (firstIdx s c) 0 = c := by
  induction s with
  | nil => cases h
  | cons v s ih =>
    rw [firstIdx]
    by_cases hv : v = c
    · rw [if_pos hv]
      exact hv
    · rw [if_neg hv]
      have hc : c ∈ s := by
        rcases List.mem_cons.mp h with h' | h'
        · exact absurd h'.symm hv
        · exact h'
      exact ih hc

theorem firstIdx_le_of_getD {s : List Nat} {c j : Nat} (hj : j < s.length)
    (h : s.getD j 0 = c) : firstIdx s c ≤ j := by
  induction s generalizing j with
  | nil => simp at hj
  | cons v s ih =>
    rw [firstIdx]
    by_cases hv : v = c
    · rw [if_pos hv]
      omega
    · rw [if_neg hv]
      cases j with
      | zero => exact absurd h hv
      | succ j =>
        have := ih (by simp at hj; omega) h
        omega

theorem mem_of_getD {s : List Nat} {c j : Nat} (hj : j < s.length)
    (h : s.getD j 0 = c) : c ∈ s := by
  rw [List.getD_eq_getElem _ _ hj] at h
  rw [← h]
  exact s.getElem_mem hj

theorem firstIdx_range {c μ : Nat} (h : c < μ) : firstIdx (List.range μ) c = c := by
  induction μ with
  | zero => omega
  | succ μ ih =>
    rw [List.range_succ]
    by_cases hc : c < μ
    · rw [firstIdx_append_left _ (List.mem_range.mpr hc)]
      exact ih hc
    · have hc' : c = μ := by omega
      subst hc'
      rw [firstIdx_append_right _ (by simp), List.length_range, firstIdx,
        if_pos rfl]
      omega

theorem firstIdx_replicate_zero (n : Nat) :
    firstIdx (List.replicate (n + 1) 0) 0 = 0 := by
  rw [List.replicate_succ, firstIdx, if_pos rfl]

theorem stirling_one : ∀ n, stirling (n + 1) 1 = 1 := by
  intro n
  induction n with
  | zero => rfl
  | succ n ih =>
    rw [show (1 : Nat) = 0 + 1 from rfl] at ih ⊢
    rw [stirling, ih]
    rfl

theorem minStr_two (d : Nat) : minStr 2 (d + 2) = List.replicate (d + 1) 0 ++ [1] := by
  rw [minStr, show d + 2 - 2 + 1 = d + 1 from by omega,
    show (2 : Nat) - 1 = 1 from rfl]
  rfl

theorem grayF_props : ∀ ν μ σ s, 2 ≤ μ → μ ≤ ν → s ∈ grayF μ ν σ →
    s.length = ν ∧ (∀ v ∈ s, v < μ) ∧ (∀ c, c < μ → c ∈ s) ∧ IsCanon μ s := by
  intro ν
  induction ν with
  | zero =>
    intro μ σ s h2 hle
    omega
  | succ ν ih =>
    intro μ σ s h2 hle hs
    rw [grayF] at hs
    rcases List.mem_append.mp hs with h1 | h1
    · by_cases hμ2 : μ = 2
      · subst hμ2
        rw [if_pos rfl, List.mem_singleton] at h1
        subst h1
        obtain ⟨d, rfl⟩ : ∃ d, ν = d + 1 := ⟨ν - 1, by omega⟩
        rw [show d + 1 + 1 = d + 2 from rfl, minStr_two]
        have h1n : (1 : Nat) ∉ List.replicate (d + 1) 0 := by
          intro hmem
          exact absurd (List.eq_of_mem_replicate hmem) one_ne_zero
        refine ⟨?_, ?_, ?_, ?_⟩
        · simp
        · intro v hv
          rcases List.mem_append.mp hv with hv | hv
          · rw [List.eq_of_mem_replicate hv]
            omega
          · rw [List.mem_singleton.mp hv]
            omega
        · intro c hc
          interval_cases c
          · exact List.mem_append_left _ (by simp)
          · exact List.mem_append_right _ (by simp)
        · intro c hc
          have hc0 : c = 0 := by omega
          subst hc0
          rw [firstIdx_append_left _ (by simp), firstIdx_replicate_zero,
            firstIdx_append_right _ h1n, List.length_replicate, firstIdx,
            if_pos rfl]
          omega
      · rw [if_neg hμ2, List.mem_map] at h1
        obtain ⟨s', hs', rfl⟩ := h1
        obtain ⟨hlen', hlt', hsurj', hcanon'⟩ :=
          ih (μ - 1) ((μ + σ) % 2) s' (by omega) (by omega) hs'
        have hnmem : μ - 1 ∉ s' := by
          intro hmem
          exact absurd (hlt' _ hmem) (by omega)
        refine ⟨?_, ?_, ?_, ?_⟩
        · simp only [List.length_append, List.length_singleton, hlen']
        · intro v hv
          rcases List.mem_append.mp hv with hv | hv
          · have := hlt' v hv
            omega
          · rw [List.mem_singleton.mp hv]
            omega
        · intro c hc
          by_cases hcm : c = μ - 1
          · subst hcm
            exact List.mem_append_right _ (by simp)
          · exact List.mem_append_left _ (hsurj' c (by omega))
        · intro c hc
          by_cases hcm : c + 1 = μ - 1
          · rw [firstIdx_append_left _ (hsurj' c (by omega)), hcm,
              firstIdx_append_right _ hnmem, firstIdx, if_pos rfl]
            have := firstIdx_lt_length (hsurj' c (by omega))
            omega
          · rw [firstIdx_append_left _ (hsurj' c (by omega)),
              firstIdx_append_left _ (hsurj' (c + 1) (by omega))]
            exact hcanon' c (by omega)
    · by_cases hb : ν + 1 = μ + 1
      · rw [if_pos hb, List.mem_map] at h1
        obtain ⟨j, hj, rfl⟩ := h1
        rw [List.mem_reverse, List.mem_range] at hj
        have hμν : μ = ν := by omega
        refine ⟨?_, ?_, ?_, ?_⟩
        · simp only [List.length_append, List.length_range,
            List.length_singleton]
          omega
        · intro v hv
          rcases List.mem_append.mp hv with hv | hv
          · exact List.mem_range.mp hv
          · rw [List.mem_singleton.mp hv]
            exact hj
        · intro c hc
          exact List.mem_append_left _ (List.mem_range.mpr hc)
        · intro c hc
          rw [firstIdx_append_left _ (List.mem_range.mpr (by omega)),
            firstIdx_append_left _ (List.mem_range.mpr (by omega)),
            firstIdx_range (by omega : c < μ),
            firstIdx_range (by omega : c + 1 < μ)]
          omega
      · rw [if_neg hb] at h1
        by_cases hb2 : μ + 1 < ν + 1
        · rw [if_pos hb2, List.mem_flatMap] at h1
          obtain ⟨j, hj, h1⟩ := h1
          rw [List.mem_reverse, List.mem_range] at hj
          rw [List.mem_map] at h1
          obtain ⟨s', hs', rfl⟩ := h1
          have hs'' : s' ∈ grayF μ ν 0 := by
            by_cases hp : (j + σ) % 2 = 1
            · rw [if_pos hp, List.mem_reverse] at hs'
              exact hs'
            · rw [if_neg hp] at hs'
              exact hs'
          obtain ⟨hlen', hlt', hsurj', hcanon'⟩ :=
            ih μ 0 s' h2 (by omega) hs''
          refine ⟨?_, ?_, ?_, ?_⟩
          · simp only [List.length_append, List.length_singleton, hlen']
          · intro v hv
            rcases List.mem_append.mp hv with hv | hv
            · exact hlt' v hv
            · rw [List.mem_singleton.mp hv]
              exact hj
          · intro c hc
            exact List.mem_append_left _ (hsurj' c hc)
          · intro c hc
            rw [firstIdx_append_left _ (hsurj' c (by omega)),
              firstIdx_append_left _ (hsurj' (c + 1) (by omega))]
            exact hcanon' c hc
        · rw [if_neg hb2] at h1
          cases h1

theorem stirling_gt : ∀ n k, n < k → stirling n k = 0 := by
  intro n
  induction n with
  | zero =>
    intro k hk
    cases k with
    | zero => omega
    | succ k => rfl
  | succ n ih =>
    intro k hk
    cases k with
    | zero => omega
    | succ k =>
      rw [stirling, ih k (by omega), ih (k + 1) (by omega)]
      simp

theorem stirling_self : ∀ n, stirling n n = 1 := by
  intro n
  induction n with
  | zero => rfl
  | succ n ih =>
    rw [stirling, ih, stirling_gt n (n + 1) (by omega)]
    simp

theorem length_flatMap_const {α β : Type} (l : List α) (f : α → List β) (c : Nat)
    (h : ∀ x ∈ l, (f x).length = c) : (l.flatMap f).length = l.length * c := by
  induction l with
  | nil => simp
  | cons x l ih =>
    rw [List.flatMap_cons, List.length_append, h x (List.mem_cons_self x l),
      ih (fun y hy => h y (List.mem_cons_of_mem _ hy)), List.length_cons]
    ring

theorem snoc_inj {x y : List Nat} {v w : Nat} (h : x ++ [v] = y ++ [w])
    (hl : x.length = y.length) : x = y ∧ v = w := by
  obtain ⟨h1, h2⟩ := List.append_inj h hl
  refine ⟨h1, ?_⟩
  injection h2 with h3 h4

theorem grayF_nodup : ∀ ν μ σ, 2 ≤ μ → μ ≤ ν → (grayF μ ν σ).Nodup := by
  intro ν
  induction ν with
  | zero =>
    intro μ σ h2 hle
    omega
  | succ ν ih =>
    intro μ σ h2 hle
    have hsnoc : ∀ (c : Nat), Function.Injective (fun s : List Nat => s ++ [c]) := by
      intro c x y h
      have := congrArg List.dropLast h
      rwa [List.dropLast_concat, List.dropLast_concat] at this
    rw [grayF, List.nodup_append]
    refine ⟨?_, ?_, ?_⟩
    · by_cases hμ2 : μ = 2
      · subst hμ2
        rw [if_pos rfl]
        exact List.nodup_singleton _
      · rw [if_neg hμ2]
        exact ((ih (μ - 1) ((μ + σ) % 2) (by omega) (by omega)).map (hsnoc _))
    · by_cases hb : ν + 1 = μ + 1
      · rw [if_pos hb]
        refine List.Nodup.map ?_ (List.nodup_reverse.mpr (List.nodup_range μ))
        intro x y h
        have := List.append_cancel_left h
        injection this
      · rw [if_neg hb]
        by_cases hb2 : μ + 1 < ν + 1
        · rw [if_pos hb2, List.nodup_flatMap]
          constructor
          · intro j hj
            refine List.Nodup.map (hsnoc _) ?_
            by_cases hp : (j + σ) % 2 = 1
            · rw [if_pos hp]
              exact List.nodup_reverse.mpr (ih μ 0 h2 (by omega))
            · rw [if_neg hp]
              exact ih μ 0 h2 (by omega)
          · have hnd : ((List.range μ).reverse).Nodup :=
              List.nodup_reverse.mpr (List.nodup_range μ)
            refine hnd.imp ?_
            intro j j' hne s hsj hsj'
            rw [List.mem_map] at hsj hsj'
            obtain ⟨p, hp, rfl⟩ := hsj
            obtain ⟨q, hq, heq⟩ := hsj'
            have hpm : p ∈ grayF μ ν 0 := by
              by_cases hpar : (j + σ) % 2 = 1
              · rw [if_pos hpar, List.mem_reverse] at hp
                exact hp
              · rw [if_neg hpar] at hp
                exact hp
            have hqm : q ∈ grayF μ ν 0 := by
              by_cases hpar : (j' + σ) % 2 = 1
              · rw [if_pos hpar, List.mem_reverse] at hq
                exact hq
              · rw [if_neg hpar] at hq
                exact hq
            have hlp := (grayF_props ν μ 0 p h2 (by omega) hpm).1
            have hlq := (grayF_props ν μ 0 q h2 (by omega) hqm).1
            obtain ⟨-, hjj⟩ := snoc_inj heq.symm (by rw [hlq, hlp])
            exact hne hjj
        · rw [if_neg hb2]
          exact List.nodup_nil
    · intro s hs1 hs2
      obtain ⟨p, hplen, hplt, rfl⟩ : ∃ p, p.length = ν ∧ (∀ v ∈ p, v < μ - 1) ∧
          s = p ++ [μ - 1] := by
        by_cases hμ2 : μ = 2
        · subst hμ2
          rw [if_pos rfl, List.mem_singleton] at hs1
          subst hs1
          obtain ⟨d, rfl⟩ : ∃ d, ν = d + 1 := ⟨ν - 1, by omega⟩
          refine ⟨List.replicate (d + 1) 0, by simp, ?_, ?_⟩
          · intro v hv
            rw [List.eq_of_mem_replicate hv]
            omega
          · rw [show d + 1 + 1 = d + 2 from rfl, minStr_two]
        · rw [if_neg hμ2, List.mem_map] at hs1
          obtain ⟨p, hp, rfl⟩ := hs1
          obtain ⟨hlen', hlt', -, -⟩ :=
            grayF_props ν (μ - 1) ((μ + σ) % 2) p (by omega) (by omega) hp
          exact ⟨p, hlen', hlt', rfl⟩
      obtain ⟨q, j, hqlen, hqmem, heq⟩ : ∃ q j, q.length = ν ∧ μ - 1 ∈ q ∧
          p ++ [μ - 1] = q ++ [j] := by
        by_cases hb : ν + 1 = μ + 1
        · rw [if_pos hb, List.mem_map] at hs2
          obtain ⟨j, hj, heq⟩ := hs2
          exact ⟨List.range μ, j, by rw [List.length_range]; omega,
            List.mem_range.mpr (by omega), heq.symm⟩
        · rw [if_neg hb] at hs2
          by_cases hb2 : μ + 1 < ν + 1
          · rw [if_pos hb2, List.mem_flatMap] at hs2
            obtain ⟨j, hj, hs2⟩ := hs2
            rw [List.mem_map] at hs2
            obtain ⟨q, hq, heq⟩ := hs2
            have hqm : q ∈ grayF μ ν 0 := by
              by_cases hpar : (j + σ) % 2 = 1
              · rw [if_pos hpar, List.mem_reverse] at hq
                exact hq
              · rw [if_neg hpar] at hq
                exact hq
            obtain ⟨hlen', -, hsurj', -⟩ :=
              grayF_props ν μ 0 q h2 (by omega) hqm
            exact ⟨q, j, hlen', hsurj' (μ - 1) (by omega), heq.symm⟩
          · rw [if_neg hb2] at hs2
            cases hs2
      obtain ⟨rfl, -⟩ := snoc_inj heq (by rw [hplen, hqlen])
      exact absurd (hplt _ hqmem) (by omega)

theorem grayF_length_eq : ∀ ν μ σ, 2 ≤ μ → μ ≤ ν →
    (grayF μ ν σ).length = stirling ν μ := by
  intro ν
  induction ν with
  | zero =>
    intro μ σ h2 hle
    omega
  | succ ν ih =>
    intro μ σ h2 hle
    obtain ⟨m, rfl⟩ : ∃ m, μ = m + 2 := ⟨μ - 2, by omega⟩
    have hst : stirling (ν + 1) (m + 2) =
        stirling ν (m + 1) + (m + 2) * stirling ν (m + 2) := by
      rw [show m + 2 = m + 1 + 1 from rfl, stirling]
      exact Nat.add_comm _ _
    rw [grayF, List.length_append, hst]
    have h1 : (if m + 2 = 2 then [minStr 2 (ν + 1)]
        else (grayF (m + 2 - 1) ν ((m + 2 + σ) % 2)).map
          (fun s => s ++ [m + 2 - 1])).length = stirling ν (m + 1) := by
      by_cases hm : m = 0
      · subst hm
        rw [if_pos rfl, List.length_singleton]
        obtain ⟨d, rfl⟩ : ∃ d, ν = d + 1 := ⟨ν - 1, by omega⟩
        rw [show (0 : Nat) + 1 = 1 from rfl, stirling_one]
      · rw [if_neg (by omega), List.length_map,
          show m + 2 - 1 = m + 1 from by omega]
        exact ih (m + 1) ((m + 2 + σ) % 2) (by omega) (by omega)
    rw [h1]
    by_cases hb : ν + 1 = m + 2 + 1
    · rw [if_pos hb, List.length_map, List.length_reverse, List.length_range]
      have hν : ν = m + 2 := by omega
      subst hν
      rw [stirling_self, Nat.mul_one]
    · rw [if_neg hb]
      by_cases hb2 : m + 2 + 1 < ν + 1
      · rw [if_pos hb2,
          length_flatMap_const _ _ (stirling ν (m + 2)) ?_,
          List.length_reverse, List.length_range]
        intro j hj
        rw [List.length_map]
        by_cases hpar : (j + σ) % 2 = 1
        · rw [if_pos hpar, List.length_reverse]
          exact ih (m + 2) 0 (by omega) (by omega)
        · rw [if_neg hpar]
          exact ih (m + 2) 0 (by omega) (by omega)
      · rw [if_neg hb2, List.length_nil]
        have hν : ν = m + 1 := by omega
        subst hν
        rw [stirling_gt (m + 1) (m + 2) (by omega)]
        simp

theorem initA_fold (n k : Nat) (h1 : 1 ≤ k) (h2 : k ≤ n) :
    ∀ m, m ≤ k → (List.range' 1 m).foldlM
      (fun a (j : Nat) => pySet a ((n : Int) - (k : Int) + (j : Int)) (j - 1))
      (List.replicate (n + 1) 0) =
      some (List.replicate (n - k + 1) 0 ++ List.range m ++
        List.replicate (k - m) 0) := by
  intro m
  induction m with
  | zero =>
    intro _
    rw [show (List.range' 1 0) = ([] : List Nat) from rfl, List.foldlM_nil]
    simp only [List.range_zero, List.append_nil, Nat.sub_zero]
    rw [← List.replicate_add, show n - k + 1 + k = n + 1 from by omega]
    rfl
  | succ m ih =>
    intro hm
    rw [List.range'_1_concat, List.foldlM_append, ih (by omega)]
    simp only [List.foldlM_cons, List.foldlM_nil, Option.bind_eq_bind,
      Option.some_bind, bind_pure, Option.pure_def, Option.bind_some]
    have hXlen : (List.replicate (n - k + 1) 0 ++ List.range m ++
        List.replicate (k - m) 0).length = n + 1 := by
      simp only [List.length_append, List.length_replicate, List.length_range]
      omega
    unfold pySet
    dsimp only
    have hneg : ¬ ((n : Int) - (k : Int) + ((1 + m : Nat) : Int) < 0) := by omega
    rw [if_neg hneg, if_pos (by rw [hXlen]; omega)]
    have htn : ((n : Int) - (k : Int) + ((1 + m : Nat) : Int)).toNat =
        n - k + 1 + m := by omega
    rw [htn]
    obtain ⟨r, hr⟩ : ∃ r, k - m = r + 1 := ⟨k - m - 1, by omega⟩
    have hpre : (List.replicate (n - k + 1) 0 ++ List.range m).length =
        n - k + 1 + m := by
      simp only [List.length_append, List.length_replicate, List.length_range]
    rw [List.set_append_right _ _ (by rw [hpre]), hpre, Nat.sub_self, hr,
      show List.replicate (r + 1) (0 : Nat) = 0 :: List.replicate r 0 from
        List.replicate_succ 0 r,
      List.set_cons_zero, show (1 + m) - 1 = m from by omega, List.range_succ,
      show k - (m + 1) = r from by omega]
    simp [List.append_assoc]

theorem initA_eq (n k : Nat) (h1 : 1 ≤ k) (h2 : k ≤ n) :
    initA n k = some (List.replicate (n - k + 1) 0 ++ List.range k) := by
  rw [initA, initA_fold n k h1 h2 k (le_refl k), Nat.sub_self]
  simp

theorem wfStr_length (m e σ j : Nat) : (wfStr m e σ j).length = m + 3 + e := by
  rw [wfStr, show m + 3 + e = m + 2 + (1 + e) from by omega]
  by_cases hp : (j + σ) % 2 = 1
  · rw [if_pos hp]
    exact minStr_length (m + 1) (1 + e)
  · rw [if_neg hp]
    exact endF_length (m + 1) (1 + e) 0

theorem pbStr_length (m e σ j : Nat) : (pbStr m e σ j).length = m + 3 + e := by
  rw [pbStr, show m + 3 + e = m + 2 + (1 + e) from by omega]
  by_cases hp : (j + σ) % 2 = 1
  · rw [if_pos hp]
    exact endF_length (m + 1) (1 + e) 0
  · rw [if_neg hp]
    exact minStr_length (m + 1) (1 + e)

theorem ovw_snoc_fold {a u : List Nat} {c : Nat}
    (hlen : u.length + 1 + 1 ≤ a.length) (s : List Nat)
    (hs : s.length = u.length) :
    ovw (ovw a (u ++ [c])) s = ovw a (s ++ [c]) := by
  rw [ovw_ovw (by simp only [List.length_append, List.length_singleton]; omega)
    (by simp only [List.length_append, List.length_singleton]; omega), hs,
    List.drop_left]

theorem ovw_snoc_getD {a t : List Nat} {v : Nat} (hb : 1 ≤ a.length) :
    (ovw a (t ++ [v])).getD (t.length + 1) 0 = v := by
  rw [ovw_getD_mid hb (by simp)]
  exact snoc_getD_last

theorem ovw_snoc_set {a t : List Nat} {v : Nat} (hb : 1 ≤ a.length) (w : Nat) :
    (ovw a (t ++ [v])).set (t.length + 1) w = ovw a (t ++ [w]) := by
  rw [ovw_set hb (by simp) w, snoc_set_last]

theorem stepT6 {σ : Nat} (h : σ % 2 = 0) (m e : Nat) :
    (endF (m + 2) (m + 3 + e) 0 ++ [m + 1]).set (m + 1) 0 =
      endF (m + 1) (m + 3 + e) σ ++ [m + 1] := by
  rw [show m + 3 + e = m + 2 + (1 + e) from by omega, endF_even rfl (m + 1) (1 + e),
    show m + 2 + (1 + e) = m + 1 + (2 + e) from by omega, endF_even h m (2 + e),
    List.set_append_left _ _ (by
      simp only [List.length_append, List.length_replicate, List.length_range]
      omega),
    List.set_append_left _ _ (by rw [List.length_range]; omega),
    range_set_last, show (2 : Nat) + e = (1 + e) + 1 from by omega,
    List.replicate_succ]
  simp [List.append_assoc]


/-- Joint characterization of the six mutually recursive enumerator loops of
`k_partitions` (`_f`, its two while-loops, `_b`, and its two while-loops), by
induction on fuel: started on an array holding the entry string (`minStr` for
the forward direction, `endF` for the backward one) they visit exactly the
revolving-door Gray sequence `grayF` (respectively its reverse) and leave the
array holding the exit string. -/

theorem fb_main : ∀ fuel : Nat,
    (∀ m d σ n (a : List Nat) k coll, σ ≤ 1 → m + 3 + d + 1 ≤ a.length →
      (m + 2) * (m + 3 + d) + 1 ≤ fuel →
      _f fuel (m + 2) (m + 3 + d) σ n (ovw a (minStr (m + 2) (m + 3 + d))) k coll =
        some ((grayF (m + 2) (m + 3 + d) σ).map
            (fun s => _visit n (ovw a s) k coll),
          ovw a (endF (m + 2) (m + 3 + d) σ))) ∧
    (∀ ν n (a : List Nat) k coll (t : List Nat) j, t.length + 1 = ν →
      ν + 1 ≤ a.length → j + 1 ≤ fuel →
      _fWhileA fuel ν n (ovw a (t ++ [j])) k coll =
        some (((List.range j).reverse).map
            (fun i => _visit n (ovw a (t ++ [i])) k coll),
          ovw a (t ++ [0]))) ∧
    (∀ m e σ n (a : List Nat) k coll j, σ ≤ 1 → j ≤ m + 1 →
      m + 4 + e + 1 ≤ a.length →
      (m + 2) * (m + 3 + e) + j + 1 ≤ fuel →
      _fWhileB fuel (m + 2) (m + 4 + e) σ n (ovw a (wfStr m e σ j ++ [j])) k coll =
        some ((((List.range j).reverse).flatMap (fun i =>
            (if (i + σ) % 2 = 1 then (grayF (m + 2) (m + 3 + e) 0).reverse
              else grayF (m + 2) (m + 3 + e) 0).map
              (fun s => _visit n (ovw a (s ++ [i])) k coll))),
          ovw a (wfStr m e σ 0 ++ [0]))) ∧
    (∀ m d σ n (a : List Nat) k coll, σ ≤ 1 → m + 3 + d + 1 ≤ a.length →
      (m + 2) * (m + 3 + d) + 1 ≤ fuel →
      _b fuel (m + 2) (m + 3 + d) σ n (ovw a (endF (m + 2) (m + 3 + d) σ)) k coll =
        some (((grayF (m + 2) (m + 3 + d) σ).reverse).map
            (fun s => _visit n (ovw a s) k coll),
          ovw a (minStr (m + 2) (m + 3 + d)))) ∧
    (∀ mu ν n (a : List Nat) k coll (t : List Nat) j, t.length + 1 = ν →
      ν + 1 ≤ a.length → j ≤ mu - 1 → mu - 1 - j + 1 ≤ fuel →
      _bWhileA fuel mu ν n (ovw a (t ++ [j])) k coll =
        some ((List.range' j (mu - 1 - j)).map
            (fun i => _visit n (ovw a (t ++ [i])) k coll),
          ovw a (t ++ [mu - 1]))) ∧
    (∀ m e σ n (a : List Nat) k coll j, σ ≤ 1 → j ≤ m + 1 →
      m + 4 + e + 1 ≤ a.length →
      (m + 2) * (m + 3 + e) + (m + 1 - j) + 1 ≤ fuel →
      _bWhileB fuel (m + 2) (m + 4 + e) σ n (ovw a (pbStr m e σ j ++ [j])) k coll =
        some (((List.range' (j + 1) (m + 1 - j)).flatMap (fun i =>
            (if (i + σ) % 2 = 1 then grayF (m + 2) (m + 3 + e) 0
              else (grayF (m + 2) (m + 3 + e) 0).reverse).map
              (fun s => _visit n (ovw a (s ++ [i])) k coll))),
          ovw a (pbStr m e σ (m + 1) ++ [m + 1]))) := by
  intro fuel
  induction fuel with
  | zero =>
    refine ⟨?_, ?_, ?_, ?_, ?_, ?_⟩
    · intro m d σ n a k coll _ _ hfuel
      omega
    · intro ν n a k coll t j _ _ hfuel
      omega
    · intro m e σ n a k coll j _ _ _ hfuel
      omega
    · intro m d σ n a k coll _ _ hfuel
      omega
    · intro mu ν n a k coll t j _ _ _ hfuel
      omega
    · intro m e σ n a k coll j _ _ _ hfuel
      omega
  | succ fuel ih =>
    obtain ⟨ihf, ihfa, ihfb, ihb, ihba, ihbb⟩ := ih
    refine ⟨?_, ?_, ?_, ?_, ?_, ?_⟩
    · intro m d σ n a k coll hσ hal hfuel
      have hbase : 1 ≤ a.length := by omega
      have hMlen1 : (minStr (m + 1) (m + 2 + d)).length = m + 2 + d := by
        rw [show m + 2 + d = m + 1 + (1 + d) from by omega]
        exact minStr_length m (1 + d)
      have hElen1 : ∀ ss, (endF (m + 1) (m + 2 + d) ss).length = m + 2 + d := by
        intro ss
        rw [show m + 2 + d = m + 1 + (1 + d) from by omega]
        exact endF_length m (1 + d) ss
      have hfold1 : ∀ s : List Nat, s.length = m + 2 + d →
          ovw (ovw a (minStr (m + 1) (m + 2 + d) ++ [m + 1])) s =
            ovw a (s ++ [m + 1]) := by
        intro s hs
        exact ovw_snoc_fold (by rw [hMlen1]; omega) s (by rw [hs, hMlen1])
      rw [_f]
      by_cases hm : m = 0
      · rw [if_pos (by simp only [beq_iff_eq]; omega)]
        simp only [Option.bind_eq_bind, Option.some_bind]
        have hA2 : ovw a (minStr (m + 2) (m + 3 + d)) =
            ovw a (endF (m + 1) (m + 2 + d) ((m + 2 + σ) % 2) ++ [m + 1]) := by
          subst hm
          simp only [Nat.zero_add]
          rw [minStr_two_decomp d ((2 + σ) % 2)]
        have hX : [_visit n (ovw a (minStr (m + 2) (m + 3 + d))) k coll] =
            (if m + 2 = 2 then [minStr 2 (m + 3 + d)]
              else (grayF (m + 1) (m + 2 + d) ((m + 2 + σ) % 2)).map
                (fun s => s ++ [m + 1])).map
              (fun s => _visit n (ovw a s) k coll) := by
          rw [if_pos (by omega), List.map_cons, List.map_nil,
            show m + 2 = 2 from by omega]
        rw [hX]
        conv_lhs => rw [hA2]
        rw [show m + 2 - 1 = m + 1 from by omega,
          show m + 3 + d - 1 = m + 2 + d from by omega]
        by_cases hd : d = 0
        · subst hd
          simp only [Nat.add_zero] at hal hfuel hMlen1 hElen1 hfold1 ⊢
          rw [if_pos (by simp only [beq_iff_eq])]
          have hset : (ovw a (endF (m + 1) (m + 2) ((m + 2 + σ) % 2) ++ [m + 1])).set
              (m + 2) (m + 1) =
              ovw a (List.range (m + 2) ++ [m + 1]) := by
            have h := @ovw_set a (endF (m + 1) (m + 2) ((m + 2 + σ) % 2) ++ [m + 1])
              hbase (m + 1) (by simp only [List.length_append,
                List.length_singleton, hElen1]; omega) (m + 1)
            rw [show m + 1 + 1 = m + 2 from rfl] at h
            rw [h, stepT1]
          rw [hset]
          have hfa := ihfa (m + 3) n a k coll (List.range (m + 2)) (m + 1)
            (by simp) (by omega)
            (by
              have h9 : m + 2 ≤ (m + 2) * (m + 3) := Nat.le_mul_of_pos_right _ (by omega)
              omega)
          rw [hfa]
          simp only [Option.bind_eq_bind, Option.some_bind]
          have hgray : grayF (m + 2) (m + 3) σ =
              (if m + 2 = 2 then [minStr 2 (m + 3)]
                else (grayF (m + 1) (m + 2) ((m + 2 + σ) % 2)).map
                  (fun s => s ++ [m + 1])) ++
              (List.range (m + 2)).reverse.map
                (fun j => List.range (m + 2) ++ [j]) := by
            have he1 : m + 2 + 1 = m + 2 + 1 := rfl
            rw [show m + 3 = (m + 2) + 1 from rfl, grayF, if_pos he1,
              show m + 2 - 1 = m + 1 from by omega]
          rw [hgray, List.map_append, List.map_map]
          have hE := endF_succ (m + 1) σ
          rw [show m + 1 + 1 = m + 2 from rfl, show m + 1 + 2 = m + 3 from rfl] at hE
          rw [hE]
          have hrev : (List.range (m + 2)).reverse =
              (m + 1) :: (List.range (m + 1)).reverse := by
            rw [show m + 2 = (m + 1) + 1 from rfl, List.range_succ,
              List.reverse_append]
            rfl
          rw [hrev, List.map_cons]
          simp [List.append_assoc, Function.comp]
        · obtain ⟨e, rfl⟩ : ∃ e, d = e + 1 := ⟨d - 1, by omega⟩
          rw [show m + 3 + (e + 1) = m + 4 + e from by omega,
            show m + 2 + (e + 1) = m + 3 + e from by omega] at *
          have hMlen : (minStr (m + 2) (m + 3 + e)).length = m + 3 + e := by
            rw [show m + 3 + e = m + 2 + (1 + e) from by omega]
            exact minStr_length (m + 1) (1 + e)
          have hElen : ∀ ss, (endF (m + 2) (m + 3 + e) ss).length = m + 3 + e := by
            intro ss
            rw [show m + 3 + e = m + 2 + (1 + e) from by omega]
            exact endF_length (m + 1) (1 + e) ss
          have hget : ∀ (u : List Nat) (v : Nat), u.length = m + 3 + e →
              (ovw a (u ++ [v])).getD (m + 4 + e) 0 = v := by
            intro u v hu
            have h := @ovw_snoc_getD a u v hbase
            rwa [hu, show m + 3 + e + 1 = m + 4 + e from by omega] at h
          have hfold : ∀ (c : Nat) (u s : List Nat), u.length = m + 3 + e →
              s.length = m + 3 + e →
              ovw (ovw a (u ++ [c])) s = ovw a (s ++ [c]) := by
            intro c u s hu hs
            exact ovw_snoc_fold (by rw [hu]; omega) s (by rw [hs, hu])
          have hovlen : ∀ (c : Nat) (u : List Nat), u.length = m + 3 + e →
              m + 3 + e + 1 ≤ (ovw a (u ++ [c])).length := by
            intro c u hu
            rw [ovw_length (by simp only [List.length_append,
              List.length_singleton, hu]; omega)]
            omega
          have hmul : (m + 2) * (m + 4 + e) = (m + 2) * (m + 3 + e) + (m + 2) := by
            ring
          rw [if_neg (by simp only [beq_iff_eq]; omega), if_pos (by omega)]
          have hgray : grayF (m + 2) (m + 4 + e) σ =
              (if m + 2 = 2 then [minStr 2 (m + 4 + e)]
                else (grayF (m + 1) (m + 3 + e) ((m + 2 + σ) % 2)).map
                  (fun s => s ++ [m + 1])) ++
              (List.range (m + 2)).reverse.flatMap (fun j =>
                (if (j + σ) % 2 = 1 then (grayF (m + 2) (m + 3 + e) 0).reverse
                  else grayF (m + 2) (m + 3 + e) 0).map (fun s => s ++ [j])) := by
            have hne1 : ¬ (m + 3 + e + 1 = m + 2 + 1) := by omega
            have hlt1 : m + 2 + 1 < m + 3 + e + 1 := by omega
            rw [show m + 4 + e = (m + 3 + e) + 1 from by omega, grayF,
              if_neg hne1, if_pos hlt1,
              show m + 2 - 1 = m + 1 from by omega,
              show m + 3 + e + 1 = m + 4 + e from by omega]
          have hrev : (List.range (m + 2)).reverse =
              (m + 1) :: (List.range (m + 1)).reverse := by
            rw [show m + 2 = (m + 1) + 1 from rfl, List.range_succ,
              List.reverse_append]
            rfl
          have hexitW : ovw a (wfStr m e σ 0 ++ [0]) =
              ovw a (endF (m + 2) (m + 4 + e) σ) := by
            rcases Nat.mod_two_eq_zero_or_one σ with hs | hs
            · have hE := endF_even_decomp hs (m + 1) (e + 1)
              rw [show m + 1 + 1 = m + 2 from rfl,
                show m + 1 + 2 + (e + 1) = m + 4 + e from by omega,
                show m + 1 + 1 + (e + 1) = m + 3 + e from by omega] at hE
              rw [hE, wfStr, if_neg (by omega)]
            · have hE := endF_odd_decomp hs (m + 1) (e + 1)
              rw [show m + 1 + 1 = m + 2 from rfl,
                show m + 1 + 2 + (e + 1) = m + 4 + e from by omega,
                show m + 1 + 1 + (e + 1) = m + 3 + e from by omega] at hE
              rw [hE, wfStr, if_pos (by omega)]
          by_cases hs1 : (m + 2 + σ) % 2 = 1
          · have hsb : ((m + 2 + σ) % 2 == 1) = true := by
              simp only [beq_iff_eq]; exact hs1
            rw [if_pos hsb]
            have hset : (ovw a (endF (m + 1) (m + 3 + e) ((m + 2 + σ) % 2) ++
                [m + 1])).set (m + 3 + e) (m + 1) =
                ovw a (minStr (m + 2) (m + 3 + e) ++ [m + 1]) := by
              have h := @ovw_set a (endF (m + 1) (m + 3 + e) ((m + 2 + σ) % 2) ++
                [m + 1]) hbase (m + 2 + e) (by simp only [List.length_append,
                  List.length_singleton, hElen1]; omega) (m + 1)
              rw [show m + 2 + e + 1 = m + 3 + e from by omega] at h
              rw [h, stepT2 (by omega) m e]
            rw [hset, hget _ _ hMlen]
            have hjp : ¬ (((m + 1 + σ) % 2 == 1) = true) := by
              simp only [beq_iff_eq]; omega
            rw [if_neg hjp,
              show ovw a (minStr (m + 2) (m + 3 + e) ++ [m + 1]) =
                ovw (ovw a (minStr (m + 2) (m + 3 + e) ++ [m + 1]))
                  (minStr (m + 2) (m + 3 + e)) from
                (hfold (m + 1) _ _ hMlen hMlen).symm,
              ihf m e 0 n (ovw a (minStr (m + 2) (m + 3 + e) ++ [m + 1])) k coll
                (by omega) (hovlen (m + 1) _ hMlen) (by omega)]
            simp only [Option.bind_eq_bind, Option.some_bind]
            have hout2 : (grayF (m + 2) (m + 3 + e) 0).map
                (fun s => _visit n
                  (ovw (ovw a (minStr (m + 2) (m + 3 + e) ++ [m + 1])) s) k coll) =
                (grayF (m + 2) (m + 3 + e) 0).map
                (fun s => _visit n (ovw a (s ++ [m + 1])) k coll) := by
              refine List.map_congr_left ?_
              intro s hs
              rw [hfold (m + 1) _ s hMlen
                ((grayF_props (m + 3 + e) (m + 2) 0 s (by omega) (by omega) hs).1)]
            have hwz : wfStr m e σ (m + 1) = endF (m + 2) (m + 3 + e) 0 := by
              rw [wfStr, if_neg (by omega)]
            rw [hout2, hfold (m + 1) _ _ hMlen (hElen 0), ← hwz,
              ihfb m e σ n a k coll (m + 1) hσ (by omega) (by omega) (by omega)]
            simp only [Option.bind_eq_bind, Option.some_bind]
            rw [hgray, List.map_append, hrev, List.flatMap_cons, hexitW]
            simp only [List.map_append, if_neg (by omega : ¬ (m + 1 + σ) % 2 = 1)]
            simp [List.append_assoc, List.map_flatMap, List.map_map, Function.comp_def]
          · have hs0 : (m + 2 + σ) % 2 = 0 := by omega
            have hsb : ¬ (((m + 2 + σ) % 2 == 1) = true) := by
              simp only [beq_iff_eq]; exact hs1
            rw [if_neg hsb]
            have hset : (ovw a (endF (m + 1) (m + 3 + e) ((m + 2 + σ) % 2) ++
                [m + 1])).set (m + 2) (m + 1) =
                ovw a (endF (m + 2) (m + 3 + e) 0 ++ [m + 1]) := by
              have h := @ovw_set a (endF (m + 1) (m + 3 + e) ((m + 2 + σ) % 2) ++
                [m + 1]) hbase (m + 1) (by simp only [List.length_append,
                  List.length_singleton, hElen1]; omega) (m + 1)
              rw [show m + 1 + 1 = m + 2 from rfl] at h
              rw [h, stepT3 (by omega) m e]
            rw [hset, hget _ _ (hElen 0)]
            have hjp : ((m + 1 + σ) % 2 == 1) = true := by
              simp only [beq_iff_eq]; omega
            rw [if_pos hjp,
              show ovw a (endF (m + 2) (m + 3 + e) 0 ++ [m + 1]) =
                ovw (ovw a (endF (m + 2) (m + 3 + e) 0 ++ [m + 1]))
                  (endF (m + 2) (m + 3 + e) 0) from
                (hfold (m + 1) _ _ (hElen 0) (hElen 0)).symm,
              ihb m e 0 n (ovw a (endF (m + 2) (m + 3 + e) 0 ++ [m + 1])) k coll
                (by omega) (hovlen (m + 1) _ (hElen 0)) (by omega)]
            simp only [Option.bind_eq_bind, Option.some_bind]
            have hout2 : ((grayF (m + 2) (m + 3 + e) 0).reverse).map
                (fun s => _visit n
                  (ovw (ovw a (endF (m + 2) (m + 3 + e) 0 ++ [m + 1])) s) k coll) =
                ((grayF (m + 2) (m + 3 + e) 0).reverse).map
                (fun s => _visit n (ovw a (s ++ [m + 1])) k coll) := by
              refine List.map_congr_left ?_
              intro s hs
              rw [hfold (m + 1) _ s (hElen 0)
                ((grayF_props (m + 3 + e) (m + 2) 0 s (by omega) (by omega)
                  (List.mem_reverse.mp hs)).1)]
            have hwz : wfStr m e σ (m + 1) = minStr (m + 2) (m + 3 + e) := by
              rw [wfStr, if_pos (by omega)]
            rw [hout2, hfold (m + 1) _ _ (hElen 0) hMlen, ← hwz,
              ihfb m e σ n a k coll (m + 1) hσ (by omega) (by omega) (by omega)]
            simp only [Option.bind_eq_bind, Option.some_bind]
            rw [hgray, List.map_append, hrev, List.flatMap_cons, hexitW]
            simp only [List.map_append, if_pos (by omega : (m + 1 + σ) % 2 = 1)]
            simp [List.append_assoc, List.map_flatMap, List.map_map, Function.comp_def]
      · rw [if_neg (by simp only [beq_iff_eq]; omega),
          show m + 2 - 1 = m + 1 from by omega,
          show m + 3 + d - 1 = m + 2 + d from by omega, minStr_snoc,
          show ovw a (minStr (m + 1) (m + 2 + d) ++ [m + 1]) =
            ovw (ovw a (minStr (m + 1) (m + 2 + d) ++ [m + 1]))
              (minStr (m + 1) (m + 2 + d)) from (hfold1 _ hMlen1).symm]
        have hmul1 : (m - 1 + 2) * (m - 1 + 3 + d) ≤ (m + 2) * (m + 2 + d) :=
          Nat.mul_le_mul (by omega) (by omega)
        have hmul2 : (m + 2) * (m + 3 + d) = (m + 2) * (m + 2 + d) + (m + 2) := by
          ring
        have hsub := ihf (m - 1) d ((m + 2 + σ) % 2) n
          (ovw a (minStr (m + 1) (m + 2 + d) ++ [m + 1])) k coll (by omega)
          (by rw [ovw_length (by simp only [List.length_append,
              List.length_singleton, hMlen1]; omega)]; omega)
          (by omega)
        rw [show m - 1 + 2 = m + 1 from by omega,
          show m - 1 + 3 + d = m + 2 + d from by omega] at hsub
        rw [hsub]
        simp only [Option.bind_eq_bind, Option.some_bind]
        have hout : (grayF (m + 1) (m + 2 + d) ((m + 2 + σ) % 2)).map
            (fun s => _visit n
              (ovw (ovw a (minStr (m + 1) (m + 2 + d) ++ [m + 1])) s) k coll) =
            (grayF (m + 1) (m + 2 + d) ((m + 2 + σ) % 2)).map
            (fun s => _visit n (ovw a (s ++ [m + 1])) k coll) := by
          refine List.map_congr_left ?_
          intro s hs
          rw [hfold1 s ((grayF_props (m + 2 + d) (m + 1) ((m + 2 + σ) % 2) s
            (by omega) (by omega) hs).1)]
        have hX : (grayF (m + 1) (m + 2 + d) ((m + 2 + σ) % 2)).map
            (fun s => _visit n (ovw a (s ++ [m + 1])) k coll) =
            (if m + 2 = 2 then [minStr 2 (m + 3 + d)]
              else (grayF (m + 1) (m + 2 + d) ((m + 2 + σ) % 2)).map
                (fun s => s ++ [m + 1])).map
              (fun s => _visit n (ovw a s) k coll) := by
          rw [if_neg (by omega), List.map_map]
          rfl
        rw [hout, hX, hfold1 _ (hElen1 _)]
        by_cases hd : d = 0
        · subst hd
          simp only [Nat.add_zero] at hal hfuel hMlen1 hElen1 hfold1 ⊢
          rw [if_pos (by simp only [beq_iff_eq])]
          have hset : (ovw a (endF (m + 1) (m + 2) ((m + 2 + σ) % 2) ++ [m + 1])).set
              (m + 2) (m + 1) =
              ovw a (List.range (m + 2) ++ [m + 1]) := by
            have h := @ovw_set a (endF (m + 1) (m + 2) ((m + 2 + σ) % 2) ++ [m + 1])
              hbase (m + 1) (by simp only [List.length_append,
                List.length_singleton, hElen1]; omega) (m + 1)
            rw [show m + 1 + 1 = m + 2 from rfl] at h
            rw [h, stepT1]
          rw [hset]
          have hfa := ihfa (m + 3) n a k coll (List.range (m + 2)) (m + 1)
            (by simp) (by omega)
            (by
              have h9 : m + 2 ≤ (m + 2) * (m + 3) := Nat.le_mul_of_pos_right _ (by omega)
              omega)
          rw [hfa]
          simp only [Option.bind_eq_bind, Option.some_bind]
          have hgray : grayF (m + 2) (m + 3) σ =
              (if m + 2 = 2 then [minStr 2 (m + 3)]
                else (grayF (m + 1) (m + 2) ((m + 2 + σ) % 2)).map
                  (fun s => s ++ [m + 1])) ++
              (List.range (m + 2)).reverse.map
                (fun j => List.range (m + 2) ++ [j]) := by
            have he1 : m + 2 + 1 = m + 2 + 1 := rfl
            rw [show m + 3 = (m + 2) + 1 from rfl, grayF, if_pos he1,
              show m + 2 - 1 = m + 1 from by omega]
          rw [hgray, List.map_append, List.map_map]
          have hE := endF_succ (m + 1) σ
          rw [show m + 1 + 1 = m + 2 from rfl, show m + 1 + 2 = m + 3 from rfl] at hE
          rw [hE]
          have hrev : (List.range (m + 2)).reverse =
              (m + 1) :: (List.range (m + 1)).reverse := by
            rw [show m + 2 = (m + 1) + 1 from rfl, List.range_succ,
              List.reverse_append]
            rfl
          rw [hrev, List.map_cons]
          simp [List.append_assoc, Function.comp]
        · obtain ⟨e, rfl⟩ : ∃ e, d = e + 1 := ⟨d - 1, by omega⟩
          rw [show m + 3 + (e + 1) = m + 4 + e from by omega,
            show m + 2 + (e + 1) = m + 3 + e from by omega] at *
          have hMlen : (minStr (m + 2) (m + 3 + e)).length = m + 3 + e := by
            rw [show m + 3 + e = m + 2 + (1 + e) from by omega]
            exact minStr_length (m + 1) (1 + e)
          have hElen : ∀ ss, (endF (m + 2) (m + 3 + e) ss).length = m + 3 + e := by
            intro ss
            rw [show m + 3 + e = m + 2 + (1 + e) from by omega]
            exact endF_length (m + 1) (1 + e) ss
          have hget : ∀ (u : List Nat) (v : Nat), u.length = m + 3 + e →
              (ovw a (u ++ [v])).getD (m + 4 + e) 0 = v := by
            intro u v hu
            have h := @ovw_snoc_getD a u v hbase
            rwa [hu, show m + 3 + e + 1 = m + 4 + e from by omega] at h
          have hfold : ∀ (c : Nat) (u s : List Nat), u.length = m + 3 + e →
              s.length = m + 3 + e →
              ovw (ovw a (u ++ [c])) s = ovw a (s ++ [c]) := by
            intro c u s hu hs
            exact ovw_snoc_fold (by rw [hu]; omega) s (by rw [hs, hu])
          have hovlen : ∀ (c : Nat) (u : List Nat), u.length = m + 3 + e →
              m + 3 + e + 1 ≤ (ovw a (u ++ [c])).length := by
            intro c u hu
            rw [ovw_length (by simp only [List.length_append,
              List.length_singleton, hu]; omega)]
            omega
          have hmul : (m + 2) * (m + 4 + e) = (m + 2) * (m + 3 + e) + (m + 2) := by
            ring
          rw [if_neg (by simp only [beq_iff_eq]; omega), if_pos (by omega)]
          have hgray : grayF (m + 2) (m + 4 + e) σ =
              (if m + 2 = 2 then [minStr 2 (m + 4 + e)]
                else (grayF (m + 1) (m + 3 + e) ((m + 2 + σ) % 2)).map
                  (fun s => s ++ [m + 1])) ++
              (List.range (m + 2)).reverse.flatMap (fun j =>
                (if (j + σ) % 2 = 1 then (grayF (m + 2) (m + 3 + e) 0).reverse
                  else grayF (m + 2) (m + 3 + e) 0).map (fun s => s ++ [j])) := by
            have hne1 : ¬ (m + 3 + e + 1 = m + 2 + 1) := by omega
            have hlt1 : m + 2 + 1 < m + 3 + e + 1 := by omega
            rw [show m + 4 + e = (m + 3 + e) + 1 from by omega, grayF,
              if_neg hne1, if_pos hlt1,
              show m + 2 - 1 = m + 1 from by omega,
              show m + 3 + e + 1 = m + 4 + e from by omega]
          have hrev : (List.range (m + 2)).reverse =
              (m + 1) :: (List.range (m + 1)).reverse := by
            rw [show m + 2 = (m + 1) + 1 from rfl, List.range_succ,
              List.reverse_append]
            rfl
          have hexitW : ovw a (wfStr m e σ 0 ++ [0]) =
              ovw a (endF (m + 2) (m + 4 + e) σ) := by
            rcases Nat.mod_two_eq_zero_or_one σ with hs | hs
            · have hE := endF_even_decomp hs (m + 1) (e + 1)
              rw [show m + 1 + 1 = m + 2 from rfl,
                show m + 1 + 2 + (e + 1) = m + 4 + e from by omega,
                show m + 1 + 1 + (e + 1) = m + 3 + e from by omega] at hE
              rw [hE, wfStr, if_neg (by omega)]
            · have hE := endF_odd_decomp hs (m + 1) (e + 1)
              rw [show m + 1 + 1 = m + 2 from rfl,
                show m + 1 + 2 + (e + 1) = m + 4 + e from by omega,
                show m + 1 + 1 + (e + 1) = m + 3 + e from by omega] at hE
              rw [hE, wfStr, if_pos (by omega)]
          by_cases hs1 : (m + 2 + σ) % 2 = 1
          · have hsb : ((m + 2 + σ) % 2 == 1) = true := by
              simp only [beq_iff_eq]; exact hs1
            rw [if_pos hsb]
            have hset : (ovw a (endF (m + 1) (m + 3 + e) ((m + 2 + σ) % 2) ++
                [m + 1])).set (m + 3 + e) (m + 1) =
                ovw a (minStr (m + 2) (m + 3 + e) ++ [m + 1]) := by
              have h := @ovw_set a (endF (m + 1) (m + 3 + e) ((m + 2 + σ) % 2) ++
                [m + 1]) hbase (m + 2 + e) (by simp only [List.length_append,
                  List.length_singleton, hElen1]; omega) (m + 1)
              rw [show m + 2 + e + 1 = m + 3 + e from by omega] at h
              rw [h, stepT2 (by omega) m e]
            rw [hset, hget _ _ hMlen]
            have hjp : ¬ (((m + 1 + σ) % 2 == 1) = true) := by
              simp only [beq_iff_eq]; omega
            rw [if_neg hjp,
              show ovw a (minStr (m + 2) (m + 3 + e) ++ [m + 1]) =
                ovw (ovw a (minStr (m + 2) (m + 3 + e) ++ [m + 1]))
                  (minStr (m + 2) (m + 3 + e)) from
                (hfold (m + 1) _ _ hMlen hMlen).symm,
              ihf m e 0 n (ovw a (minStr (m + 2) (m + 3 + e) ++ [m + 1])) k coll
                (by omega) (hovlen (m + 1) _ hMlen) (by omega)]
            simp only [Option.bind_eq_bind, Option.some_bind]
            have hout2 : (grayF (m + 2) (m + 3 + e) 0).map
                (fun s => _visit n
                  (ovw (ovw a (minStr (m + 2) (m + 3 + e) ++ [m + 1])) s) k coll) =
                (grayF (m + 2) (m + 3 + e) 0).map
                (fun s => _visit n (ovw a (s ++ [m + 1])) k coll) := by
              refine List.map_congr_left ?_
              intro s hs
              rw [hfold (m + 1) _ s hMlen
                ((grayF_props (m + 3 + e) (m + 2) 0 s (by omega) (by omega) hs).1)]
            have hwz : wfStr m e σ (m + 1) = endF (m + 2) (m + 3 + e) 0 := by
              rw [wfStr, if_neg (by omega)]
            rw [hout2, hfold (m + 1) _ _ hMlen (hElen 0), ← hwz,
              ihfb m e σ n a k coll (m + 1) hσ (by omega) (by omega) (by omega)]
            simp only [Option.bind_eq_bind, Option.some_bind]
            rw [hgray, List.map_append, hrev, List.flatMap_cons, hexitW]
            simp only [List.map_append, if_neg (by omega : ¬ (m + 1 + σ) % 2 = 1)]
            simp [List.append_assoc, List.map_flatMap, List.map_map, Function.comp_def]
          · have hs0 : (m + 2 + σ) % 2 = 0 := by omega
            have hsb : ¬ (((m + 2 + σ) % 2 == 1) = true) := by
              simp only [beq_iff_eq]; exact hs1
            rw [if_neg hsb]
            have hset : (ovw a (endF (m + 1) (m + 3 + e) ((m + 2 + σ) % 2) ++
                [m + 1])).set (m + 2) (m + 1) =
                ovw a (endF (m + 2) (m + 3 + e) 0 ++ [m + 1]) := by
              have h := @ovw_set a (endF (m + 1) (m + 3 + e) ((m + 2 + σ) % 2) ++
                [m + 1]) hbase (m + 1) (by simp only [List.length_append,
                  List.length_singleton, hElen1]; omega) (m + 1)
              rw [show m + 1 + 1 = m + 2 from rfl] at h
              rw [h, stepT3 (by omega) m e]
            rw [hset, hget _ _ (hElen 0)]
            have hjp : ((m + 1 + σ) % 2 == 1) = true := by
              simp only [beq_iff_eq]; omega
            rw [if_pos hjp,
              show ovw a (endF (m + 2) (m + 3 + e) 0 ++ [m + 1]) =
                ovw (ovw a (endF (m + 2) (m + 3 + e) 0 ++ [m + 1]))
                  (endF (m + 2) (m + 3 + e) 0) from
                (hfold (m + 1) _ _ (hElen 0) (hElen 0)).symm,
              ihb m e 0 n (ovw a (endF (m + 2) (m + 3 + e) 0 ++ [m + 1])) k coll
                (by omega) (hovlen (m + 1) _ (hElen 0)) (by omega)]
            simp only [Option.bind_eq_bind, Option.some_bind]
            have hout2 : ((grayF (m + 2) (m + 3 + e) 0).reverse).map
                (fun s => _visit n
                  (ovw (ovw a (endF (m + 2) (m + 3 + e) 0 ++ [m + 1])) s) k coll) =
                ((grayF (m + 2) (m + 3 + e) 0).reverse).map
                (fun s => _visit n (ovw a (s ++ [m + 1])) k coll) := by
              refine List.map_congr_left ?_
              intro s hs
              rw [hfold (m + 1) _ s (hElen 0)
                ((grayF_props (m + 3 + e) (m + 2) 0 s (by omega) (by omega)
                  (List.mem_reverse.mp hs)).1)]
            have hwz : wfStr m e σ (m + 1) = minStr (m + 2) (m + 3 + e) := by
              rw [wfStr, if_pos (by omega)]
            rw [hout2, hfold (m + 1) _ _ (hElen 0) hMlen, ← hwz,
              ihfb m e σ n a k coll (m + 1) hσ (by omega) (by omega) (by omega)]
            simp only [Option.bind_eq_bind, Option.some_bind]
            rw [hgray, List.map_append, hrev, List.flatMap_cons, hexitW]
            simp only [List.map_append, if_pos (by omega : (m + 1 + σ) % 2 = 1)]
            simp [List.append_assoc, List.map_flatMap, List.map_map, Function.comp_def]
    · intro ν n a k coll t j htl hal hfuel
      have hbase : 1 ≤ a.length := by omega
      have hget : ∀ v : Nat, (ovw a (t ++ [v])).getD ν 0 = v := by
        intro v
        rw [← htl, ovw_getD_mid hbase (by simp)]
        exact snoc_getD_last
      rw [_fWhileA]
      cases j with
      | zero =>
        rw [if_neg (by rw [hget]; omega)]
        simp
      | succ i =>
        rw [if_pos (by rw [hget]; omega)]
        dsimp only
        rw [hget, show i + 1 - 1 = i from by omega, ← htl,
          ovw_set hbase (by simp) i, snoc_set_last, htl,
          ihfa ν n a k coll t i htl hal (by omega)]
        simp only [Option.bind_eq_bind, Option.some_bind]
        rw [List.range_succ, List.reverse_append]
        simp
    · intro m e σ n a k coll j hσ hj hal hfuel
      have hbase : 1 ≤ a.length := by omega
      have hElen : (endF (m + 2) (m + 3 + e) 0).length = m + 3 + e := by
        rw [show m + 3 + e = m + 2 + (1 + e) from by omega]
        exact endF_length (m + 1) (1 + e) 0
      have hMlen : (minStr (m + 2) (m + 3 + e)).length = m + 3 + e := by
        rw [show m + 3 + e = m + 2 + (1 + e) from by omega]
        exact minStr_length (m + 1) (1 + e)
      have hgetW : ∀ (jj v : Nat),
          (ovw a (wfStr m e σ jj ++ [v])).getD (m + 4 + e) 0 = v := by
        intro jj v
        have h := @ovw_snoc_getD a (wfStr m e σ jj) v hbase
        rwa [wfStr_length, show m + 3 + e + 1 = m + 4 + e from by omega] at h
      have hsetW : ∀ (jj v w : Nat),
          (ovw a (wfStr m e σ jj ++ [v])).set (m + 4 + e) w =
            ovw a (wfStr m e σ jj ++ [w]) := by
        intro jj v w
        have h := @ovw_snoc_set a (wfStr m e σ jj) v hbase w
        rwa [wfStr_length, show m + 3 + e + 1 = m + 4 + e from by omega] at h
      have hfold : ∀ (c : Nat) (u s : List Nat), u.length = m + 3 + e →
          s.length = m + 3 + e →
          ovw (ovw a (u ++ [c])) s = ovw a (s ++ [c]) := by
        intro c u s hu hs
        exact ovw_snoc_fold (by rw [hu]; omega) s (by rw [hs, hu])
      have hovlen : ∀ (c : Nat) (u : List Nat), u.length = m + 3 + e →
          m + 3 + e + 1 ≤ (ovw a (u ++ [c])).length := by
        intro c u hu
        rw [ovw_length (by simp only [List.length_append, List.length_singleton, hu]; omega)]
        omega
      rw [_fWhileB]
      cases j with
      | zero =>
        rw [if_neg (by rw [hgetW]; omega)]
        simp
      | succ i =>
        rw [if_pos (by rw [hgetW]; omega)]
        dsimp only
        rw [hgetW, show i + 1 - 1 = i from by omega, hsetW, hgetW,
          show m + 4 + e - 1 = m + 3 + e from by omega]
        have hw0p : (i + σ) % 2 = 1 → wfStr m e σ i = minStr (m + 2) (m + 3 + e) := by
          intro hp
          rw [wfStr, if_pos hp]
        have hw0n : (i + σ) % 2 = 0 → wfStr m e σ i = endF (m + 2) (m + 3 + e) 0 := by
          intro hp
          rw [wfStr, if_neg (by omega)]
        by_cases hp : (i + σ) % 2 = 1
        · rw [if_pos (by simp only [beq_iff_eq]; exact hp)]
          have hw1 : wfStr m e σ (i + 1) = endF (m + 2) (m + 3 + e) 0 := by
            rw [wfStr, if_neg (by omega)]
          rw [hw1,
            show ovw a (endF (m + 2) (m + 3 + e) 0 ++ [i]) =
              ovw (ovw a (endF (m + 2) (m + 3 + e) 0 ++ [i]))
                (endF (m + 2) (m + 3 + e) 0) from
              (hfold i _ _ hElen hElen).symm,
            ihb m e 0 n (ovw a (endF (m + 2) (m + 3 + e) 0 ++ [i])) k coll
              (by omega) (hovlen i _ hElen) (by omega)]
          simp only [Option.bind_eq_bind, Option.some_bind]
          have hout : ((grayF (m + 2) (m + 3 + e) 0).reverse).map
              (fun s => _visit n
                (ovw (ovw a (endF (m + 2) (m + 3 + e) 0 ++ [i])) s) k coll) =
              ((grayF (m + 2) (m + 3 + e) 0).reverse).map
              (fun s => _visit n (ovw a (s ++ [i])) k coll) := by
            refine List.map_congr_left ?_
            intro s hs
            rw [hfold i _ s hElen
              ((grayF_props (m + 3 + e) (m + 2) 0 s (by omega) (by omega)
                (List.mem_reverse.mp hs)).1)]
          rw [hout, hfold i _ _ hElen hMlen, ← hw0p hp,
            ihfb m e σ n a k coll i hσ (by omega) hal (by omega)]
          simp only [Option.bind_eq_bind, Option.some_bind]
          rw [List.range_succ, List.reverse_append]
          simp only [List.reverse_singleton, List.singleton_append,
            List.flatMap_cons, if_pos hp]
        · have hp0 : (i + σ) % 2 = 0 := by omega
          rw [if_neg (by simp only [beq_iff_eq]; omega)]
          have hw1 : wfStr m e σ (i + 1) = minStr (m + 2) (m + 3 + e) := by
            rw [wfStr, if_pos (by omega)]
          rw [hw1,
            show ovw a (minStr (m + 2) (m + 3 + e) ++ [i]) =
              ovw (ovw a (minStr (m + 2) (m + 3 + e) ++ [i]))
                (minStr (m + 2) (m + 3 + e)) from
              (hfold i _ _ hMlen hMlen).symm,
            ihf m e 0 n (ovw a (minStr (m + 2) (m + 3 + e) ++ [i])) k coll
              (by omega) (hovlen i _ hMlen) (by omega)]
          simp only [Option.bind_eq_bind, Option.some_bind]
          have hout : (grayF (m + 2) (m + 3 + e) 0).map
              (fun s => _visit n
                (ovw (ovw a (minStr (m + 2) (m + 3 + e) ++ [i])) s) k coll) =
              (grayF (m + 2) (m + 3 + e) 0).map
              (fun s => _visit n (ovw a (s ++ [i])) k coll) := by
            refine List.map_congr_left ?_
            intro s hs
            rw [hfold i _ s hMlen
              ((grayF_props (m + 3 + e) (m + 2) 0 s (by omega) (by omega) hs).1)]
          rw [hout, hfold i _ _ hMlen hElen, ← hw0n hp0,
            ihfb m e σ n a k coll i hσ (by omega) hal (by omega)]
          simp only [Option.bind_eq_bind, Option.some_bind]
          rw [List.range_succ, List.reverse_append]
          simp only [List.reverse_singleton, List.singleton_append,
            List.flatMap_cons, if_neg hp]
    · intro m d σ n a k coll hσ hal hfuel
      have hbase : 1 ≤ a.length := by omega
      have hMlen1 : (minStr (m + 1) (m + 2 + d)).length = m + 2 + d := by
        rw [show m + 2 + d = m + 1 + (1 + d) from by omega]
        exact minStr_length m (1 + d)
      have hElen1 : ∀ ss, (endF (m + 1) (m + 2 + d) ss).length = m + 2 + d := by
        intro ss
        rw [show m + 2 + d = m + 1 + (1 + d) from by omega]
        exact endF_length m (1 + d) ss
      have hfold1 : ∀ (u s : List Nat), u.length = m + 2 + d →
          s.length = m + 2 + d →
          ovw (ovw a (u ++ [m + 1])) s = ovw a (s ++ [m + 1]) := by
        intro u s hu hs
        exact ovw_snoc_fold (by rw [hu]; omega) s (by rw [hs, hu])
      rw [_b]
      by_cases hd : d = 0
      · subst hd
        simp only [Nat.add_zero] at hal hfuel hMlen1 hElen1 hfold1 ⊢
        have hc1 : ((m + 3 : Nat) == m + 2 + 1) = true := by
          simp only [beq_iff_eq]
        rw [if_pos hc1]
        have hE : endF (m + 2) (m + 3) σ = List.range (m + 2) ++ [0] := by
          have h := endF_succ (m + 1) σ
          rwa [show m + 1 + 1 = m + 2 from rfl,
            show m + 1 + 2 = m + 3 from rfl] at h
        rw [hE]
        have hba := ihba (m + 2) (m + 3) n a k coll (List.range (m + 2)) 0
          (by simp) (by omega) (by omega)
          (by
            have h9 : m + 2 ≤ (m + 2) * (m + 3) := Nat.le_mul_of_pos_right _ (by omega)
            omega)
        rw [show m + 2 - 1 - 0 = m + 1 from by omega,
          show m + 2 - 1 = m + 1 from by omega,
          show List.range' 0 (m + 1) = List.range (m + 1) from by
            rw [List.range_eq_range']] at hba
        rw [hba]
        simp only [Option.bind_eq_bind, Option.some_bind]
        have hset : (ovw a (List.range (m + 2) ++ [m + 1])).set (m + 2) 0 =
            ovw a (endF (m + 1) (m + 2) ((m + 2 + σ) % 2) ++ [m + 1]) := by
          have h := @ovw_set a (List.range (m + 2) ++ [m + 1]) hbase (m + 1)
            (by simp only [List.length_append, List.length_range,
              List.length_singleton]; omega) 0
          rw [show m + 1 + 1 = m + 2 from rfl] at h
          rw [h, stepT4 m ((m + 2 + σ) % 2)]
        rw [hset]
        have hgray0 : grayF (m + 2) (m + 3) σ =
            (if m + 2 = 2 then [minStr 2 (m + 3)]
              else (grayF (m + 1) (m + 2) ((m + 2 + σ) % 2)).map
                (fun s => s ++ [m + 1])) ++
            (List.range (m + 2)).reverse.map
              (fun j => List.range (m + 2) ++ [j]) := by
          have he1 : m + 2 + 1 = m + 2 + 1 := rfl
          rw [show m + 3 = (m + 2) + 1 from rfl, grayF, if_pos he1,
            show m + 2 - 1 = m + 1 from by omega]
        by_cases hm : m = 0
        · have hm2 : ((m + 2 : Nat) == 2) = true := by
            simp only [beq_iff_eq]; omega
          rw [if_pos hm2]
          have hA2 : endF (m + 1) (m + 2) ((m + 2 + σ) % 2) ++ [m + 1] =
              minStr (m + 2) (m + 3) := by
            rw [hm]
            simp only [Nat.zero_add]
            exact (minStr_two_decomp 0 _).symm
          rw [hA2, hgray0]
          have hp1 : m + 2 = 2 := by omega
          rw [if_pos hp1, show minStr 2 (m + 3) = minStr (m + 2) (m + 3) from by
            rw [hm]]
          simp only [List.reverse_append, List.map_append, List.map_reverse,
            List.reverse_reverse, List.map_map]
          simp [List.range_succ, Function.comp_def, List.append_assoc]
        · have hm2 : ¬ (((m + 2 : Nat) == 2) = true) := by
            simp only [beq_iff_eq]; omega
          rw [if_neg hm2, show m + 2 - 1 = m + 1 from by omega,
            show m + 3 - 1 = m + 2 from by omega,
            show ovw a (endF (m + 1) (m + 2) ((m + 2 + σ) % 2) ++ [m + 1]) =
              ovw (ovw a (endF (m + 1) (m + 2) ((m + 2 + σ) % 2) ++ [m + 1]))
                (endF (m + 1) (m + 2) ((m + 2 + σ) % 2)) from
              (hfold1 _ _ (hElen1 _) (hElen1 _)).symm]
          have hmul1 : (m - 1 + 2) * (m - 1 + 3 + 0) ≤ (m + 1) * (m + 2) :=
            Nat.mul_le_mul (by omega) (by omega)
          have hmul2 : (m + 2) * (m + 3) = (m + 1) * (m + 2) + 2 * (m + 2) := by
            ring
          have hsub := ihb (m - 1) 0 ((m + 2 + σ) % 2) n
            (ovw a (endF (m + 1) (m + 2) ((m + 2 + σ) % 2) ++ [m + 1])) k coll
            (by omega)
            (by rw [ovw_length (by simp only [List.length_append,
                List.length_singleton, hElen1]; omega)]; omega)
            (by omega)
          rw [show m - 1 + 2 = m + 1 from by omega,
            show m - 1 + 3 + 0 = m + 2 from by omega] at hsub
          rw [hsub]
          simp only [Option.bind_eq_bind, Option.some_bind]
          have hout3 : (grayF (m + 1) (m + 2) ((m + 2 + σ) % 2)).reverse.map
              (fun s => _visit n
                (ovw (ovw a (endF (m + 1) (m + 2) ((m + 2 + σ) % 2) ++ [m + 1]))
                  s) k coll) =
              (grayF (m + 1) (m + 2) ((m + 2 + σ) % 2)).reverse.map
              (fun s => _visit n (ovw a (s ++ [m + 1])) k coll) := by
            refine List.map_congr_left ?_
            intro s hs
            rw [hfold1 _ s (hElen1 _) ((grayF_props (m + 2) (m + 1) _ s
              (by omega) (by omega) (List.mem_reverse.mp hs)).1)]
          have hms : minStr (m + 1) (m + 2) ++ [m + 1] = minStr (m + 2) (m + 3) := by
            have h := minStr_snoc m 0
            rw [show m + 3 + 0 = m + 3 from by omega,
              show m + 2 + 0 = m + 2 from by omega] at h
            exact h.symm
          rw [hout3, hfold1 _ _ (hElen1 _) hMlen1, hms, hgray0]
          have hp1 : ¬ (m + 2 = 2) := by omega
          rw [if_neg hp1]
          simp only [List.reverse_append, List.map_append, List.map_reverse,
            List.reverse_reverse, List.map_map]
          simp [List.range_succ, Function.comp_def, List.append_assoc]
      · obtain ⟨e, rfl⟩ : ∃ e, d = e + 1 := ⟨d - 1, by omega⟩
        rw [show m + 3 + (e + 1) = m + 4 + e from by omega,
          show m + 2 + (e + 1) = m + 3 + e from by omega] at *
        have hMlen1X : (minStr (m + 1) (m + 3 + e)).length = m + 3 + e := hMlen1
        have hMlen : (minStr (m + 2) (m + 3 + e)).length = m + 3 + e := by
          rw [show m + 3 + e = m + 2 + (1 + e) from by omega]
          exact minStr_length (m + 1) (1 + e)
        have hElen : ∀ ss, (endF (m + 2) (m + 3 + e) ss).length = m + 3 + e := by
          intro ss
          rw [show m + 3 + e = m + 2 + (1 + e) from by omega]
          exact endF_length (m + 1) (1 + e) ss
        have hget : ∀ (u : List Nat) (v : Nat), u.length = m + 3 + e →
            (ovw a (u ++ [v])).getD (m + 4 + e) 0 = v := by
          intro u v hu
          have h := @ovw_snoc_getD a u v hbase
          rwa [hu, show m + 3 + e + 1 = m + 4 + e from by omega] at h
        have hfold : ∀ (c : Nat) (u s : List Nat), u.length = m + 3 + e →
            s.length = m + 3 + e →
            ovw (ovw a (u ++ [c])) s = ovw a (s ++ [c]) := by
          intro c u s hu hs
          exact ovw_snoc_fold (by rw [hu]; omega) s (by rw [hs, hu])
        have hovlen : ∀ (c : Nat) (u : List Nat), u.length = m + 3 + e →
            m + 3 + e + 1 ≤ (ovw a (u ++ [c])).length := by
          intro c u hu
          rw [ovw_length (by simp only [List.length_append,
            List.length_singleton, hu]; omega)]
          omega
        have hmul : (m + 2) * (m + 4 + e) = (m + 2) * (m + 3 + e) + (m + 2) := by
          ring
        have hc1 : ¬ (((m + 4 + e : Nat) == m + 2 + 1) = true) := by
          simp only [beq_iff_eq]; omega
        have hlt1 : m + 2 + 1 < m + 4 + e := by omega
        rw [if_neg hc1, if_pos hlt1,
          show m + 4 + e - 1 = m + 3 + e from by omega]
        have hgrayE : grayF (m + 2) (m + 4 + e) σ =
            (if m + 2 = 2 then [minStr 2 (m + 4 + e)]
              else (grayF (m + 1) (m + 3 + e) ((m + 2 + σ) % 2)).map
                (fun s => s ++ [m + 1])) ++
            (List.range (m + 2)).reverse.flatMap (fun j =>
              (if (j + σ) % 2 = 1 then (grayF (m + 2) (m + 3 + e) 0).reverse
                else grayF (m + 2) (m + 3 + e) 0).map (fun s => s ++ [j])) := by
          have hne1 : ¬ (m + 3 + e + 1 = m + 2 + 1) := by omega
          have hlt2 : m + 2 + 1 < m + 3 + e + 1 := by omega
          rw [show m + 4 + e = (m + 3 + e) + 1 from by omega, grayF,
            if_neg hne1, if_pos hlt2,
            show m + 2 - 1 = m + 1 from by omega,
            show m + 3 + e + 1 = m + 4 + e from by omega]
        have hrevflat : ((List.range (m + 2)).reverse.flatMap (fun j =>
            (if (j + σ) % 2 = 1 then (grayF (m + 2) (m + 3 + e) 0).reverse
              else grayF (m + 2) (m + 3 + e) 0).map (fun s => s ++ [j]))).reverse =
            (List.range (m + 2)).flatMap (fun j =>
            (if (j + σ) % 2 = 1 then grayF (m + 2) (m + 3 + e) 0
              else (grayF (m + 2) (m + 3 + e) 0).reverse).map
              (fun s => s ++ [j])) := by
          rw [List.reverse_flatMap, List.reverse_reverse]
          refine congrArg _ (funext fun j => ?_)
          by_cases hc : (j + σ) % 2 = 1
          · simp [Function.comp_def, hc, List.map_reverse]
          · simp [Function.comp_def, hc, List.map_reverse]
        have hexit2 : (if (((m + 2 + σ) % 2 : Nat) == 1) = true then
            (ovw a (pbStr m e σ (m + 1) ++ [m + 1])).set (m + 3 + e) 0
          else (ovw a (pbStr m e σ (m + 1) ++ [m + 1])).set (m + 2) 0) =
            ovw a (endF (m + 1) (m + 3 + e) ((m + 2 + σ) % 2) ++ [m + 1]) := by
          by_cases hp : (m + 2 + σ) % 2 = 1
          · rw [if_pos (by simp only [beq_iff_eq]; exact hp)]
            have hpb : pbStr m e σ (m + 1) = minStr (m + 2) (m + 3 + e) := by
              rw [pbStr, if_neg (by omega)]
            rw [hpb]
            have h := @ovw_set a (minStr (m + 2) (m + 3 + e) ++ [m + 1]) hbase
              (m + 2 + e) (by simp only [List.length_append,
                List.length_singleton, hMlen]; omega) 0
            rw [show m + 2 + e + 1 = m + 3 + e from by omega] at h
            rw [h, @stepT5 ((m + 2 + σ) % 2) (by omega) m e]
          · rw [if_neg (by simp only [beq_iff_eq]; exact hp)]
            have hpb : pbStr m e σ (m + 1) = endF (m + 2) (m + 3 + e) 0 := by
              rw [pbStr, if_pos (by omega)]
            rw [hpb]
            have h := @ovw_set a (endF (m + 2) (m + 3 + e) 0 ++ [m + 1]) hbase
              (m + 1) (by simp only [List.length_append,
                List.length_singleton, hElen]; omega) 0
            rw [show m + 1 + 1 = m + 2 from rfl] at h
            rw [h, @stepT6 ((m + 2 + σ) % 2) (by omega) m e]
        by_cases hs1 : σ % 2 = 1
        · have hEdec : endF (m + 2) (m + 4 + e) σ =
              minStr (m + 2) (m + 3 + e) ++ [0] := by
            have h := endF_odd_decomp hs1 (m + 1) (e + 1)
            rwa [show m + 1 + 1 = m + 2 from rfl,
              show m + 1 + 2 + (e + 1) = m + 4 + e from by omega,
              show m + 1 + 1 + (e + 1) = m + 3 + e from by omega] at h
          rw [hEdec, hget _ _ hMlen]
          have hcb : (((0 : Nat) + σ) % 2 == 1) = true := by
            simp only [beq_iff_eq]; omega
          rw [if_pos hcb,
            show ovw a (minStr (m + 2) (m + 3 + e) ++ [0]) =
              ovw (ovw a (minStr (m + 2) (m + 3 + e) ++ [0]))
                (minStr (m + 2) (m + 3 + e)) from
              (hfold 0 _ _ hMlen hMlen).symm,
            ihf m e 0 n (ovw a (minStr (m + 2) (m + 3 + e) ++ [0])) k coll
              (by omega) (hovlen 0 _ hMlen) (by omega)]
          simp only [Option.bind_eq_bind, Option.some_bind]
          have hout1 : (grayF (m + 2) (m + 3 + e) 0).map
              (fun s => _visit n
                (ovw (ovw a (minStr (m + 2) (m + 3 + e) ++ [0])) s) k coll) =
              (grayF (m + 2) (m + 3 + e) 0).map
              (fun s => _visit n (ovw a (s ++ [0])) k coll) := by
            refine List.map_congr_left ?_
            intro s hs
            rw [hfold 0 _ s hMlen
              ((grayF_props (m + 3 + e) (m + 2) 0 s (by omega) (by omega) hs).1)]
          have hp0 : pbStr m e σ 0 = endF (m + 2) (m + 3 + e) 0 := by
            rw [pbStr, if_pos (by omega)]
          rw [hout1, hfold 0 _ _ hMlen (hElen 0), ← hp0,
            ihbb m e σ n a k coll 0 hσ (by omega) (by omega) (by omega)]
          simp only [Option.bind_eq_bind, Option.some_bind]
          rw [show m + 1 - 0 = m + 1 from by omega, hexit2]
          by_cases hm : m = 0
          · have hm2 : ((m + 2 : Nat) == 2) = true := by
              simp only [beq_iff_eq]; omega
            rw [if_pos hm2]
            have hA2 : endF (m + 1) (m + 3 + e) ((m + 2 + σ) % 2) ++ [m + 1] =
                minStr (m + 2) (m + 4 + e) := by
              rw [hm]
              simp only [Nat.zero_add]
              rw [show (4 : Nat) + e = 3 + (e + 1) from by omega,
                show (3 : Nat) + e = 2 + (e + 1) from by omega]
              exact (minStr_two_decomp (e + 1) _).symm
            rw [hA2, hgrayE]
            have hp1 : m + 2 = 2 := by omega
            rw [if_pos hp1, show minStr 2 (m + 4 + e) = minStr (m + 2) (m + 4 + e)
              from by rw [hm]]
            rw [List.reverse_append, hrevflat]
            simp only [List.reverse_append, List.map_append, List.map_flatMap,
              List.map_map, Function.comp_def, List.reverse_reverse,
              List.range_eq_range', List.range_succ_eq_map]
            simp [List.range'_succ, hs1, hp0, List.append_assoc, Function.comp_def]
          · have hm2 : ¬ (((m + 2 : Nat) == 2) = true) := by
              simp only [beq_iff_eq]; omega
            rw [if_neg hm2, show m + 2 - 1 = m + 1 from by omega,
              show ovw a (endF (m + 1) (m + 3 + e) ((m + 2 + σ) % 2) ++ [m + 1]) =
                ovw (ovw a (endF (m + 1) (m + 3 + e) ((m + 2 + σ) % 2) ++ [m + 1]))
                  (endF (m + 1) (m + 3 + e) ((m + 2 + σ) % 2)) from
                (hfold (m + 1) _ _ (hElen1 _) (hElen1 _)).symm]
            have hmul1 : (m - 1 + 2) * (m - 1 + 3 + (e + 1)) ≤
                (m + 1) * (m + 3 + e) :=
              Nat.mul_le_mul (by omega) (by omega)
            have hmul3 : (m + 2) * (m + 4 + e) =
                (m + 1) * (m + 3 + e) + (m + 3 + e) + (m + 2) := by
              ring
            have hsub := ihb (m - 1) (e + 1) ((m + 2 + σ) % 2) n
              (ovw a (endF (m + 1) (m + 3 + e) ((m + 2 + σ) % 2) ++ [m + 1])) k coll
              (by omega)
              (by rw [ovw_length (by simp only [List.length_append,
                  List.length_singleton, hElen1]; omega)]; omega)
              (by omega)
            rw [show m - 1 + 2 = m + 1 from by omega,
              show m - 1 + 3 + (e + 1) = m + 3 + e from by omega] at hsub
            rw [hsub]
            simp only [Option.bind_eq_bind, Option.some_bind]
            have hout3 : (grayF (m + 1) (m + 3 + e) ((m + 2 + σ) % 2)).reverse.map
                (fun s => _visit n
                  (ovw (ovw a (endF (m + 1) (m + 3 + e) ((m + 2 + σ) % 2) ++
                    [m + 1])) s) k coll) =
                (grayF (m + 1) (m + 3 + e) ((m + 2 + σ) % 2)).reverse.map
                (fun s => _visit n (ovw a (s ++ [m + 1])) k coll) := by
              refine List.map_congr_left ?_
              intro s hs
              rw [hfold (m + 1) _ s (hElen1 _) ((grayF_props (m + 3 + e) (m + 1) _ s
                (by omega) (by omega) (List.mem_reverse.mp hs)).1)]
            have hms : minStr (m + 1) (m + 3 + e) ++ [m + 1] =
                minStr (m + 2) (m + 4 + e) := by
              have h := minStr_snoc m (e + 1)
              rw [show m + 3 + (e + 1) = m + 4 + e from by omega,
                show m + 2 + (e + 1) = m + 3 + e from by omega] at h
              exact h.symm
            rw [hout3, hfold (m + 1) _ _ (hElen1 _) hMlen1X, hms, hgrayE]
            have hp1 : ¬ (m + 2 = 2) := by omega
            rw [if_neg hp1]
            rw [List.reverse_append, hrevflat]
            simp only [List.reverse_append, List.map_append, List.map_flatMap,
              List.map_map, Function.comp_def, List.reverse_reverse,
              List.map_reverse, List.range_eq_range']
            simp [List.range'_succ, hs1, hp0, List.append_assoc, Function.comp_def]
        · have hs0 : σ % 2 = 0 := by omega
          have hEdec : endF (m + 2) (m + 4 + e) σ =
              endF (m + 2) (m + 3 + e) 0 ++ [0] := by
            have h := endF_even_decomp hs0 (m + 1) (e + 1)
            rwa [show m + 1 + 1 = m + 2 from rfl,
              show m + 1 + 2 + (e + 1) = m + 4 + e from by omega,
              show m + 1 + 1 + (e + 1) = m + 3 + e from by omega] at h
          rw [hEdec, hget _ _ (hElen 0)]
          have hcb : ¬ ((((0 : Nat) + σ) % 2 == 1) = true) := by
            simp only [beq_iff_eq]; omega
          rw [if_neg hcb,
            show ovw a (endF (m + 2) (m + 3 + e) 0 ++ [0]) =
              ovw (ovw a (endF (m + 2) (m + 3 + e) 0 ++ [0]))
                (endF (m + 2) (m + 3 + e) 0) from
              (hfold 0 _ _ (hElen 0) (hElen 0)).symm,
            ihb m e 0 n (ovw a (endF (m + 2) (m + 3 + e) 0 ++ [0])) k coll
              (by omega) (hovlen 0 _ (hElen 0)) (by omega)]
          simp only [Option.bind_eq_bind, Option.some_bind]
          have hout1 : (grayF (m + 2) (m + 3 + e) 0).reverse.map
              (fun s => _visit n
                (ovw (ovw a (endF (m + 2) (m + 3 + e) 0 ++ [0])) s) k coll) =
              (grayF (m + 2) (m + 3 + e) 0).reverse.map
              (fun s => _visit n (ovw a (s ++ [0])) k coll) := by
            refine List.map_congr_left ?_
            intro s hs
            rw [hfold 0 _ s (hElen 0)
              ((grayF_props (m + 3 + e) (m + 2) 0 s (by omega) (by omega)
                (List.mem_reverse.mp hs)).1)]
          have hp0 : pbStr m e σ 0 = minStr (m + 2) (m + 3 + e) := by
            rw [pbStr, if_neg (by omega)]
          rw [hout1, hfold 0 _ _ (hElen 0) hMlen, ← hp0,
            ihbb m e σ n a k coll 0 hσ (by omega) (by omega) (by omega)]
          simp only [Option.bind_eq_bind, Option.some_bind]
          rw [show m + 1 - 0 = m + 1 from by omega, hexit2]
          by_cases hm : m = 0
          · have hm2 : ((m + 2 : Nat) == 2) = true := by
              simp only [beq_iff_eq]; omega
            rw [if_pos hm2]
            have hA2 : endF (m + 1) (m + 3 + e) ((m + 2 + σ) % 2) ++ [m + 1] =
                minStr (m + 2) (m + 4 + e) := by
              rw [hm]
              simp only [Nat.zero_add]
              rw [show (4 : Nat) + e = 3 + (e + 1) from by omega,
                show (3 : Nat) + e = 2 + (e + 1) from by omega]
              exact (minStr_two_decomp (e + 1) _).symm
            rw [hA2, hgrayE]
            have hp1 : m + 2 = 2 := by omega
            rw [if_pos hp1, show minStr 2 (m + 4 + e) = minStr (m + 2) (m + 4 + e)
              from by rw [hm]]
            rw [List.reverse_append, hrevflat]
            simp only [List.reverse_append, List.map_append, List.map_flatMap,
              List.map_map, Function.comp_def, List.reverse_reverse,
              List.range_eq_range', List.range_succ_eq_map]
            simp [List.range'_succ, hs0, hp0, List.append_assoc, Function.comp_def]
          · have hm2 : ¬ (((m + 2 : Nat) == 2) = true) := by
              simp only [beq_iff_eq]; omega
            rw [if_neg hm2, show m + 2 - 1 = m + 1 from by omega,
              show ovw a (endF (m + 1) (m + 3 + e) ((m + 2 + σ) % 2) ++ [m + 1]) =
                ovw (ovw a (endF (m + 1) (m + 3 + e) ((m + 2 + σ) % 2) ++ [m + 1]))
                  (endF (m + 1) (m + 3 + e) ((m + 2 + σ) % 2)) from
                (hfold (m + 1) _ _ (hElen1 _) (hElen1 _)).symm]
            have hmul1 : (m - 1 + 2) * (m - 1 + 3 + (e + 1)) ≤
                (m + 1) * (m + 3 + e) :=
              Nat.mul_le_mul (by omega) (by omega)
            have hmul3 : (m + 2) * (m + 4 + e) =
                (m + 1) * (m + 3 + e) + (m + 3 + e) + (m + 2) := by
              ring
            have hsub := ihb (m - 1) (e + 1) ((m + 2 + σ) % 2) n
              (ovw a (endF (m + 1) (m + 3 + e) ((m + 2 + σ) % 2) ++ [m + 1])) k coll
              (by omega)
              (by rw [ovw_length (by simp only [List.length_append,
                  List.length_singleton, hElen1]; omega)]; omega)
              (by omega)
            rw [show m - 1 + 2 = m + 1 from by omega,
              show m - 1 + 3 + (e + 1) = m + 3 + e from by omega] at hsub
            rw [hsub]
            simp only [Option.bind_eq_bind, Option.some_bind]
            have hout3 : (grayF (m + 1) (m + 3 + e) ((m + 2 + σ) % 2)).reverse.map
                (fun s => _visit n
                  (ovw (ovw a (endF (m + 1) (m + 3 + e) ((m + 2 + σ) % 2) ++
                    [m + 1])) s) k coll) =
                (grayF (m + 1) (m + 3 + e) ((m + 2 + σ) % 2)).reverse.map
                (fun s => _visit n (ovw a (s ++ [m + 1])) k coll) := by
              refine List.map_congr_left ?_
              intro s hs
              rw [hfold (m + 1) _ s (hElen1 _) ((grayF_props (m + 3 + e) (m + 1) _ s
                (by omega) (by omega) (List.mem_reverse.mp hs)).1)]
            have hms : minStr (m + 1) (m + 3 + e) ++ [m + 1] =
                minStr (m + 2) (m + 4 + e) := by
              have h := minStr_snoc m (e + 1)
              rw [show m + 3 + (e + 1) = m + 4 + e from by omega,
                show m + 2 + (e + 1) = m + 3 + e from by omega] at h
              exact h.symm
            rw [hout3, hfold (m + 1) _ _ (hElen1 _) hMlen1X, hms, hgrayE]
            have hp1 : ¬ (m + 2 = 2) := by omega
            rw [if_neg hp1]
            rw [List.reverse_append, hrevflat]
            simp only [List.reverse_append, List.map_append, List.map_flatMap,
              List.map_map, Function.comp_def, List.reverse_reverse,
              List.map_reverse, List.range_eq_range']
            simp [List.range'_succ, hs0, hp0, List.append_assoc, Function.comp_def]
    · intro mu ν n a k coll t j htl hal hj hfuel
      have hbase : 1 ≤ a.length := by omega
      have hget : ∀ v : Nat, (ovw a (t ++ [v])).getD ν 0 = v := by
        intro v
        rw [← htl]
        exact ovw_snoc_getD hbase
      rw [_bWhileA]
      by_cases hlt : j < mu - 1
      · rw [if_pos (by rw [hget]; omega)]
        dsimp only
        rw [hget, ← htl, ovw_snoc_set hbase (j + 1), htl,
          ihba mu ν n a k coll t (j + 1) htl hal (by omega) (by omega)]
        simp only [Option.bind_eq_bind, Option.some_bind]
        rw [show mu - 1 - j = (mu - 1 - (j + 1)) + 1 from by omega,
          List.range'_succ]
        simp
      · rw [if_neg (by rw [hget]; omega)]
        have hje : j = mu - 1 := by omega
        subst hje
        rw [show mu - 1 - (mu - 1) = 0 from by omega]
        simp
    · intro m e σ n a k coll j hσ hj hal hfuel
      have hbase : 1 ≤ a.length := by omega
      have hElen : (endF (m + 2) (m + 3 + e) 0).length = m + 3 + e := by
        rw [show m + 3 + e = m + 2 + (1 + e) from by omega]
        exact endF_length (m + 1) (1 + e) 0
      have hMlen : (minStr (m + 2) (m + 3 + e)).length = m + 3 + e := by
        rw [show m + 3 + e = m + 2 + (1 + e) from by omega]
        exact minStr_length (m + 1) (1 + e)
      have hgetP : ∀ (jj v : Nat),
          (ovw a (pbStr m e σ jj ++ [v])).getD (m + 4 + e) 0 = v := by
        intro jj v
        have h := @ovw_snoc_getD a (pbStr m e σ jj) v hbase
        rwa [pbStr_length, show m + 3 + e + 1 = m + 4 + e from by omega] at h
      have hsetP : ∀ (jj v w : Nat),
          (ovw a (pbStr m e σ jj ++ [v])).set (m + 4 + e) w =
            ovw a (pbStr m e σ jj ++ [w]) := by
        intro jj v w
        have h := @ovw_snoc_set a (pbStr m e σ jj) v hbase w
        rwa [pbStr_length, show m + 3 + e + 1 = m + 4 + e from by omega] at h
      have hfold : ∀ (c : Nat) (u s : List Nat), u.length = m + 3 + e →
          s.length = m + 3 + e →
          ovw (ovw a (u ++ [c])) s = ovw a (s ++ [c]) := by
        intro c u s hu hs
        exact ovw_snoc_fold (by rw [hu]; omega) s (by rw [hs, hu])
      have hovlen : ∀ (c : Nat) (u : List Nat), u.length = m + 3 + e →
          m + 3 + e + 1 ≤ (ovw a (u ++ [c])).length := by
        intro c u hu
        rw [ovw_length (by simp only [List.length_append, List.length_singleton, hu]; omega)]
        omega
      rw [_bWhileB]
      by_cases hlt : j < m + 1
      · rw [if_pos (by rw [hgetP]; omega)]
        dsimp only
        rw [hgetP, hsetP, hgetP,
          show m + 4 + e - 1 = m + 3 + e from by omega]
        have hP1p : (j + 1 + σ) % 2 = 1 → pbStr m e σ (j + 1) =
            endF (m + 2) (m + 3 + e) 0 := by
          intro hp
          rw [pbStr, if_pos hp]
        have hP1n : (j + 1 + σ) % 2 = 0 → pbStr m e σ (j + 1) =
            minStr (m + 2) (m + 3 + e) := by
          intro hp
          rw [pbStr, if_neg (by omega)]
        by_cases hp : (j + 1 + σ) % 2 = 1
        · rw [if_pos (by simp only [beq_iff_eq]; exact hp)]
          have hP0 : pbStr m e σ j = minStr (m + 2) (m + 3 + e) := by
            rw [pbStr, if_neg (by omega)]
          rw [hP0,
            show ovw a (minStr (m + 2) (m + 3 + e) ++ [j + 1]) =
              ovw (ovw a (minStr (m + 2) (m + 3 + e) ++ [j + 1]))
                (minStr (m + 2) (m + 3 + e)) from
              (hfold (j + 1) _ _ hMlen hMlen).symm,
            ihf m e 0 n (ovw a (minStr (m + 2) (m + 3 + e) ++ [j + 1])) k coll
              (by omega) (hovlen (j + 1) _ hMlen) (by omega)]
          simp only [Option.bind_eq_bind, Option.some_bind]
          have hout : (grayF (m + 2) (m + 3 + e) 0).map
              (fun s => _visit n
                (ovw (ovw a (minStr (m + 2) (m + 3 + e) ++ [j + 1])) s) k coll) =
              (grayF (m + 2) (m + 3 + e) 0).map
              (fun s => _visit n (ovw a (s ++ [j + 1])) k coll) := by
            refine List.map_congr_left ?_
            intro s hs
            rw [hfold (j + 1) _ s hMlen
              ((grayF_props (m + 3 + e) (m + 2) 0 s (by omega) (by omega) hs).1)]
          rw [hout, hfold (j + 1) _ _ hMlen hElen, ← hP1p hp,
            ihbb m e σ n a k coll (j + 1) hσ (by omega) hal (by omega)]
          simp only [Option.bind_eq_bind, Option.some_bind]
          rw [show m + 1 - j = (m + 1 - (j + 1)) + 1 from by omega,
            List.range'_succ]
          simp only [List.flatMap_cons, if_pos hp]
        · have hp0 : (j + 1 + σ) % 2 = 0 := by omega
          rw [if_neg (by simp only [beq_iff_eq]; omega)]
          have hP0 : pbStr m e σ j = endF (m + 2) (m + 3 + e) 0 := by
            rw [pbStr, if_pos (by omega)]
          rw [hP0,
            show ovw a (endF (m + 2) (m + 3 + e) 0 ++ [j + 1]) =
              ovw (ovw a (endF (m + 2) (m + 3 + e) 0 ++ [j + 1]))
                (endF (m + 2) (m + 3 + e) 0) from
              (hfold (j + 1) _ _ hElen hElen).symm,
            ihb m e 0 n (ovw a (endF (m + 2) (m + 3 + e) 0 ++ [j + 1])) k coll
              (by omega) (hovlen (j + 1) _ hElen) (by omega)]
          simp only [Option.bind_eq_bind, Option.some_bind]
          have hout : ((grayF (m + 2) (m + 3 + e) 0).reverse).map
              (fun s => _visit n
                (ovw (ovw a (endF (m + 2) (m + 3 + e) 0 ++ [j + 1])) s) k coll) =
              ((grayF (m + 2) (m + 3 + e) 0).reverse).map
              (fun s => _visit n (ovw a (s ++ [j + 1])) k coll) := by
            refine List.map_congr_left ?_
            intro s hs
            rw [hfold (j + 1) _ s hElen
              ((grayF_props (m + 3 + e) (m + 2) 0 s (by omega) (by omega)
                (List.mem_reverse.mp hs)).1)]
          rw [hout, hfold (j + 1) _ _ hElen hMlen, ← hP1n hp0,
            ihbb m e σ n a k coll (j + 1) hσ (by omega) hal (by omega)]
          simp only [Option.bind_eq_bind, Option.some_bind]
          rw [show m + 1 - j = (m + 1 - (j + 1)) + 1 from by omega,
            List.range'_succ]
          simp only [List.flatMap_cons, if_neg hp]
      · rw [if_neg (by rw [hgetP]; omega)]
        have hje : j = m + 1 := by omega
        subst hje
        rw [show m + 1 - (m + 1) = 0 from by omega]
        simp

/-- Evaluating `_visit` on an array view: the array holding string `s` in
positions `1..n` yields, for each label `c < k`, the collection items at the
positions of `s` labelled `c`. -/
theorem visit_eq {a : List Nat} (s : List Nat) (k n : Nat) (coll : List Nat)
    (h1 : 1 ≤ a.length) (hs : s.length = n) :
    _visit n (ovw a s) k coll =
      (List.range k).map (fun c =>
        ((List.range n).filter (fun j => s.getD j 0 == c)).map
          (fun j => coll.getD j 0)) := by
  rw [_visit]
  refine List.map_congr_left fun c _ => ?_
  congr 1
  refine List.filter_congr fun j hj => ?_
  rw [ovw_getD_mid h1 (by rw [hs]; exact List.mem_range.mp hj)]

theorem map_getD_range (l : List Nat) :
    (List.range l.length).map (fun j => l.getD j 0) = l := by
  apply List.ext_getElem
  · simp
  · intro i h1 h2
    simp only [List.getElem_map, List.getElem_range]
    rw [List.getD_eq_getElem _ _ h2]

theorem flatten_if_cons_perm (x : Nat) (gx : Nat) (F : Nat → List Nat) :
    ∀ (ks : List Nat), ks.Nodup → gx ∈ ks →
    (ks.map (fun c => if gx == c then x :: F c else F c)).flatten.Perm
      (x :: (ks.map F).flatten) := by
  intro ks
  induction ks with
  | nil => intro _ hm; cases hm
  | cons c ks ih =>
    intro hk hm
    simp only [List.map_cons, List.flatten_cons]
    by_cases hc : gx = c
    · rw [if_pos (by simp only [beq_iff_eq]; exact hc)]
      have hnotin : gx ∉ ks := by
        rw [hc]
        exact (List.nodup_cons.mp hk).1
      have hrest : ks.map (fun q => if gx == q then x :: F q else F q) =
          ks.map F := by
        refine List.map_congr_left fun q hq => ?_
        have hne : ¬ ((gx == q) = true) := by
          simp only [beq_iff_eq]
          intro he
          refine hnotin ?_
          rw [he]
          exact hq
        rw [if_neg hne]
      rw [hrest]
      simp
    · rw [if_neg (by simp only [beq_iff_eq]; exact hc)]
      have hm' : gx ∈ ks := by
        rcases List.mem_cons.mp hm with h | h
        · exact absurd h hc
        · exact h
      refine ((ih (List.nodup_cons.mp hk).2 hm').append_left (F c)).trans ?_
      exact List.perm_middle

theorem filters_flatten_perm (g : Nat → Nat) :
    ∀ (L ks : List Nat), ks.Nodup → (∀ x ∈ L, g x ∈ ks) →
    (ks.map (fun c => L.filter (fun x => g x == c))).flatten.Perm L := by
  intro L
  induction L with
  | nil =>
    intro ks _ _
    simp
  | cons x L ih =>
    intro ks hk hmem
    have hx : g x ∈ ks := hmem x (List.mem_cons_self x L)
    have heq : ks.map (fun c => (x :: L).filter (fun y => g y == c)) =
        ks.map (fun c => if g x == c then x :: L.filter (fun y => g y == c)
          else L.filter (fun y => g y == c)) := by
      refine List.map_congr_left fun c _ => ?_
      rw [List.filter_cons]
    rw [heq]
    refine (flatten_if_cons_perm x (g x)
      (fun c => L.filter (fun y => g y == c)) ks hk hx).trans ?_
    exact (ih ks hk (fun y hy => hmem y (List.mem_cons_of_mem x hy))).cons x


theorem toFinset_map_list (l : List Nat) (f : Nat → Nat) :
    (l.map f).toFinset = l.toFinset.image f := by
  ext x
  simp

theorem getD_inj_of_nodup {coll : List Nat} (h : coll.Nodup) {j j' : Nat}
    (hj : j < coll.length) (hj' : j' < coll.length)
    (he : coll.getD j 0 = coll.getD j' 0) : j = j' := by
  rw [List.getD_eq_getElem _ _ hj, List.getD_eq_getElem _ _ hj'] at he
  exact h.getElem_inj_iff.mp he

theorem mem_blkIdx {s : List Nat} {c j : Nat} :
    j ∈ blkIdx s c ↔ j < s.length ∧ s.getD j 0 = c := by
  simp [blkIdx]

theorem filter_toFinset_blkIdx {s : List Nat} {n c : Nat} (hs : s.length = n) :
    ((List.range n).filter (fun j => s.getD j 0 == c)).toFinset = blkIdx s c := by
  ext j
  simp [blkIdx, hs, List.mem_filter]

theorem blkIdx_subset_range {s : List Nat} {n c : Nat} (hs : s.length = n) :
    blkIdx s c ⊆ Finset.range n := by
  intro j hj
  rw [Finset.mem_range, ← hs]
  exact (mem_blkIdx.mp hj).1

theorem image_getD_inj {coll : List Nat} (h : coll.Nodup) {A B : Finset Nat}
    (hA : A ⊆ Finset.range coll.length) (hB : B ⊆ Finset.range coll.length)
    (he : A.image (fun j => coll.getD j 0) = B.image (fun j => coll.getD j 0)) :
    A = B := by
  ext j
  constructor
  · intro hj
    have hm : coll.getD j 0 ∈ B.image (fun j => coll.getD j 0) := by
      rw [← he]
      exact Finset.mem_image_of_mem _ hj
    obtain ⟨j', hj', he'⟩ := Finset.mem_image.mp hm
    rwa [getD_inj_of_nodup h (Finset.mem_range.mp (hB hj'))
      (Finset.mem_range.mp (hA hj)) he'] at hj'
  · intro hj
    have hm : coll.getD j 0 ∈ A.image (fun j => coll.getD j 0) := by
      rw [he]
      exact Finset.mem_image_of_mem _ hj
    obtain ⟨j', hj', he'⟩ := Finset.mem_image.mp hm
    rwa [getD_inj_of_nodup h (Finset.mem_range.mp (hA hj'))
      (Finset.mem_range.mp (hB hj)) he'] at hj'

theorem firstIdx_strict_mono {μ : Nat} {s : List Nat} (hc : IsCanon μ s) :
    ∀ c c', c < c' → c' < μ → firstIdx s c < firstIdx s c' := by
  intro c c' h1 h2
  induction c' with
  | zero => omega
  | succ c'' ih =>
    rcases Nat.lt_or_ge c c'' with h | h
    · exact (ih h (by omega)).trans (hc c'' h2)
    · have he : c = c'' := by omega
      subst he
      exact hc c h2

/-- Two canonical surjective labelled strings whose position-block families
coincide (up to relabelling) have identical blocks at every label. -/
theorem blk_family_eq {n k : Nat} {s t : List Nat}
    (hsl : s.length = n) (htl : t.length = n)
    (hsv : ∀ v ∈ s, v < k) (htv : ∀ v ∈ t, v < k)
    (hss : ∀ c, c < k → c ∈ s) (hts : ∀ c, c < k → c ∈ t)
    (hcs : IsCanon k s) (hct : IsCanon k t)
    (hfam : ∀ c, c < k → ∃ c', c' < k ∧ blkIdx s c = blkIdx t c') :
    ∀ c, c < k → blkIdx s c = blkIdx t c := by
  intro c
  induction c using Nat.strong_induction_on with
  | _ c IH =>
    intro hck
    have hj0 : firstIdx s c < n := by
      rw [← hsl]
      exact firstIdx_lt_length (hss c hck)
    have h1 : ∀ j, j < firstIdx s c → s.getD j 0 < c := by
      intro j hj
      by_contra hle
      push_neg at hle
      have hjn : j < s.length := by
        have := firstIdx_lt_length (hss c hck)
        omega
      rcases Nat.eq_or_lt_of_le hle with he | hlt
      · have := firstIdx_le_of_getD hjn he.symm
        omega
      · have hjk : s.getD j 0 < k := hsv _ (mem_of_getD hjn rfl)
        have h2 := firstIdx_strict_mono hcs c (s.getD j 0) hlt hjk
        have h3 := firstIdx_le_of_getD hjn rfl
        omega
    have h2 : ∀ j, j < firstIdx s c → t.getD j 0 = s.getD j 0 := by
      intro j hj
      have hsj : s.getD j 0 < c := h1 j hj
      have hb := IH (s.getD j 0) hsj (lt_trans hsj hck)
      have hmem : j ∈ blkIdx t (s.getD j 0) := by
        rw [← hb]
        exact mem_blkIdx.mpr ⟨by omega, rfl⟩
      exact (mem_blkIdx.mp hmem).2
    have h3 : t.getD (firstIdx s c) 0 = c := by
      have hjt : firstIdx s c < t.length := by omega
      have hc''k : t.getD (firstIdx s c) 0 < k := htv _ (mem_of_getD hjt rfl)
      rcases lt_trichotomy (t.getD (firstIdx s c) 0) c with h | h | h
      · exfalso
        have hb := IH _ h (lt_trans h hck)
        have hmem : firstIdx s c ∈ blkIdx s (t.getD (firstIdx s c) 0) := by
          rw [hb]
          exact mem_blkIdx.mpr ⟨hjt, rfl⟩
        have hs0 : s.getD (firstIdx s c) 0 = t.getD (firstIdx s c) 0 :=
          (mem_blkIdx.mp hmem).2
        rw [getD_firstIdx (hss c hck)] at hs0
        omega
      · exact h
      · exfalso
        have hm1 := firstIdx_strict_mono hct c (t.getD (firstIdx s c) 0) h hc''k
        have hm2 := firstIdx_le_of_getD hjt rfl
        have hlt : firstIdx t c < firstIdx s c := by omega
        have ht1 := h2 _ hlt
        rw [getD_firstIdx (hts c hck)] at ht1
        have hjc : firstIdx t c < s.length := by omega
        have := firstIdx_le_of_getD hjc ht1.symm
        omega
    obtain ⟨c1, hc1k, hbe⟩ := hfam c hck
    have hj0s : firstIdx s c ∈ blkIdx s c :=
      mem_blkIdx.mpr ⟨by omega, getD_firstIdx (hss c hck)⟩
    have hj0t : firstIdx s c ∈ blkIdx t c1 := by
      rw [← hbe]
      exact hj0s
    have hc1 : c1 = c := by
      have := (mem_blkIdx.mp hj0t).2
      rw [h3] at this
      exact this.symm
    rw [hbe, hc1]

theorem eq_of_blk_family {n k : Nat} {s t : List Nat}
    (hsl : s.length = n) (htl : t.length = n)
    (hsv : ∀ v ∈ s, v < k)
    (hbe : ∀ c, c < k → blkIdx s c = blkIdx t c) : s = t := by
  apply List.ext_getElem (by rw [hsl, htl])
  intro i h1 h2
  have hck : s.getD i 0 < k := hsv _ (mem_of_getD h1 rfl)
  have hmem : i ∈ blkIdx t (s.getD i 0) := by
    rw [← hbe _ hck]
    exact mem_blkIdx.mpr ⟨h1, rfl⟩
  have := (mem_blkIdx.mp hmem).2
  rw [List.getD_eq_getElem _ _ h1, List.getD_eq_getElem _ _ h2] at this
  exact this.symm


theorem partFinset_visit {s : List Nat} {n k : Nat} (coll : List Nat)
    (hs : s.length = n) :
    partFinset ((List.range k).map (fun c =>
        ((List.range n).filter (fun j => s.getD j 0 == c)).map
          (fun j => coll.getD j 0))) =
      ((List.range k).map (fun c =>
        (blkIdx s c).image (fun j => coll.getD j 0))).toFinset := by
  rw [partFinset, List.map_map]
  congr 1
  refine List.map_congr_left fun c _ => ?_
  show (((List.range n).filter (fun j => s.getD j 0 == c)).map
      (fun j => coll.getD j 0)).toFinset = _
  rw [toFinset_map_list, filter_toFinset_blkIdx hs]

/-- Distinct canonical surjective strings produce distinct partitions (as
sets of blocks) of a duplicate-free collection. -/
theorem visit_partFinset_inj {coll : List Nat} {k : Nat} {s t : List Nat}
    (hcoll : coll.Nodup)
    (hsl : s.length = coll.length) (htl : t.length = coll.length)
    (hsv : ∀ v ∈ s, v < k) (htv : ∀ v ∈ t, v < k)
    (hss : ∀ c, c < k → c ∈ s) (hts : ∀ c, c < k → c ∈ t)
    (hcs : IsCanon k s) (hct : IsCanon k t)
    (hpf : partFinset ((List.range k).map (fun c =>
        ((List.range coll.length).filter (fun j => s.getD j 0 == c)).map
          (fun j => coll.getD j 0))) =
      partFinset ((List.range k).map (fun c =>
        ((List.range coll.length).filter (fun j => t.getD j 0 == c)).map
          (fun j => coll.getD j 0)))) : s = t := by
  rw [partFinset_visit coll hsl, partFinset_visit coll htl] at hpf
  refine eq_of_blk_family hsl htl hsv
    (blk_family_eq hsl htl hsv htv hss hts hcs hct ?_)
  intro c hck
  have hmem : (blkIdx s c).image (fun j => coll.getD j 0) ∈
      ((List.range k).map (fun c =>
        (blkIdx t c).image (fun j => coll.getD j 0))).toFinset := by
    rw [← hpf, List.mem_toFinset]
    exact List.mem_map_of_mem _ (List.mem_range.mpr hck)
  rw [List.mem_toFinset] at hmem
  obtain ⟨c1, hc1, he⟩ := List.mem_map.mp hmem
  exact ⟨c1, List.mem_range.mp hc1,
    image_getD_inj hcoll (blkIdx_subset_range hsl) (blkIdx_subset_range htl)
      he.symm⟩

theorem visitP_no_empty {s : List Nat} {n k : Nat} (coll : List Nat)
    (hsl : s.length = n) (hss : ∀ c, c < k → c ∈ s) :
    [] ∉ (List.range k).map (fun c =>
      ((List.range n).filter (fun j => s.getD j 0 == c)).map
        (fun j => coll.getD j 0)) := by
  intro hmem
  obtain ⟨c, hc, he⟩ := List.mem_map.mp hmem
  have hck : c < k := List.mem_range.mp hc
  have h1 : firstIdx s c ∈
      (List.range n).filter (fun j => s.getD j 0 == c) := by
    rw [List.mem_filter]
    have hlt : firstIdx s c < n := by
      rw [← hsl]
      exact firstIdx_lt_length (hss c hck)
    refine ⟨List.mem_range.mpr hlt, ?_⟩
    rw [beq_iff_eq]
    exact getD_firstIdx (hss c hck)
  rw [List.map_eq_nil_iff.mp he] at h1
  exact List.not_mem_nil _ h1

theorem visitP_pairwise {s : List Nat} {k : Nat} (coll : List Nat)
    (hcoll : coll.Nodup) (hsl : s.length = coll.length) :
    ((List.range k).map (fun c =>
      ((List.range coll.length).filter (fun j => s.getD j 0 == c)).map
        (fun j => coll.getD j 0))).Pairwise
      (fun b b' => ∀ x ∈ b, x ∉ b') := by
  rw [List.pairwise_map]
  refine (List.pairwise_lt_range k).imp ?_
  intro c c' hlt x hx hx'
  obtain ⟨j, hj, hje⟩ := List.mem_map.mp hx
  obtain ⟨j', hj', hje'⟩ := List.mem_map.mp hx'
  rw [List.mem_filter] at hj hj'
  have hjj : j = j' := getD_inj_of_nodup hcoll
    (List.mem_range.mp hj.1) (List.mem_range.mp hj'.1)
    (by rw [hje, hje'])
  have h1 := hj.2
  have h2 := hj'.2
  rw [hjj] at h1
  rw [beq_iff_eq] at h1 h2
  omega

theorem visitP_flatten_perm {s : List Nat} {k : Nat} (coll : List Nat)
    (hsl : s.length = coll.length) (hsv : ∀ v ∈ s, v < k) :
    ((List.range k).map (fun c =>
      ((List.range coll.length).filter (fun j => s.getD j 0 == c)).map
        (fun j => coll.getD j 0))).flatten.Perm coll := by
  have h1 : (List.range k).map (fun c =>
      ((List.range coll.length).filter (fun j => s.getD j 0 == c)).map
        (fun j => coll.getD j 0)) =
      ((List.range k).map (fun c =>
        (List.range coll.length).filter (fun j => s.getD j 0 == c))).map
        (List.map (fun j => coll.getD j 0)) := by
    rw [List.map_map]
    rfl
  rw [h1, ← List.map_flatten]
  have h2 : ((List.range k).map (fun c =>
      (List.range coll.length).filter (fun j => s.getD j 0 == c))).flatten.Perm
      (List.range coll.length) := by
    refine filters_flatten_perm (fun j => s.getD j 0) _ _ (List.nodup_range k) ?_
    intro x hx
    refine List.mem_range.mpr (hsv _ (mem_of_getD ?_ rfl))
    rw [hsl]
    exact List.mem_range.mp hx
  have h3 := h2.map (fun j => coll.getD j 0)
  rwa [map_getD_range coll] at h3


theorem flatten_map_singleton (l : List Nat) :
    (l.map (fun x => [x])).flatten = l := by
  induction l with
  | nil => rfl
  | cons x l ih =>
    simp only [List.map_cons, List.flatten_cons, ih]
    rfl

/-- The initial growth array already holds the minimal string of the
revolving-door enumeration in positions `1..n`. -/
theorem ovw_init (m d : Nat) :
    ovw (List.replicate (d + 2) 0 ++ List.range (m + 2))
      (minStr (m + 2) (m + 3 + d)) =
    List.replicate (d + 2) 0 ++ List.range (m + 2) := by
  have hms : minStr (m + 2) (m + 3 + d) =
      List.replicate (d + 2) 0 ++ List.range' 1 (m + 1) := by
    have h := minStr_eq (m + 1) (d + 1)
    rwa [show m + 1 + 1 = m + 2 from rfl,
      show m + 1 + 1 + (d + 1) = m + 3 + d from by omega,
      show d + 1 + 1 = d + 2 from by omega] at h
  have hlen : (minStr (m + 2) (m + 3 + d)).length = m + 3 + d := by
    rw [show m + 3 + d = m + 2 + (1 + d) from by omega]
    exact minStr_length (m + 1) (1 + d)
  have htake : (List.replicate (d + 2) 0 ++ List.range (m + 2)).take 1 =
      [0] := by
    rw [List.take_append_of_le_length (by
      simp only [List.length_replicate]; omega),
      List.take_replicate, show min 1 (d + 2) = 1 from by omega]
    rfl
  have hdrop : (List.replicate (d + 2) 0 ++ List.range (m + 2)).drop
      (m + 3 + d + 1) = [] := by
    refine List.drop_eq_nil_of_le ?_
    simp only [List.length_append, List.length_replicate, List.length_range]
    omega
  rw [ovw, hlen, htake, hdrop, List.append_nil, hms,
    show List.range (m + 2) = 0 :: List.range' 1 (m + 1) from by
      rw [List.range_eq_range', List.range'_succ]]
  show 0 :: (List.replicate (d + 2) 0 ++ List.range' 1 (m + 1)) =
    List.replicate (d + 2) 0 ++ 0 :: List.range' 1 (m + 1)
  rw [show (0 : Nat) :: (List.replicate (d + 2) 0 ++ List.range' 1 (m + 1)) =
      (0 :: List.replicate (d + 2) 0) ++ List.range' 1 (m + 1) from rfl,
    ← List.replicate_succ, List.replicate_succ', List.append_assoc]
  rfl

/-- The general branch of `k_partitions`: for `2 ≤ k ≤ n - 1` the function
returns the visits of the full revolving-door sequence. -/
theorem k_partitions_main (coll : List Nat) (m d : Nat)
    (hn : coll.length = m + 3 + d) :
    k_partitions coll ((m + 2 : Nat) : Int) =
      some ((grayF (m + 2) (m + 3 + d) 0).map (fun s =>
        _visit (m + 3 + d)
          (ovw (List.replicate (d + 2) 0 ++ List.range (m + 2)) s)
          (m + 2) coll)) := by
  rw [k_partitions]
  rw [if_neg (by rw [hn]; push_neg; constructor <;> omega)]
  rw [if_neg (by omega)]
  rw [if_neg (by rw [hn]; omega)]
  rw [Int.toNat_natCast, hn,
    initA_eq (m + 3 + d) (m + 2) (by omega) (by omega),
    show m + 3 + d - (m + 2) + 1 = d + 2 from by omega]
  simp only [Option.bind_eq_bind, Option.some_bind]
  have hfuel : (m + 2) * (m + 3 + d) + 1 ≤ kPartitionFuel (m + 3 + d) (m + 2) := by
    rw [kPartitionFuel]
    have h1 : (m + 2 + 3) * (m + 3 + d + 3) =
        (m + 2) * (m + 3 + d) + 3 * (m + 3 + d) + (m + 2) * 3 + 9 := by
      ring
    omega
  have hal : m + 3 + d + 1 ≤
      (List.replicate (d + 2) 0 ++ List.range (m + 2)).length := by
    simp only [List.length_append, List.length_replicate, List.length_range]
    omega
  have hf := (fb_main (kPartitionFuel (m + 3 + d) (m + 2))).1 m d 0
    (m + 3 + d) (List.replicate (d + 2) 0 ++ List.range (m + 2)) (m + 2) coll
    (by omega) hal hfuel
  rw [ovw_init] at hf
  rw [hf]
  simp only [Option.bind_eq_bind, Option.some_bind]


/-- C1: for every duplicate-free collection of size `n` and every `k` with
`1 ≤ k ≤ n`, `k_partitions` returns exactly `S(n,k)` (Stirling second kind)
partitions, pairwise distinct as sets of block-sets, each consisting of
exactly `k` non-empty pairwise-disjoint blocks whose concatenation is a
permutation of the input collection; and `k_partitions [0,1,2] 2` is exactly
the three partitions `[[0,1],[2]]`, `[[0],[1,2]]`, `[[0,2],[1]]`. -/
theorem c1_k_partitions :
    (∀ (coll : List Nat) (k : Int), coll.Nodup → 1 ≤ k →
      k ≤ (coll.length : Int) →
      ∃ out, k_partitions coll k = some out ∧
        out.length = stirling coll.length k.toNat ∧
        (out.map partFinset).Nodup ∧
        ∀ p ∈ out, p.length = k.toNat ∧ [] ∉ p ∧
          p.Pairwise (fun b b' => ∀ x ∈ b, x ∉ b') ∧
          p.flatten.Perm coll) ∧
    k_partitions [0, 1, 2] 2 =
      some [[[0, 1], [2]], [[0], [1, 2]], [[0, 2], [1]]] := by
  constructor
  · intro coll k hnd hk1 hkn
    by_cases hk : k = 1
    · subst hk
      rw [k_partitions, if_neg (by push_neg; omega), if_pos rfl]
      refine ⟨[[coll]], rfl, ?_, ?_, ?_⟩
      · obtain ⟨q, hq⟩ : ∃ q, coll.length = q + 1 := ⟨coll.length - 1, by omega⟩
        rw [hq]
        simp only [Int.toNat_one]
        rw [stirling_one q]
        rfl
      · simp [partFinset]
      · intro p hp
        rw [List.mem_singleton] at hp
        subst hp
        refine ⟨rfl, ?_, by simp, by simp⟩
        intro hmem
        rw [List.mem_singleton] at hmem
        have hz : coll.length = 0 := by rw [← hmem]; rfl
        omega
    · by_cases hk2 : k = (coll.length : Int)
      · rw [k_partitions, if_neg (by push_neg; omega), if_neg hk, if_pos hk2]
        have hkt : k.toNat = coll.length := by omega
        refine ⟨[coll.map (fun item => [item])], rfl, ?_, ?_, ?_⟩
        · rw [hkt, stirling_self]
          rfl
        · simp [partFinset]
        · intro p hp
          rw [List.mem_singleton] at hp
          subst hp
          refine ⟨by rw [List.length_map, hkt], ?_, ?_, ?_⟩
          · intro hmem
            obtain ⟨x, _, he⟩ := List.mem_map.mp hmem
            simp at he
          · rw [List.pairwise_map]
            refine hnd.imp ?_
            intro a b hab x hx hxb
            rw [List.mem_singleton] at hx hxb
            refine hab ?_
            rw [← hx, ← hxb]
          · rw [flatten_map_singleton]
      · obtain ⟨m, hm⟩ : ∃ m, k.toNat = m + 2 := ⟨k.toNat - 2, by omega⟩
        obtain ⟨d, hd⟩ : ∃ d, coll.length = m + 3 + d :=
          ⟨coll.length - m - 3, by omega⟩
        have hkk : k = ((m + 2 : Nat) : Int) := by omega
        rw [hkk, k_partitions_main coll m d hd]
        have ha0len : 1 ≤
            (List.replicate (d + 2) 0 ++ List.range (m + 2)).length := by
          simp only [List.length_append, List.length_replicate,
            List.length_range]
          omega
        refine ⟨_, rfl, ?_, ?_, ?_⟩
        · rw [List.length_map,
            grayF_length_eq (m + 3 + d) (m + 2) 0 (by omega) (by omega),
            hd, Int.toNat_natCast]
        · rw [List.map_map]
          refine (grayF_nodup (m + 3 + d) (m + 2) 0 (by omega)
            (by omega)).map_on ?_
          intro s hs t ht he
          obtain ⟨hsl, hsv, hss, hcs⟩ :=
            grayF_props (m + 3 + d) (m + 2) 0 s (by omega) (by omega) hs
          obtain ⟨htl, htv, hts, hct⟩ :=
            grayF_props (m + 3 + d) (m + 2) 0 t (by omega) (by omega) ht
          simp only [Function.comp_apply] at he
          rw [visit_eq s (m + 2) (m + 3 + d) coll ha0len hsl,
            visit_eq t (m + 2) (m + 3 + d) coll ha0len htl] at he
          rw [← hd] at he hsl htl
          exact visit_partFinset_inj hnd hsl htl hsv htv hss hts hcs hct he
        · intro p hp
          obtain ⟨s, hs, hpe⟩ := List.mem_map.mp hp
          obtain ⟨hsl, hsv, hss, hcs⟩ :=
            grayF_props (m + 3 + d) (m + 2) 0 s (by omega) (by omega) hs
          subst hpe
          rw [visit_eq s (m + 2) (m + 3 + d) coll ha0len hsl]
          rw [← hd] at hsl
          refine ⟨?_, ?_, ?_, ?_⟩
          · rw [List.length_map, List.length_range, Int.toNat_natCast]
          · rw [← hd]
            exact visitP_no_empty coll hsl hss
          · rw [← hd]
            exact visitP_pairwise coll hnd hsl
          · rw [← hd]
            exact visitP_flatten_perm coll hsl hsv
  · decide


/-- Witness for C1 at `coll = [0,1,2]`, `k = 2`. -/
theorem c1_witness :
    ([0, 1, 2] : List Nat).Nodup ∧ ((1 : Int) ≤ 2 ∧
      (2 : Int) ≤ (([0, 1, 2] : List Nat).length : Int)) ∧
      ∃ out, k_partitions [0, 1, 2] 2 = some out ∧
        out.length = stirling ([0, 1, 2] : List Nat).length (2 : Int).toNat ∧
        (out.map partFinset).Nodup ∧
        ∀ p ∈ out, p.length = (2 : Int).toNat ∧ [] ∉ p ∧
          p.Pairwise (fun b b' => ∀ x ∈ b, x ∉ b') ∧
          p.flatten.Perm [0, 1, 2] :=
  ⟨by decide, ⟨by decide, by decide⟩,
    c1_k_partitions.1 [0, 1, 2] 2 (by decide) (by decide) (by decide)⟩

end PyPhi
